import Mathlib

/-!
# Fit stage of the spike-sorting pipeline (fit_stage_new.cpp)

A shallow embedding of `src/mountainsort/src/processors/fit_stage_new.cpp`.

Conventions of the embedding.

* `double` values live in an arbitrary linearly ordered field `α` (exact arithmetic, no NaN);
  concrete runs use `ℚ` where only comparisons are needed and `ℝ` where a norm is needed.
* `long` / `int` values that can be negative (event times, labels, clip size, decision
  marks) are `Int`; loop counters and list positions are `Nat`.  No overflow is modelled.
* A `QList` is a `List`; `xs[i]` is `xs.getD i 0` (the source never indexes past the end on
  well formed input), an assignment `xs[i] = v` is `xs.set i v`.
* A `for (i = 0; i < n; i++)` loop is `forLoop n body`, the body receiving the counter.
* An `Mda` is its three leading dimensions and its flat column-major data; a `double*` into
  it is the data together with a (possibly negative) flat offset.  A read outside the data
  yields `0` and a write outside the data is dropped; every statement about the buffer
  carries the hypothesis that the windows are inside the buffer, where the embedding and
  the source agree.
* `compute_norm` (declared in `msmisc.h`, not part of the sources at hand) is a parameter
  `compute_norm : Nat → (Nat → α) → α` with the signature of the C function (a length and a
  pointer); the theorems that depend on its value assume it is a Euclidean norm.
-/

set_option autoImplicit false
set_option linter.unusedSectionVars false

namespace FitStage

/-! ## Loops and raw memory -/

/-- Counted loop: `forLoop n body s` runs `body 0`, `body 1`, ..., `body (n-1)` on `s`. -/
def forLoop {σ : Type} : Nat → (Nat → σ → σ) → σ → σ
  | 0, _, s => s
  | n + 1, body, s => body n (forLoop n body s)

/-- Read of a flat array at a signed position; positions outside the data read as zero. -/
def rd {α : Type} [Zero α] (data : List α) (p : Int) : α :=
  if p < 0 then 0 else data.getD p.toNat 0

/-- Write of a flat array at a signed position; positions outside the data are dropped. -/
def wr {α : Type} (data : List α) (p : Int) (v : α) : List α :=
  if p < 0 then data else data.set p.toNat v

/-- Pointer `data + off`: the function giving the element `i` places after the offset. -/
def ptr {α : Type} [Zero α] (data : List α) (off : Int) : Nat → α :=
  fun i => rd data (off + i)

/-- Dense array with up to three dimensions, stored column-major. -/
structure Mda (α : Type) where
  N1 : Nat
  N2 : Nat
  N3 : Nat
  data : List α

/-- Flat offset of entry `(i1, i2, i3)`, as computed by `Mda::dataPtr`. -/
def Mda.dataPtr {α : Type} (A : Mda α) (i1 i2 i3 : Int) : Int :=
  i1 + (A.N1 : Int) * i2 + (A.N1 : Int) * (A.N2 : Int) * i3

/-- Options of the fit stage that the fitting code reads. -/
structure fit_stage_opts where
  clip_size : Int

/-! ## Non-max event selector -/

/-- Loop state of `find_events_to_use0`. -/
structure SelState (α : Type) where
  to_use : List Int
  last_best_score : α
  last_best_ind : Nat

/-- Body of the inner rescan loop of `find_events_to_use0` (lines 245-252), at counter `ii`
while the outer loop is at `i`. -/
def rescan_body {α : Type} [LinearOrderedField α] (times : List Int) (scores : List α)
    (opts : fit_stage_opts) (i ii : Nat) (s : SelState α) : SelState α :=
  if times.getD ii 0 ≥ times.getD i 0 - opts.clip_size then
    let s1 : SelState α :=
      if scores.getD ii 0 < scores.getD i 0 then { s with to_use := s.to_use.set ii 0 } else s
    if scores.getD ii 0 > s1.last_best_score then
      { s1 with last_best_score := scores.getD ii 0, last_best_ind := ii }
    else s1
  else s

/-- Body of the outer loop of `find_events_to_use0` (lines 241-264) at counter `i`. -/
def select_body {α : Type} [LinearOrderedField α] (times : List Int) (scores : List α)
    (opts : fit_stage_opts) (i : Nat) (s : SelState α) : SelState α :=
  if scores.getD i 0 > 0 then
    let s1 : SelState α :=
      if times.getD s.last_best_ind 0 < times.getD i 0 - opts.clip_size then
        forLoop (i - (s.last_best_ind + 1))
          (fun j => rescan_body times scores opts i (s.last_best_ind + 1 + j))
          { s with last_best_score := 0 }
      else s
    if scores.getD i 0 > s1.last_best_score then
      let s2 : SelState α :=
        if s1.last_best_score > 0 then { s1 with to_use := s1.to_use.set s1.last_best_ind 0 }
        else s1
      { to_use := s2.to_use.set i 1, last_best_score := scores.getD i 0, last_best_ind := i }
    else s1
  else s

/-- State of the selector after the outer loop has handled the positions below `n`. -/
def select_loop {α : Type} [LinearOrderedField α] (times : List Int) (scores : List α)
    (opts : fit_stage_opts) (n : Nat) : SelState α :=
  forLoop n (select_body times scores opts)
    { to_use := List.replicate times.length 0, last_best_score := 0, last_best_ind := 0 }

/-- The selector `find_events_to_use0`: one mark (0 or 1) per candidate. -/
def find_events_to_use0 {α : Type} [LinearOrderedField α] (times : List Int) (scores : List α)
    (opts : fit_stage_opts) : List Int :=
  (select_loop times scores opts times.length).to_use

/-- Position `m` carries the keep mark in the selector state. -/
def marked {α : Type} (s : SelState α) (m : Nat) : Prop := s.to_use.getD m 0 = 1

/-- Invariant of the outer selector loop after the positions below `n`, for ascending times:
marks sit below `n` and at or below the best pointer, a positive best score is recorded as
soon as anything is marked, marked positions are pairwise more than `W` apart, and every
mark other than the best pointer is more than `W` before all positions still to come. -/
structure SelInv {α : Type} [LinearOrderedField α] (times : List Int) (W : Int) (n : Nat)
    (s : SelState α) : Prop where
  bound : ∀ m, marked s m → m < n
  below : ∀ m, marked s m → m ≤ s.last_best_ind
  pos : 0 < s.last_best_score ∨ ∀ m, ¬ marked s m
  sep : ∀ a b, marked s a → marked s b → a < b → times.getD a 0 + W < times.getD b 0
  far : ∀ m, marked s m → m ≠ s.last_best_ind →
    ∀ k, n ≤ k → k < times.length → times.getD m 0 + W < times.getD k 0

/-! ## Score evaluator and template subtraction -/

/-- The function `compute_score0` (lines 221-230).  The residual is a fresh zero-filled
array of length `N` that the loop fills; `compute_norm` is the helper of `msmisc.h`, taken
as a parameter. -/
def compute_score0 {α : Type} [LinearOrderedField α] (compute_norm : Nat → (Nat → α) → α)
    (N : Nat) (X template0 : Nat → α) : α :=
  let resid : List α := forLoop N (fun i r => r.set i (X i - template0 i)) (List.replicate N 0)
  let norm1 := compute_norm N X
  let norm2 := compute_norm N (ptr resid 0)
  norm1 * norm1 - norm2 * norm2

/-- The function `subtract_template0` (lines 269-274) on the buffer `data`, the pointer
`X` of the source being `data + off`.  Returns the buffer after the loop. -/
def subtract_template0 {α : Type} [LinearOrderedField α] (N : Nat) (data : List α) (off : Int)
    (template0 : Nat → α) : List α :=
  forLoop N (fun i d => wr d (off + i) (rd d (off + i) - template0 i)) data

/-! ## Greedy fitting kernel -/

/-- The value `Tmid = (int)((T + 1) / 2) - 1` with C integer division. -/
def Tmid (opts : fit_stage_opts) : Int := Int.tdiv (opts.clip_size + 1) 2 - 1

/-- Length `M * T` handed to the score and subtraction loops (no iteration when negative). -/
def win_len {α : Type} (X : Mda α) (opts : fit_stage_opts) : Nat :=
  ((X.N1 : Int) * opts.clip_size).toNat

/-- Pointer `X.dataPtr(0, t0 - Tmid)` as a flat offset into the buffer. -/
def win_off {α : Type} (X : Mda α) (opts : fit_stage_opts) (t0 : Int) : Int :=
  X.dataPtr 0 (t0 - Tmid opts) 0

/-- Pointer `templates.dataPtr(0, 0, k0 - 1)`. -/
def template_ptr {α : Type} [Zero α] (templates : Mda α) (k0 : Int) : Nat → α :=
  ptr templates.data (templates.dataPtr 0 0 (k0 - 1))

/-- Lists built by the scoring loop of one pass (lines 171-196).  The field `scored` is not
in the source: it records, in order, every event for which `compute_score0` was evaluated
in this pass together with the score obtained. -/
structure TryState (α : Type) where
  all_to_use : List Int
  scores_to_try : List α
  times_to_try : List Int
  labels_to_try : List Int
  inds_to_try : List Nat
  scored : List (Nat × α)

/-- Body of the scoring loop (lines 177-195) at event `i`. -/
def score_body {α : Type} [LinearOrderedField α] (compute_norm : Nat → (Nat → α) → α)
    (X : Mda α) (times : List Int) (labels : List Int) (templates : Mda α)
    (opts : fit_stage_opts) (i : Nat) (s : TryState α) : TryState α :=
  if s.all_to_use.getD i 0 = 0 then
    let t0 := times.getD i 0
    let k0 := labels.getD i 0
    if k0 > 0 then
      let score0 := compute_score0 compute_norm (win_len X opts)
        (ptr X.data (win_off X opts t0)) (template_ptr templates k0)
      if score0 > 0 then
        { all_to_use := s.all_to_use,
          scores_to_try := s.scores_to_try ++ [score0],
          times_to_try := s.times_to_try ++ [t0],
          labels_to_try := s.labels_to_try ++ [k0],
          inds_to_try := s.inds_to_try ++ [i],
          scored := s.scored ++ [(i, score0)] }
      else
        { s with all_to_use := s.all_to_use.set i (-1), scored := s.scored ++ [(i, score0)] }
    else s
  else s

/-- State of the kernel between passes.  The fields `score_log` (pass number, event, score
of every evaluation of `compute_score0`) and `sub_log` (the events whose template was
subtracted, in order) are not in the source; nothing is computed from them. -/
structure KState (α : Type) where
  X : Mda α
  all_to_use : List Int
  something_changed : Bool
  num_passes : Nat
  score_log : List (Nat × Nat × α)
  sub_log : List Nat

/-- Body of the acceptance loop (lines 201-206) at candidate `i` of the pass. -/
def apply_body {α : Type} [LinearOrderedField α] (templates : Mda α) (opts : fit_stage_opts)
    (tr : TryState α) (to_use : List Int) (i : Nat) (s : KState α) : KState α :=
  if to_use.getD i 0 = 1 then
    let data := subtract_template0 (win_len s.X opts) s.X.data
      (win_off s.X opts (tr.times_to_try.getD i 0))
      (template_ptr templates (tr.labels_to_try.getD i 0))
    { X := { N1 := s.X.N1, N2 := s.X.N2, N3 := s.X.N3, data := data },
      all_to_use := s.all_to_use.set (tr.inds_to_try.getD i 0) 1,
      something_changed := true,
      num_passes := s.num_passes,
      score_log := s.score_log,
      sub_log := s.sub_log ++ [tr.inds_to_try.getD i 0] }
  else s

/-- The scoring loop of one pass over all `L` events. -/
def score_loop {α : Type} [LinearOrderedField α] (compute_norm : Nat → (Nat → α) → α)
    (times : List Int) (labels : List Int) (templates : Mda α) (opts : fit_stage_opts)
    (s : KState α) (n : Nat) : TryState α :=
  forLoop n (score_body compute_norm s.X times labels templates opts)
    { all_to_use := s.all_to_use, scores_to_try := [], times_to_try := [],
      labels_to_try := [], inds_to_try := [], scored := [] }

/-- One pass of the while loop (lines 169-208). -/
def kernel_pass {α : Type} [LinearOrderedField α] (compute_norm : Nat → (Nat → α) → α)
    (times : List Int) (labels : List Int) (templates : Mda α) (opts : fit_stage_opts)
    (s : KState α) : KState α :=
  let tr := score_loop compute_norm times labels templates opts s times.length
  let to_use := find_events_to_use0 tr.times_to_try tr.scores_to_try opts
  forLoop to_use.length (apply_body templates opts tr to_use)
    { X := s.X, all_to_use := tr.all_to_use, something_changed := false,
      num_passes := s.num_passes + 1,
      score_log := s.score_log ++ tr.scored.map (fun p => (s.num_passes + 1, p.1, p.2)),
      sub_log := s.sub_log }

/-- The loop `while (something_changed)` with a bound on the number of passes: `none` when
the bound is used up before the loop condition fails. -/
def kernel_loop {α : Type} (pass : KState α → KState α) : Nat → KState α → Option (KState α)
  | 0, s => if s.something_changed then none else some s
  | fuel + 1, s => if s.something_changed then kernel_loop pass fuel (pass s) else some s

/-- State of the kernel on entry to the while loop (lines 163-167). -/
def kernel_init {α : Type} (X : Mda α) (times : List Int) : KState α :=
  { X := X, all_to_use := forLoop times.length (fun _ l => l ++ [0]) [],
    something_changed := true, num_passes := 0, score_log := [], sub_log := [] }

/-- The final loop of the kernel (lines 211-216): positions whose decision is 1. -/
def collect_inds (L : Nat) (all_to_use : List Int) : List Nat :=
  forLoop L (fun i acc => if all_to_use.getD i 0 = 1 then acc ++ [i] else acc) []

/-- The kernel run up to the exit of the while loop, with a bound on the passes.  The
values `K` and `template_norms` of lines 155-161 are never read and are left out. -/
def kernel_run {α : Type} [LinearOrderedField α] (compute_norm : Nat → (Nat → α) → α)
    (fuel : Nat) (X : Mda α) (times : List Int) (labels : List Int) (templates : Mda α)
    (opts : fit_stage_opts) : Option (KState α) :=
  kernel_loop (kernel_pass compute_norm times labels templates opts) fuel (kernel_init X times)

/-- The function `fit_stage_kernel` (lines 148-219): the state at loop exit (holding the
buffer as the caller sees it afterwards) and the returned index list.  The pass bound
`L + 1` is never reached (theorem `kernel_run_total`). -/
def fit_stage_kernel {α : Type} [LinearOrderedField α] (compute_norm : Nat → (Nat → α) → α)
    (X : Mda α) (times : List Int) (labels : List Int) (templates : Mda α)
    (opts : fit_stage_opts) : Option (KState α × List Nat) :=
  (kernel_run compute_norm (times.length + 1) X times labels templates opts).map
    (fun s => (s, collect_inds times.length s.all_to_use))

/-! ## Chunked driver -/

/-- Modelled from the spec: `DiskReadMda::readChunk(chunk, 0, i2, size1, size2)` is not
among the sources at hand.  Following the interface description (a dense buffer for a time
range that may start before 0 or extend past the end of the series), the chunk has `size1`
rows and `size2` columns and column `c` holds column `i2 + c` of the series.  Entries whose
column lies outside the series are taken to be zero; the examples below never read them. -/
def readChunk {α : Type} [Zero α] (X : Mda α) (i2 : Int) (size1 : Nat) (size2 : Nat) : Mda α :=
  { N1 := size1, N2 := size2, N3 := 1,
    data := (List.range (size1 * size2)).map (fun p =>
      let c : Int := i2 + ((p / size1 : Nat) : Int)
      if 0 ≤ c ∧ c < X.N2 ∧ p % size1 < X.N1 then
        X.data.getD (p % size1 + X.N1 * c.toNat) 0
      else 0) }

/-- Events handed to the kernel for one chunk (lines 84-90). -/
structure LocalEvents where
  local_indices : List Nat
  local_times : List Int
  local_labels : List Int

/-- Body of the selection loop of lines 84-90 for the chunk that starts at `timepoint`. -/
def local_body (times : List Int) (labels : List Int) (timepoint chunk_size overlap_size : Int)
    (i : Nat) (s : LocalEvents) : LocalEvents :=
  if timepoint - overlap_size ≤ times.getD i 0 ∧
      times.getD i 0 < timepoint - overlap_size + chunk_size + 2 * overlap_size then
    { local_indices := s.local_indices ++ [i],
      local_times := s.local_times ++ [times.getD i 0],
      local_labels := s.local_labels ++ [labels.getD i 0] }
  else s

/-- Body of the merge loop of lines 104-110: candidate `j` of the kernel answer. -/
def merge_body (loc : LocalEvents) (local_inds_to_use : List Nat)
    (chunk_size overlap_size : Int) (j : Nat) (inds_to_use : List Nat) : List Nat :=
  let iii := loc.local_indices.getD (local_inds_to_use.getD j 0) 0
  let ttt := loc.local_times.getD iii 0
  if ttt ≥ overlap_size ∧ ttt < overlap_size + chunk_size then inds_to_use ++ [iii]
  else inds_to_use

/-- Event indices that the loop iteration for the chunk starting at `timepoint` appends to
`inds_to_use` (lines 72-110), in the order of the appends. -/
def chunk_contribution {α : Type} [LinearOrderedField α]
    (compute_norm : Nat → (Nat → α) → α) (X : Mda α) (times : List Int) (labels : List Int)
    (templates : Mda α) (opts : fit_stage_opts) (chunk_size overlap_size : Nat)
    (timepoint : Nat) : Option (List Nat) :=
  let chunk := readChunk X ((timepoint : Int) - overlap_size) X.N1 (chunk_size + 2 * overlap_size)
  let loc := forLoop times.length (local_body times labels timepoint chunk_size overlap_size)
    { local_indices := [], local_times := [], local_labels := [] }
  (fit_stage_kernel compute_norm chunk loc.local_times loc.local_labels templates opts).map
    (fun r => forLoop r.2.length (merge_body loc r.2 chunk_size overlap_size) [])

/-- Chunk size and overlap actually used (lines 57-62). -/
def chunk_params (PROCESSING_CHUNK_SIZE PROCESSING_CHUNK_OVERLAP_SIZE N : Nat) : Nat × Nat :=
  if N < PROCESSING_CHUNK_SIZE then (N, 0)
  else (PROCESSING_CHUNK_SIZE, PROCESSING_CHUNK_OVERLAP_SIZE)

/-- Number of iterations of `for (timepoint = 0; timepoint < N; timepoint += chunk_size)`
for a positive chunk size (the loop does not terminate for chunk size 0 and `N > 0`). -/
def num_chunks (N chunk_size : Nat) : Nat := (N + chunk_size - 1) / chunk_size

/-- The list `inds_to_use` that `fit_stage_new` builds (lines 57-128), the chunks taken in
loop order, from the time-sorted and shell-split events and the templates.  The two
processing constants of `msprefs.h` are parameters. -/
def fit_stage_new_inds {α : Type} [LinearOrderedField α]
    (compute_norm : Nat → (Nat → α) → α)
    (PROCESSING_CHUNK_SIZE PROCESSING_CHUNK_OVERLAP_SIZE : Nat) (X : Mda α)
    (times : List Int) (labels : List Int) (templates : Mda α) (opts : fit_stage_opts) :
    Option (List Nat) :=
  let p := chunk_params PROCESSING_CHUNK_SIZE PROCESSING_CHUNK_OVERLAP_SIZE X.N2
  forLoop (num_chunks X.N2 p.1)
    (fun c acc => acc.bind (fun inds =>
      (chunk_contribution compute_norm X times labels templates opts p.1 p.2 (c * p.1)).map
        (fun more => inds ++ more)))
    (some [])

/-! ## Notions used in the statements -/

/-- Score that the kernel computes for event `e` against the buffer `X` (line 181). -/
def score_at {α : Type} [LinearOrderedField α] (compute_norm : Nat → (Nat → α) → α)
    (X : Mda α) (times : List Int) (labels : List Int) (templates : Mda α)
    (opts : fit_stage_opts) (e : Nat) : α :=
  compute_score0 compute_norm (win_len X opts) (ptr X.data (win_off X opts (times.getD e 0)))
    (template_ptr templates (labels.getD e 0))

/-- Buffer obtained by subtracting, in order, the template of each event of a list at the
window of that event (the call of line 204 once per listed event). -/
def sub_events {α : Type} [LinearOrderedField α] (X : Mda α) (times : List Int)
    (labels : List Int) (templates : Mda α) (opts : fit_stage_opts) :
    List Nat → List α → List α
  | [], data => data
  | e :: es, data =>
    sub_events X times labels templates opts es
      (subtract_template0 (win_len X opts) data (win_off X opts (times.getD e 0))
        (template_ptr templates (labels.getD e 0)))

/-- Value that the template of event `e`, placed at the window of `e`, has at the flat
buffer position `a` (zero outside the window). -/
def placed {α : Type} [LinearOrderedField α] (X : Mda α) (times : List Int)
    (labels : List Int) (templates : Mda α) (opts : fit_stage_opts) (e : Nat) (a : Nat) : α :=
  if win_off X opts (times.getD e 0) ≤ (a : Int) ∧
      (a : Int) < win_off X opts (times.getD e 0) + (win_len X opts : Int) then
    template_ptr templates (labels.getD e 0) ((a : Int) - win_off X opts (times.getD e 0)).toNat
  else 0

/-- The window `[t - Tmid, t - Tmid + T)` of an event at time `t` lies inside the columns
of the buffer, and the buffer holds `N1 * N2` values. -/
def window_inside {α : Type} (X : Mda α) (opts : fit_stage_opts) (t : Int) : Prop :=
  0 ≤ t - Tmid opts ∧ t - Tmid opts + opts.clip_size ≤ X.N2 ∧ X.data.length = X.N1 * X.N2

/-- Number of eligible candidates: positions of the event list whose label is > 0. -/
def num_eligible (times : List Int) (labels : List Int) : Nat :=
  ((Finset.range times.length).filter (fun i => 0 < labels.getD i 0)).card

/-- Number of eligible events that are still undecided in a kernel state. -/
def num_undecided {α : Type} (times : List Int) (labels : List Int) (s : KState α) : Nat :=
  ((Finset.range times.length).filter
    (fun i => s.all_to_use.getD i 0 = 0 ∧ 0 < labels.getD i 0)).card

/-- The parameter `compute_norm` is the Euclidean norm: non-negative, with square the sum
of the squares of the first `N` values behind the pointer. -/
def IsEuclideanNorm {α : Type} [LinearOrderedField α] (compute_norm : Nat → (Nat → α) → α) :
    Prop :=
  ∀ (N : Nat) (v : Nat → α),
    0 ≤ compute_norm N v ∧ compute_norm N v * compute_norm N v = ∑ i in Finset.range N, v i ^ 2

/-- Invariant of the scoring loop of a pass that starts in kernel state `s`, after the
events below `n`: the candidate lists are the images of `inds_to_try`, the candidates are
exactly undecided eligible events with a positive score, in ascending order, and only
undecided eligible events below `n` have been rejected. -/
structure ScoreInv {α : Type} [LinearOrderedField α] (compute_norm : Nat → (Nat → α) → α)
    (times : List Int) (labels : List Int) (templates : Mda α) (opts : fit_stage_opts)
    (s : KState α) (n : Nat) (tr : TryState α) : Prop where
  len : tr.all_to_use.length = s.all_to_use.length
  times_eq : tr.times_to_try = tr.inds_to_try.map (fun e => times.getD e 0)
  labels_eq : tr.labels_to_try = tr.inds_to_try.map (fun e => labels.getD e 0)
  scores_eq : tr.scores_to_try =
    tr.inds_to_try.map (score_at compute_norm s.X times labels templates opts)
  keep : ∀ i, tr.all_to_use.getD i 0 = s.all_to_use.getD i 0 ∨
    (s.all_to_use.getD i 0 = 0 ∧ tr.all_to_use.getD i 0 = -1 ∧ i < n ∧ 0 < labels.getD i 0)
  tryp : ∀ e, e ∈ tr.inds_to_try →
    e < n ∧ s.all_to_use.getD e 0 = 0 ∧ tr.all_to_use.getD e 0 = 0 ∧ 0 < labels.getD e 0 ∧
      0 < score_at compute_norm s.X times labels templates opts e
  incr : tr.inds_to_try.Pairwise (· < ·)
  scoredp : ∀ e sc, (e, sc) ∈ tr.scored →
    e < n ∧ s.all_to_use.getD e 0 = 0 ∧ 0 < labels.getD e 0 ∧
      sc = score_at compute_norm s.X times labels templates opts e ∧
      (sc ≤ 0 → tr.all_to_use.getD e 0 = -1) ∧ (0 < sc → e ∈ tr.inds_to_try)
  cover : ∀ i, i < n → s.all_to_use.getD i 0 = 0 → 0 < labels.getD i 0 →
    i ∈ tr.inds_to_try ∨ tr.all_to_use.getD i 0 = -1

/-- Events accepted by the acceptance loop of a pass among its first `m` candidates, in
the order in which the loop meets them. -/
def winners {α : Type} (tr : TryState α) (to_use : List Int) (m : Nat) : List Nat :=
  ((List.range m).filter (fun p => to_use.getD p 0 = 1)).map (fun p => tr.inds_to_try.getD p 0)

/-- Description of the kernel state reached from `s` once the scoring loop has produced
`tr` and the acceptance loop has accepted the events `w`. -/
structure ApplyInv {α : Type} [LinearOrderedField α] (times : List Int) (labels : List Int)
    (templates : Mda α) (opts : fit_stage_opts) (s : KState α) (tr : TryState α)
    (w : List Nat) (A : KState α) : Prop where
  n1 : A.X.N1 = s.X.N1
  n2 : A.X.N2 = s.X.N2
  n3 : A.X.N3 = s.X.N3
  data : A.X.data = sub_events s.X times labels templates opts w s.X.data
  len : A.all_to_use.length = s.all_to_use.length
  marks : ∀ i, A.all_to_use.getD i 0 = if i ∈ w then 1 else tr.all_to_use.getD i 0
  changed : A.something_changed = true ↔ w ≠ []
  sub : A.sub_log = s.sub_log ++ w
  passes : A.num_passes = s.num_passes + 1
  log : A.score_log = s.score_log ++ tr.scored.map (fun p => (s.num_passes + 1, p.1, p.2))

/-- Invariant of the while loop of the kernel started on the buffer `X0`: the decisions
are 0, 1 or -1, only eligible events are decided, the accepted events are exactly the
events whose template has been subtracted, each once, the buffer is the initial buffer
after these subtractions, and every logged evaluation with a non-positive score belongs to
a rejected event. -/
structure KInv {α : Type} [LinearOrderedField α] (X0 : Mda α) (times : List Int)
    (labels : List Int) (templates : Mda α) (opts : fit_stage_opts) (s : KState α) : Prop where
  len : s.all_to_use.length = times.length
  n1 : s.X.N1 = X0.N1
  n2 : s.X.N2 = X0.N2
  n3 : s.X.N3 = X0.N3
  data : s.X.data = sub_events X0 times labels templates opts s.sub_log X0.data
  vals : ∀ i, s.all_to_use.getD i 0 = 0 ∨ s.all_to_use.getD i 0 = 1 ∨
    s.all_to_use.getD i 0 = -1
  elig : ∀ i, s.all_to_use.getD i 0 ≠ 0 → i < times.length ∧ 0 < labels.getD i 0
  acc : ∀ i, s.all_to_use.getD i 0 = 1 ↔ i ∈ s.sub_log
  nodup : s.sub_log.Nodup
  logp : ∀ p e sc, (p, e, sc) ∈ s.score_log →
    1 ≤ p ∧ p ≤ s.num_passes ∧ e < times.length ∧ 0 < labels.getD e 0 ∧
      (sc ≤ 0 → s.all_to_use.getD e 0 = -1)

/-- The template tensor has the shape `M x T x K` that the kernel assumes for the buffer
`X` and the clip size, and holds a template for label `k`. -/
def template_inside {α : Type} (templates X : Mda α) (opts : fit_stage_opts) (k : Int) : Prop :=
  templates.N1 = X.N1 ∧ (templates.N2 : Int) = opts.clip_size ∧ 0 < k ∧ k ≤ templates.N3 ∧
    templates.data.length = templates.N1 * templates.N2 * templates.N3

/-! ## Concrete inputs used in the examples -/

/-- One-channel template set with the single template `[1]` (clip size 1). -/
def unit_template (α : Type) [LinearOrderedField α] : Mda α :=
  { N1 := 1, N2 := 1, N3 := 1, data := [1] }

/-- One-channel series of length 3 with a unit sample at time 1. -/
def short_series (α : Type) [LinearOrderedField α] : Mda α :=
  { N1 := 1, N2 := 3, N3 := 1, data := [0, 1, 0] }

/-- One-channel series of length 20, zero except for a unit sample at time 8. -/
def seam_series (α : Type) [LinearOrderedField α] : Mda α :=
  { N1 := 1, N2 := 20, N3 := 1,
    data := [0, 0, 0, 0, 0, 0, 0, 0, 1, 0, 0, 0, 0, 0, 0, 0, 0, 0, 0, 0] }

/-- Two-channel series of length 20, zero except for a unit pulse on both channels at
time 10. -/
def pulse_series (α : Type) [LinearOrderedField α] : Mda α :=
  { N1 := 2, N2 := 20, N3 := 1,
    data := List.replicate 20 0 ++ [1, 1] ++ List.replicate 18 0 }

/-- Two-channel template of clip size 4 whose pulse sits at the template midpoint. -/
def pulse_template (α : Type) [LinearOrderedField α] : Mda α :=
  { N1 := 2, N2 := 4, N3 := 1, data := [0, 0, 1, 1, 0, 0, 0, 0] }

/-- Kernel state of the one-event example after its event has been accepted in pass 1 (the
buffer is the short series with the template subtracted at time 1). -/
def accepted_state (α : Type) [LinearOrderedField α] : KState α :=
  { X := { N1 := 1, N2 := 3, N3 := 1, data := [0, 0, 0] }, all_to_use := [1],
    something_changed := true, num_passes := 1, score_log := [(1, 0, 1)], sub_log := [0] }

/-! ## The selector without the clearing statement of the rescan -/

/-- Body of the rescan loop with the statement `if (scores[ii] < scores[i]) to_use[ii] = 0;`
of line 246-247 removed. -/
def rescan_body_noclear {α : Type} [LinearOrderedField α] (times : List Int) (scores : List α)
    (opts : fit_stage_opts) (i ii : Nat) (s : SelState α) : SelState α :=
  if times.getD ii 0 ≥ times.getD i 0 - opts.clip_size then
    if scores.getD ii 0 > s.last_best_score then
      { s with last_best_score := scores.getD ii 0, last_best_ind := ii }
    else s
  else s

/-- Body of the outer selector loop whose rescan does not clear marks. -/
def select_body_noclear {α : Type} [LinearOrderedField α] (times : List Int) (scores : List α)
    (opts : fit_stage_opts) (i : Nat) (s : SelState α) : SelState α :=
  if scores.getD i 0 > 0 then
    let s1 : SelState α :=
      if times.getD s.last_best_ind 0 < times.getD i 0 - opts.clip_size then
        forLoop (i - (s.last_best_ind + 1))
          (fun j => rescan_body_noclear times scores opts i (s.last_best_ind + 1 + j))
          { s with last_best_score := 0 }
      else s
    if scores.getD i 0 > s1.last_best_score then
      let s2 : SelState α :=
        if s1.last_best_score > 0 then { s1 with to_use := s1.to_use.set s1.last_best_ind 0 }
        else s1
      { to_use := s2.to_use.set i 1, last_best_score := scores.getD i 0, last_best_ind := i }
    else s1
  else s

/-- State of the selector without the clearing statement after the positions below `n`. -/
def select_loop_noclear {α : Type} [LinearOrderedField α] (times : List Int)
    (scores : List α) (opts : fit_stage_opts) (n : Nat) : SelState α :=
  forLoop n (select_body_noclear times scores opts)
    { to_use := List.replicate times.length 0, last_best_score := 0, last_best_ind := 0 }

/-- The variant of `find_events_to_use0` without the clearing statement of the rescan. -/
def find_events_to_use0_noclear {α : Type} [LinearOrderedField α] (times : List Int)
    (scores : List α) (opts : fit_stage_opts) : List Int :=
  (select_loop_noclear times scores opts times.length).to_use

/-! ## The pieces of one driver iteration -/

/-- The chunk buffer that the driver reads for the chunk starting at `timepoint`
(line 81). -/
def chunk_buffer {α : Type} [Zero α] (X : Mda α) (chunk_size overlap_size timepoint : Nat) :
    Mda α :=
  readChunk X ((timepoint : Int) - overlap_size) X.N1 (chunk_size + 2 * overlap_size)

/-- The events that the driver hands to the kernel for the chunk starting at `timepoint`
(lines 84-90). -/
def chunk_events (times : List Int) (labels : List Int)
    (chunk_size overlap_size timepoint : Nat) : LocalEvents :=
  forLoop times.length (local_body times labels timepoint chunk_size overlap_size)
    { local_indices := [], local_times := [], local_labels := [] }

/-- One-channel series of length 20 with unit samples at times 8 and 18. -/
def double_seam_series (α : Type) [LinearOrderedField α] : Mda α :=
  { N1 := 1, N2 := 20, N3 := 1,
    data := [0, 0, 0, 0, 0, 0, 0, 0, 1, 0, 0, 0, 0, 0, 0, 0, 0, 0, 1, 0] }

/-! ## Shell splitting -/

/-- Modelled from the spec: `Mda::value(i1, i2)` belongs to the array class, which is not
among the sources.  Entry `(i1, i2)` of the table (row `i1` is a field, column `i2` an
event); a position outside the table reads as 0. -/
def Mda.value {α : Type} [Zero α] (A : Mda α) (i1 i2 : Nat) : α :=
  if i1 < A.N1 ∧ i2 < A.N2 then A.data.getD (i1 + A.N1 * i2) 0 else 0

/-- Modelled from the spec: `Mda::setValue(v, i1, i2)` of the array class, which is not
among the sources.  Stores `v` at entry `(i1, i2)`; a position outside the table is left
alone. -/
def Mda.setValue {α : Type} (A : Mda α) (v : α) (i1 i2 : Nat) : Mda α :=
  if i1 < A.N1 ∧ i2 < A.N2 then
    { N1 := A.N1, N2 := A.N2, N3 := A.N3, data := A.data.set (i1 + A.N1 * i2) v }
  else A

/-- The conversion `(int)x` of a `double`: truncation toward zero. -/
def c_int_cast {α : Type} [LinearOrderedField α] [FloorRing α] (x : α) : Int :=
  if 0 ≤ x then Int.floor x else Int.ceil x

/-- Modelled from the spec: `compute_max` is one of the utility routines of `msmisc.h`,
which is not among the sources.  The largest entry of the list, 0 for the empty list. -/
def compute_max (X : List Int) : Int :=
  forLoop X.length (fun i ret => if X.getD i 0 > ret then X.getD i 0 else ret) (X.getD 0 0)

/-- Modelled from the spec: `find_label_inds` is one of the utility routines of
`msmisc.h`, which is not among the sources.  The positions whose label is `k`, ascending. -/
def find_label_inds (labels : List Int) (k : Int) : List Nat :=
  forLoop labels.length (fun i ret => if labels.getD i 0 = k then ret ++ [i] else ret) []

/-- State of the loops of `split_into_shells0`.  The list `labels_new` is built by the
source (line 281) and never read or written afterwards. -/
structure SplitState where
  labels : List Int
  labels_new : List Int
  k2 : Int

/-- Body of the loop over the shells of one cluster (lines 293-297): every member of the
shell gets label `k2` in the list `labels`, then `k2` is incremented. -/
def shell_body (inds_k : List Nat) (s_inds : List Nat) (st : SplitState) : SplitState :=
  { labels := forLoop s_inds.length
      (fun b l => l.set (inds_k.getD (s_inds.getD b 0) 0) st.k2) st.labels,
    labels_new := st.labels_new,
    k2 := st.k2 + 1 }

/-- Body of the loop over the clusters (lines 286-298) for cluster `k`.  The helper
`define_shells` (with its options) is a parameter: it maps the peak list of the cluster
to the position lists of its shells. -/
def cluster_body {α : Type} [Zero α] (define_shells : List α → List (List Nat))
    (firings : Mda α) (k : Int) (st : SplitState) : SplitState :=
  let inds_k := find_label_inds st.labels k
  let peaks := forLoop inds_k.length
    (fun j p => p ++ [firings.value 3 (inds_k.getD j 0)]) []
  let shells := define_shells peaks
  forLoop shells.length (fun a s => shell_body inds_k (shells.getD a []) s) st

/-- The label list at the end of the cluster loop of `split_into_shells0` (lines 278-299). -/
def split_labels {α : Type} [LinearOrderedField α] [FloorRing α]
    (define_shells : List α → List (List Nat)) (firings : Mda α) : List Int :=
  let st0 : SplitState := forLoop firings.N2
    (fun j s => { labels := s.labels ++ [c_int_cast (firings.value 2 j)],
                  labels_new := s.labels_new ++ [0], k2 := s.k2 })
    { labels := [], labels_new := [], k2 := 1 }
  let K := compute_max st0.labels
  (forLoop K.toNat (fun j s => cluster_body define_shells firings ((j : Int) + 1) s) st0).labels

/-- The function `split_into_shells0` (lines 275-306). -/
def split_into_shells0 {α : Type} [LinearOrderedField α] [FloorRing α]
    (define_shells : List α → List (List Nat)) (firings : Mda α) : Mda α :=
  let labels := split_labels define_shells firings
  forLoop firings.N2 (fun j F => F.setValue ((labels.getD j 0 : Int) : α) 2 j) firings

/-- Example of a shell definition: the peak list `[1, 10]` is split into two shells of one
event each, every other peak list forms a single shell. -/
def two_shell_split (peaks : List ℚ) : List (List Nat) :=
  if peaks = [1, 10] then [[0], [1]] else [List.range peaks.length]

/-- Firings table with rows (channel, time, label, peak) and three events: labels
1, 1, 2 and peaks 1, 10, 10. -/
def mixed_firings : Mda ℚ :=
  { N1 := 4, N2 := 3, N3 := 1, data := [0, 10, 1, 1, 0, 20, 1, 10, 0, 30, 2, 10] }

/-! ## Local maxima of the scores -/

/-- Every earlier position inside the window of `m` has a strictly smaller score. -/
def prefix_max {α : Type} [LinearOrderedField α] (times : List Int) (scores : List α)
    (W : Int) (m : Nat) : Prop :=
  ∀ j, j < m → times.getD m 0 - W ≤ times.getD j 0 → scores.getD j 0 < scores.getD m 0

/-- No later position below `n` within `W` of `m` has a larger score. -/
def no_later_bigger {α : Type} [LinearOrderedField α] (times : List Int) (scores : List α)
    (W : Int) (m n : Nat) : Prop :=
  ∀ j, m < j → j < n → times.getD j 0 ≤ times.getD m 0 + W → scores.getD j 0 ≤ scores.getD m 0

/-- Invariant of the outer selector loop on ascending times and positive scores after the
positions below `n ≥ 1`: the marks are the local maxima among the positions seen, the best
pointer holds its own score, bounds every score from the pointer on, and every position
before the pointer is strictly smaller or more than `W` before all positions to come. -/
structure LocalMaxInv {α : Type} [LinearOrderedField α] (times : List Int) (scores : List α)
    (W : Int) (n : Nat) (s : SelState α) : Prop where
  len : s.to_use.length = times.length
  marks : ∀ m, s.to_use.getD m 0 = 1 ↔
    (m < n ∧ prefix_max times scores W m ∧ no_later_bigger times scores W m n)
  best : s.last_best_ind < n ∧ s.last_best_score = scores.getD s.last_best_ind 0
  upper : ∀ j, s.last_best_ind ≤ j → j < n → scores.getD j 0 ≤ s.last_best_score
  lower : ∀ j, j < s.last_best_ind → scores.getD j 0 < s.last_best_score ∨
    ∀ k, n ≤ k → k < times.length → times.getD j 0 + W < times.getD k 0

/-! ## Basic facts about loops and lists -/

theorem forLoop_succ {σ : Type} (n : Nat) (body : Nat → σ → σ) (s : σ) :
    forLoop (n + 1) body s = body n (forLoop n body s) := rfl

theorem getD_set_gen {β : Type} (l : List β) (j m : Nat) (v d : β) :
    (l.set j v).getD m d = if j = m ∧ j < l.length then v else l.getD m d := by
  simp only [List.getD_eq_getElem?_getD, List.getElem?_set]
  by_cases h : j = m
  · subst h
    by_cases h2 : j < l.length
    · simp [h2]
    · simp [h2, List.getElem?_eq_none (not_lt.mp h2)]
  · simp [h]

theorem getD_set_int (l : List Int) (j m : Nat) (v : Int) :
    (l.set j v).getD m 0 = if j = m ∧ j < l.length then v else l.getD m 0 :=
  getD_set_gen l j m v 0

theorem marked_of_set_zero (l : List Int) (j m : Nat) (h : (l.set j 0).getD m 0 = 1) :
    l.getD m 0 = 1 ∧ m ≠ j := by
  rw [getD_set_int] at h
  by_cases hj : j = m
  · subst hj
    by_cases h2 : j < l.length
    · simp [h2] at h
    · simp only [h2, and_false, if_false] at h
      rw [List.getD_eq_default _ _ (not_lt.mp h2)] at h
      exact absurd h (by decide)
  · simp only [hj, false_and, if_false] at h
    exact ⟨h, fun e => hj e.symm⟩

theorem marked_of_set_one (l : List Int) (i m : Nat) (h : (l.set i 1).getD m 0 = 1) :
    m = i ∨ l.getD m 0 = 1 := by
  rw [getD_set_int] at h
  by_cases hj : i = m
  · exact Or.inl hj.symm
  · simp only [hj, false_and, if_false] at h
    exact Or.inr h

theorem sorted_getD (times : List Int) (hs : List.Sorted (· ≤ ·) times) (a b : Nat)
    (hab : a ≤ b) (hb : b < times.length) : times.getD a 0 ≤ times.getD b 0 := by
  have ha : a < times.length := lt_of_le_of_lt hab hb
  rw [List.getD_eq_getElem _ _ ha, List.getD_eq_getElem _ _ hb]
  rcases Nat.eq_or_lt_of_le hab with h | h
  · subst h; exact le_refl _
  · exact List.pairwise_iff_getElem.mp hs a b ha hb h


/-- The real square root of the sum of squares is a Euclidean norm. -/
theorem real_sqrt_norm :
    IsEuclideanNorm (fun (N : Nat) (v : Nat → ℝ) => Real.sqrt (∑ i in Finset.range N, v i ^ 2)) := by
  intro N v
  exact ⟨Real.sqrt_nonneg _, Real.mul_self_sqrt (Finset.sum_nonneg (fun i _ => sq_nonneg (v i)))⟩

/-! ## The selector -/

section Selector
variable {α : Type} [LinearOrderedField α]

theorem rescan_body_spec (times : List Int) (scores : List α) (opts : fit_stage_opts)
    (i ii : Nat) (s : SelState α) :
    (∀ m, marked (rescan_body times scores opts i ii s) m → marked s m) ∧
    ((rescan_body times scores opts i ii s).last_best_ind = s.last_best_ind ∨
      (rescan_body times scores opts i ii s).last_best_ind = ii) := by
  unfold rescan_body
  by_cases h1 : times.getD ii 0 ≥ times.getD i 0 - opts.clip_size
  · simp only [h1, if_true]
    by_cases h2 : scores.getD ii 0 < scores.getD i 0
    · simp only [h2, if_true]
      by_cases h3 : scores.getD ii 0 > s.last_best_score
      · simp only [h3, if_true]
        exact ⟨fun m hm => (marked_of_set_zero _ _ _ hm).1, Or.inr trivial⟩
      · simp only [h3, if_false]
        exact ⟨fun m hm => (marked_of_set_zero _ _ _ hm).1, Or.inl trivial⟩
    · simp only [h2, if_false]
      by_cases h3 : scores.getD ii 0 > s.last_best_score
      · simp only [h3, if_true]
        exact ⟨fun m hm => hm, Or.inr trivial⟩
      · simp only [h3, if_false]
        exact ⟨fun m hm => hm, Or.inl trivial⟩
  · simp only [h1, if_false]
    exact ⟨fun m hm => hm, Or.inl trivial⟩

theorem rescan_loop_spec (times : List Int) (scores : List α) (opts : fit_stage_opts)
    (i a k : Nat) (s : SelState α) :
    (∀ m, marked (forLoop k (fun j => rescan_body times scores opts i (a + j)) s) m →
        marked s m) ∧
    ((forLoop k (fun j => rescan_body times scores opts i (a + j)) s).last_best_ind
        = s.last_best_ind ∨
      a ≤ (forLoop k (fun j => rescan_body times scores opts i (a + j)) s).last_best_ind) := by
  induction k with
  | zero => exact ⟨fun m hm => hm, Or.inl rfl⟩
  | succ k ih =>
    rw [forLoop_succ]
    obtain ⟨hb1, hb2⟩ := rescan_body_spec times scores opts i (a + k)
      (forLoop k (fun j => rescan_body times scores opts i (a + j)) s)
    refine ⟨fun m hm => ih.1 m (hb1 m hm), ?_⟩
    rcases hb2 with h | h
    · rw [h]; exact ih.2
    · right; rw [h]; exact Nat.le_add_right a k

theorem select_body_inv (times : List Int) (scores : List α) (opts : fit_stage_opts)
    (hs : List.Sorted (· ≤ ·) times) (i : Nat) (hi : i < times.length) (s : SelState α)
    (inv : SelInv times opts.clip_size i s) :
    SelInv times opts.clip_size (i + 1) (select_body times scores opts i s) := by
  have mono : ∀ k, i ≤ k → k < times.length → times.getD i 0 ≤ times.getD k 0 :=
    fun k hk hkl => sorted_getD times hs i k hk hkl
  unfold select_body
  by_cases hsc : scores.getD i 0 > 0
  swap
  · simp only [hsc, if_false]
    exact ⟨fun m hm => Nat.lt_succ_of_lt (inv.bound m hm), inv.below, inv.pos, inv.sep,
      fun m hm hne k hk hkl => inv.far m hm hne k (Nat.le_of_succ_le hk) hkl⟩
  simp only [hsc, if_true]
  -- the state after the optional rescan
  generalize hs1 : (if times.getD s.last_best_ind 0 < times.getD i 0 - opts.clip_size then
        forLoop (i - (s.last_best_ind + 1))
          (fun j => rescan_body times scores opts i (s.last_best_ind + 1 + j))
          { s with last_best_score := 0 }
      else s) = s1
  have key : (∀ m, marked s1 m → marked s m) ∧ s.last_best_ind ≤ s1.last_best_ind ∧
      (∀ m, marked s1 m →
        (m = s1.last_best_ind ∧ 0 < s1.last_best_score) ∨
          times.getD m 0 + opts.clip_size < times.getD i 0) ∧
      (scores.getD i 0 ≤ s1.last_best_score →
        ∀ m, marked s1 m → m ≠ s1.last_best_ind →
          times.getD m 0 + opts.clip_size < times.getD i 0) := by
    by_cases hr : times.getD s.last_best_ind 0 < times.getD i 0 - opts.clip_size
    · simp only [hr, if_true] at hs1
      obtain ⟨hm1, hm2⟩ := rescan_loop_spec times scores opts i (s.last_best_ind + 1)
        (i - (s.last_best_ind + 1)) { s with last_best_score := 0 }
      rw [hs1] at hm1 hm2
      have hall : ∀ m, marked s1 m → times.getD m 0 + opts.clip_size < times.getD i 0 := by
        intro m hm
        have hm0 : marked s m := hm1 m hm
        by_cases hmp : m = s.last_best_ind
        · rw [hmp]; linarith
        · exact inv.far m hm0 hmp i (le_refl _) hi
      refine ⟨hm1, ?_, fun m hm => Or.inr (hall m hm), fun _ m hm _ => hall m hm⟩
      rcases hm2 with h | h
      · exact le_of_eq h.symm
      · exact Nat.le_of_succ_le h
    · simp only [hr, if_false] at hs1
      subst hs1
      refine ⟨fun m hm => hm, le_refl _, ?_, fun _ m hm hne => inv.far m hm hne i (le_refl _) hi⟩
      intro m hm
      by_cases hmp : m = s.last_best_ind
      · left
        refine ⟨hmp, ?_⟩
        rcases inv.pos with h | h
        · exact h
        · exact absurd hm (h m)
      · exact Or.inr (inv.far m hm hmp i (le_refl _) hi)
  obtain ⟨ksub, kmono, kall, kfar⟩ := key
  by_cases hgt : scores.getD i 0 > s1.last_best_score
  · simp only [hgt, if_true]
    -- marks after the demotion of the previous best
    have hdem : ∀ m, marked (if s1.last_best_score > 0 then
          { s1 with to_use := s1.to_use.set s1.last_best_ind 0 } else s1) m →
        marked s1 m ∧ times.getD m 0 + opts.clip_size < times.getD i 0 := by
      intro m hm
      by_cases hp : s1.last_best_score > 0
      · simp only [hp, if_true] at hm
        obtain ⟨h1, h2⟩ := marked_of_set_zero _ _ _ hm
        refine ⟨h1, ?_⟩
        rcases kall m h1 with h | h
        · exact absurd h.1 h2
        · exact h
      · simp only [hp, if_false] at hm
        refine ⟨hm, ?_⟩
        rcases kall m hm with h | h
        · exact absurd h.2 hp
        · exact h
    have hnew : ∀ m, marked
        ({ to_use := (if s1.last_best_score > 0 then
              { s1 with to_use := s1.to_use.set s1.last_best_ind 0 } else s1).to_use.set i 1,
           last_best_score := scores.getD i 0, last_best_ind := i } : SelState α) m →
        m = i ∨ (m < i ∧ marked s m ∧
          times.getD m 0 + opts.clip_size < times.getD i 0) := by
      intro m hm
      rcases marked_of_set_one _ _ _ hm with h | h
      · exact Or.inl h
      · right
        have h1 := (hdem m h).1
        exact ⟨inv.bound m (ksub m h1), ksub m h1, (hdem m h).2⟩
    refine ⟨?_, ?_, Or.inl hsc, ?_, ?_⟩
    · intro m hm
      rcases hnew m hm with h | h
      · rw [h]; exact Nat.lt_succ_self i
      · exact Nat.lt_succ_of_lt h.1
    · intro m hm
      rcases hnew m hm with h | h
      · exact le_of_eq h
      · exact le_of_lt h.1
    · intro a b ha hb hab
      rcases hnew b hb with h | h
      · rcases hnew a ha with h2 | h2
        · omega
        · rw [h]; exact h2.2.2
      · rcases hnew a ha with h2 | h2
        · omega
        · exact inv.sep a b h2.2.1 h.2.1 hab
    · intro m hm hne k hk hkl
      rcases hnew m hm with h | h
      · exact absurd h hne
      · have := mono k (Nat.le_of_succ_le hk) hkl
        linarith [h.2.2]
  · simp only [hgt, if_false]
    have hle : scores.getD i 0 ≤ s1.last_best_score := not_lt.mp hgt
    refine ⟨fun m hm => Nat.lt_succ_of_lt (inv.bound m (ksub m hm)),
      fun m hm => le_trans (inv.below m (ksub m hm)) kmono,
      Or.inl (lt_of_lt_of_le hsc hle),
      fun a b ha hb hab => inv.sep a b (ksub a ha) (ksub b hb) hab, ?_⟩
    intro m hm hne k hk hkl
    have := kfar hle m hm hne
    have := mono k (Nat.le_of_succ_le hk) hkl
    linarith

theorem select_loop_inv (times : List Int) (scores : List α) (opts : fit_stage_opts)
    (hs : List.Sorted (· ≤ ·) times) (n : Nat) (hn : n ≤ times.length) :
    SelInv times opts.clip_size n (select_loop times scores opts n) := by
  induction n with
  | zero =>
    have hnone : ∀ m, ¬ marked (select_loop times scores opts 0) m := by
      intro m hm
      have hm2 : (List.replicate times.length (0 : Int)).getD m 0 = 1 := hm
      simp only [List.getD_eq_getElem?_getD, List.getElem?_replicate] at hm2
      by_cases h : m < times.length
      · simp [h] at hm2
      · simp [h] at hm2
    exact ⟨fun m hm => absurd hm (hnone m), fun m hm => absurd hm (hnone m), Or.inr hnone,
      fun a _ ha => absurd ha (hnone a), fun m hm => absurd hm (hnone m)⟩
  | succ n ih =>
    exact select_body_inv times scores opts hs n hn _ (ih (Nat.le_of_succ_le hn))

/-- C1 (selector separation): on ascending times, with aligned scores and a clip size
`W ≥ 0`, two distinct positions that `find_events_to_use0` marks 1 are at least `W` apart
in time. -/
theorem selector_separation (times : List Int) (scores : List α) (opts : fit_stage_opts)
    (hs : List.Sorted (· ≤ ·) times) (_hlen : scores.length = times.length)
    (_hW : 0 ≤ opts.clip_size) (i j : Nat) (hij : i ≠ j)
    (hi : (find_events_to_use0 times scores opts).getD i 0 = 1)
    (hj : (find_events_to_use0 times scores opts).getD j 0 = 1) :
    opts.clip_size ≤ |times.getD i 0 - times.getD j 0| := by
  have inv := select_loop_inv times scores opts hs times.length (le_refl _)
  rcases Nat.lt_or_gt_of_ne hij with h | h
  · have := inv.sep i j hi hj h
    rw [abs_sub_comm, abs_of_nonneg (by linarith)]
    linarith
  · have := inv.sep j i hj hi h
    rw [abs_of_nonneg (by linarith)]
    linarith

/-- Witness for C1: three candidates with clip size 10; positions 1 and 2 are both kept
and lie 15 apart. -/
theorem selector_separation_witness :
    (10 : Int) ≤ |([0, 5, 20] : List Int).getD 1 0 - ([0, 5, 20] : List Int).getD 2 0| :=
  selector_separation [0, 5, 20] ([5, 9, 4] : List ℚ) ⟨10⟩
    (by decide) (by decide) (by decide) 1 2 (by decide) (by decide) (by decide)

end Selector
section TieBreak
variable {α : Type} [LinearOrderedField α]

theorem select_body_no_rescan (times : List Int) (scores : List α) (opts : fit_stage_opts)
    (i : Nat) (s : SelState α) (hi : 0 < scores.getD i 0)
    (hno : ¬ (times.getD s.last_best_ind 0 < times.getD i 0 - opts.clip_size)) :
    select_body times scores opts i s =
      if scores.getD i 0 > s.last_best_score then
        { to_use := (if s.last_best_score > 0 then s.to_use.set s.last_best_ind 0
            else s.to_use).set i 1,
          last_best_score := scores.getD i 0, last_best_ind := i }
      else s := by
  unfold select_body
  simp only [gt_iff_lt, hi, if_true, hno, if_false]
  by_cases h1 : s.last_best_score < scores.getD i 0
  · simp only [h1, if_true]
    by_cases h2 : 0 < s.last_best_score
    · simp only [h2, if_true]
    · simp only [h2, if_false]
  · simp only [h1, if_false]

/-- Running-maximum description of the selector state when every candidate lies within the
clip size of the first one: after `n + 1` positions exactly the best pointer is marked, it
holds a maximal score among the positions seen, and every earlier position is strictly
smaller. -/
theorem select_loop_window (times : List Int) (scores : List α) (opts : fit_stage_opts)
    (hs : List.Sorted (· ≤ ·) times)
    (hpos : ∀ j, j < times.length → 0 < scores.getD j 0)
    (hwin : times.getD (times.length - 1) 0 - times.getD 0 0 ≤ opts.clip_size)
    (n : Nat) (hn : n < times.length) :
    ∃ k, k ≤ n ∧
      (select_loop times scores opts (n + 1)).to_use = (List.replicate times.length 0).set k 1 ∧
      (select_loop times scores opts (n + 1)).last_best_ind = k ∧
      (select_loop times scores opts (n + 1)).last_best_score = scores.getD k 0 ∧
      (∀ j, j ≤ n → scores.getD j 0 ≤ scores.getD k 0) ∧
      (∀ j, j < k → scores.getD j 0 < scores.getD k 0) := by
  have hlast : ∀ a, a < times.length → times.getD a 0 ≤ times.getD (times.length - 1) 0 :=
    fun a ha => sorted_getD times hs a _ (by omega) (by omega)
  have hfirst : ∀ a, a < times.length → times.getD 0 0 ≤ times.getD a 0 :=
    fun a ha => sorted_getD times hs 0 a (Nat.zero_le a) ha
  induction n with
  | zero =>
    refine ⟨0, le_refl _, ?_⟩
    have h0 := hpos 0 hn
    have hno : ¬ (times.getD 0 0 < times.getD 0 0 - opts.clip_size) := by
      have := hlast 0 hn
      intro h; linarith
    have e : select_loop times scores opts (0 + 1) =
        { to_use := (List.replicate times.length 0).set 0 1,
          last_best_score := scores.getD 0 0, last_best_ind := 0 } := by
      show select_body times scores opts 0 ⟨List.replicate times.length 0, 0, 0⟩ = _
      rw [select_body_no_rescan times scores opts 0 _ h0 hno]
      simp only [gt_iff_lt, h0, if_true, lt_irrefl, if_false]
    rw [e]
    refine ⟨rfl, rfl, rfl, ?_, ?_⟩
    · intro j hj
      have : j = 0 := Nat.le_zero.mp hj
      rw [this]
    · intro j hj
      exact absurd hj (Nat.not_lt_zero j)
  | succ n ih =>
    obtain ⟨k, hk, htu, hbi, hbs, hmax, hfst⟩ := ih (Nat.lt_of_succ_lt hn)
    have hi := hpos (n + 1) hn
    have hkl : k < times.length := by omega
    have hno : ¬ (times.getD k 0 < times.getD (n + 1) 0 - opts.clip_size) := by
      have h1 := hlast (n + 1) hn
      have h2 := hfirst k hkl
      intro h; linarith
    have hkpos := hpos k hkl
    have e : select_loop times scores opts (n + 1 + 1) =
        select_body times scores opts (n + 1) (select_loop times scores opts (n + 1)) := rfl
    by_cases hgt : scores.getD (n + 1) 0 > scores.getD k 0
    · refine ⟨n + 1, le_refl _, ?_⟩
      have e2 : select_loop times scores opts (n + 1 + 1) =
          { to_use := (List.replicate times.length 0).set (n + 1) 1,
            last_best_score := scores.getD (n + 1) 0, last_best_ind := n + 1 } := by
        rw [e, select_body_no_rescan times scores opts (n + 1) _ hi (by rw [hbi]; exact hno)]
        simp only [gt_iff_lt] at hgt
        simp only [gt_iff_lt, hbi, hbs, hgt, if_true, hkpos, htu,
          List.set_set, List.set_replicate_self]
      rw [e2]
      refine ⟨rfl, rfl, rfl, ?_, ?_⟩
      · intro j hj
        rcases Nat.eq_or_lt_of_le hj with h | h
        · rw [h]
        · exact le_trans (hmax j (Nat.le_of_lt_succ h)) (le_of_lt hgt)
      · intro j hj
        exact lt_of_le_of_lt (hmax j (Nat.le_of_lt_succ hj)) hgt
    · refine ⟨k, Nat.le_succ_of_le hk, ?_⟩
      have e2 : select_loop times scores opts (n + 1 + 1) =
          select_loop times scores opts (n + 1) := by
        rw [e, select_body_no_rescan times scores opts (n + 1) _ hi (by rw [hbi]; exact hno)]
        simp only [gt_iff_lt] at hgt
        simp only [gt_iff_lt, hbs, hgt, if_false]
      rw [e2]
      refine ⟨htu, hbi, hbs, ?_, hfst⟩
      intro j hj
      rcases Nat.eq_or_lt_of_le hj with h | h
      · rw [h]; exact not_lt.mp hgt
      · exact hmax j (Nat.le_of_lt_succ h)

/-- C2 (selector tie-break): on a non-empty ascending list of times whose last and first
time differ by at most the clip size, with aligned scores that are all positive,
`find_events_to_use0` marks exactly one position `k` (every other mark is 0) and the score
at `k` is the maximum of the list; in particular times `[100, 105, 108]` with scores
`[5, 9, 3]` and clip size 10 give `[0, 1, 0]`. -/
theorem selector_tie_break (times : List Int) (scores : List α) (opts : fit_stage_opts)
    (hne : times ≠ []) (hs : List.Sorted (· ≤ ·) times)
    (_hlen : scores.length = times.length)
    (hpos : ∀ j, j < times.length → 0 < scores.getD j 0)
    (hwin : times.getD (times.length - 1) 0 - times.getD 0 0 ≤ opts.clip_size) :
    (∃ k, k < times.length ∧
      find_events_to_use0 times scores opts = (List.replicate times.length 0).set k 1 ∧
      ∀ j, j < times.length → scores.getD j 0 ≤ scores.getD k 0) ∧
    find_events_to_use0 [100, 105, 108] ([5, 9, 3] : List ℚ) ⟨10⟩ = [0, 1, 0] := by
  refine ⟨?_, by decide⟩
  have hL : 0 < times.length := List.length_pos.mpr hne
  obtain ⟨k, hk, htu, _, _, hmax, _⟩ :=
    select_loop_window times scores opts hs hpos hwin (times.length - 1) (by omega)
  refine ⟨k, by omega, ?_, fun j hj => hmax j (by omega)⟩
  have e : times.length - 1 + 1 = times.length := by omega
  rw [e] at htu
  exact htu

/-- Witness for C2: the three candidates of the specification, over the rationals. -/
theorem selector_tie_break_witness :
    (∃ k, k < ([100, 105, 108] : List Int).length ∧
      find_events_to_use0 [100, 105, 108] ([5, 9, 3] : List ℚ) ⟨10⟩
        = (List.replicate ([100, 105, 108] : List Int).length 0).set k 1 ∧
      ∀ j, j < ([100, 105, 108] : List Int).length →
        ([5, 9, 3] : List ℚ).getD j 0 ≤ ([5, 9, 3] : List ℚ).getD k 0) ∧
    find_events_to_use0 [100, 105, 108] ([5, 9, 3] : List ℚ) ⟨10⟩ = [0, 1, 0] :=
  selector_tie_break [100, 105, 108] ([5, 9, 3] : List ℚ) ⟨10⟩ (by decide) (by decide)
    (by decide) (by decide) (by decide)

end TieBreak

/-! ## Score evaluator and subtraction -/

section Score
variable {α : Type} [LinearOrderedField α]

theorem rd_natCast (data : List α) (a : Nat) : rd data (a : Int) = data.getD a 0 := by
  unfold rd
  simp

theorem ptr_zero (data : List α) (i : Nat) : ptr data 0 i = data.getD i 0 := by
  unfold ptr
  rw [zero_add, rd_natCast]

theorem wr_length {β : Type} (data : List β) (p : Int) (v : β) :
    (wr data p v).length = data.length := by
  unfold wr
  split_ifs <;> simp

theorem wr_getD (data : List α) (p : Int) (v : α) (a : Nat) :
    (wr data p v).getD a 0 = if p = (a : Int) ∧ a < data.length then v else data.getD a 0 := by
  unfold wr
  by_cases hp : p < 0
  · have hne : ¬ (p = (a : Int)) := by omega
    simp [hp, hne]
  · simp only [hp, if_false, getD_set_gen]
    have hiff : (p.toNat = a) ↔ (p = (a : Int)) := by omega
    by_cases h : p = (a : Int)
    · subst h
      simp
    · have h2 : ¬ p.toNat = a := fun e => h (hiff.mp e)
      simp only [h, h2, false_and]

/-- Effect of `subtract_template0` on the buffer: the length is kept, and every position
of the buffer inside the window loses the matching template value, every other position is
untouched. -/
theorem subtract_template0_spec (N : Nat) (data : List α) (off : Int) (t : Nat → α) :
    (subtract_template0 N data off t).length = data.length ∧
    ∀ a : Nat, a < data.length →
      (subtract_template0 N data off t).getD a 0 =
        if off ≤ (a : Int) ∧ (a : Int) < off + (N : Int) then
          data.getD a 0 - t ((a : Int) - off).toNat
        else data.getD a 0 := by
  induction N with
  | zero =>
    refine ⟨rfl, fun a _ => ?_⟩
    have : ¬ (off ≤ (a : Int) ∧ (a : Int) < off + ((0 : Nat) : Int)) := by
      push_cast; omega
    rw [if_neg this]
    rfl
  | succ n ih =>
    obtain ⟨ihl, ihv⟩ := ih
    have e : subtract_template0 (n + 1) data off t =
        wr (subtract_template0 n data off t) (off + (n : Int))
          (rd (subtract_template0 n data off t) (off + (n : Int)) - t n) := rfl
    rw [e]
    refine ⟨by rw [wr_length, ihl], fun a ha => ?_⟩
    rw [wr_getD, ihl]
    by_cases hat : off + (n : Int) = (a : Int)
    · have h1 : (off + (n : Int) = (a : Int) ∧ a < data.length) := ⟨hat, ha⟩
      have h2 : off ≤ (a : Int) ∧ (a : Int) < off + ((n + 1 : Nat) : Int) := by
        push_cast; omega
      have h3 : ¬ (off ≤ (a : Int) ∧ (a : Int) < off + (n : Int)) := by omega
      have h4 : ((a : Int) - off).toNat = n := by omega
      rw [if_pos h1, if_pos h2, hat, rd_natCast, ihv a ha, if_neg h3, h4]
    · have h1 : ¬ (off + (n : Int) = (a : Int) ∧ a < data.length) := fun h => hat h.1
      rw [if_neg h1, ihv a ha]
      by_cases hw : off ≤ (a : Int) ∧ (a : Int) < off + (n : Int)
      · have h2 : off ≤ (a : Int) ∧ (a : Int) < off + ((n + 1 : Nat) : Int) := by
          push_cast; omega
        rw [if_pos hw, if_pos h2]
      · have h2 : ¬ (off ≤ (a : Int) ∧ (a : Int) < off + ((n + 1 : Nat) : Int)) := by
          push_cast; omega
        rw [if_neg hw, if_neg h2]

/-- The residual array built by the loop of `compute_score0`. -/
theorem resid_loop_spec (N : Nat) (X t : Nat → α) (n : Nat) (hn : n ≤ N) :
    (forLoop n (fun i r => r.set i (X i - t i)) (List.replicate N (0 : α))).length = N ∧
    ∀ j, (forLoop n (fun i r => r.set i (X i - t i)) (List.replicate N (0 : α))).getD j 0 =
      if j < n then X j - t j else 0 := by
  induction n with
  | zero =>
    refine ⟨by simp [forLoop], fun j => ?_⟩
    simp only [forLoop, Nat.not_lt_zero, if_false, List.getD_eq_getElem?_getD,
      List.getElem?_replicate]
    split_ifs <;> rfl
  | succ n ih =>
    obtain ⟨ihl, ihv⟩ := ih (Nat.le_of_succ_le hn)
    rw [forLoop_succ]
    refine ⟨by rw [List.length_set, ihl], fun j => ?_⟩
    rw [getD_set_gen, ihl, ihv]
    by_cases h : n = j
    · subst h
      have h1 : n = n ∧ n < N := ⟨rfl, hn⟩
      rw [if_pos h1, if_pos (Nat.lt_succ_self n)]
    · have h1 : ¬ (n = j ∧ n < N) := fun e => h e.1
      rw [if_neg h1]
      by_cases h2 : j < n
      · rw [if_pos h2, if_pos (Nat.lt_succ_of_lt h2)]
      · have h3 : ¬ j < n + 1 := by omega
        rw [if_neg h2, if_neg h3]

/-- With a Euclidean `compute_norm` the score is the energy of the window minus the energy
of the residual. -/
theorem compute_score0_eq (compute_norm : Nat → (Nat → α) → α)
    (hnorm : IsEuclideanNorm compute_norm) (N : Nat) (X t : Nat → α) :
    compute_score0 compute_norm N X t =
      (∑ i in Finset.range N, X i ^ 2) - ∑ i in Finset.range N, (X i - t i) ^ 2 := by
  unfold compute_score0
  simp only
  rw [(hnorm N X).2, (hnorm N _).2]
  congr 1
  apply Finset.sum_congr rfl
  intro i hi
  rw [ptr_zero, (resid_loop_spec N X t N (le_refl N)).2 i, if_pos (Finset.mem_range.mp hi)]

/-- C9 (score is the energy reduction of the subtraction): for a Euclidean `compute_norm`,
a window `X` and a template `t` of the same length `n`, `compute_score0` returns
`sum X[i]^2 - sum (X[i]-t[i])^2`, which is the squared norm of `X` minus the squared norm
of what `subtract_template0` leaves in place of `X`. -/
theorem score_is_energy_reduction (compute_norm : Nat → (Nat → α) → α)
    (hnorm : IsEuclideanNorm compute_norm) (n : Nat) (X t : List α)
    (hX : X.length = n) (_ht : t.length = n) :
    compute_score0 compute_norm n (ptr X 0) (ptr t 0) =
        (∑ i in Finset.range n, X.getD i 0 ^ 2)
          - ∑ i in Finset.range n, (X.getD i 0 - t.getD i 0) ^ 2 ∧
    compute_score0 compute_norm n (ptr X 0) (ptr t 0) =
        (∑ i in Finset.range n, X.getD i 0 ^ 2)
          - ∑ i in Finset.range n, (subtract_template0 n X 0 (ptr t 0)).getD i 0 ^ 2 := by
  have h1 : compute_score0 compute_norm n (ptr X 0) (ptr t 0) =
      (∑ i in Finset.range n, X.getD i 0 ^ 2)
        - ∑ i in Finset.range n, (X.getD i 0 - t.getD i 0) ^ 2 := by
    rw [compute_score0_eq compute_norm hnorm]
    congr 1
    · exact Finset.sum_congr rfl (fun i _ => by rw [ptr_zero])
    · exact Finset.sum_congr rfl (fun i _ => by rw [ptr_zero, ptr_zero])
  refine ⟨h1, ?_⟩
  rw [h1]
  congr 1
  apply Finset.sum_congr rfl
  intro i hi
  have hi2 : i < X.length := by rw [hX]; exact Finset.mem_range.mp hi
  have hw : (0 : Int) ≤ (i : Int) ∧ (i : Int) < 0 + (n : Int) := by
    have := Finset.mem_range.mp hi
    omega
  rw [(subtract_template0_spec n X 0 (ptr t 0)).2 i hi2, if_pos hw, ptr_zero]
  simp

/-- Witness for C9: a window and a template of length 2 over the reals, with the norm
given by the real square root. -/
theorem score_is_energy_reduction_witness :
    compute_score0 (fun N v => Real.sqrt (∑ i in Finset.range N, v i ^ 2)) 2
        (ptr ([3, 1] : List ℝ) 0) (ptr ([1, 1] : List ℝ) 0) =
        (∑ i in Finset.range 2, ([3, 1] : List ℝ).getD i 0 ^ 2)
          - ∑ i in Finset.range 2,
              (([3, 1] : List ℝ).getD i 0 - ([1, 1] : List ℝ).getD i 0) ^ 2 ∧
    compute_score0 (fun N v => Real.sqrt (∑ i in Finset.range N, v i ^ 2)) 2
        (ptr ([3, 1] : List ℝ) 0) (ptr ([1, 1] : List ℝ) 0) =
        (∑ i in Finset.range 2, ([3, 1] : List ℝ).getD i 0 ^ 2)
          - ∑ i in Finset.range 2,
              (subtract_template0 2 ([3, 1] : List ℝ) 0 (ptr ([1, 1] : List ℝ) 0)).getD i 0 ^ 2 :=
  score_is_energy_reduction _ real_sqrt_norm 2 [3, 1] [1, 1] rfl rfl

end Score

/-! ## One pass of the kernel -/

section Pass
variable {α : Type} [LinearOrderedField α]

theorem score_body_inv (compute_norm : Nat → (Nat → α) → α) (times : List Int)
    (labels : List Int) (templates : Mda α) (opts : fit_stage_opts) (s : KState α)
    (n : Nat) (hn : n < s.all_to_use.length) (tr : TryState α)
    (inv : ScoreInv compute_norm times labels templates opts s n tr) :
    ScoreInv compute_norm times labels templates opts s (n + 1)
      (score_body compute_norm s.X times labels templates opts n tr) := by
  have hcur : tr.all_to_use.getD n 0 = s.all_to_use.getD n 0 := by
    rcases inv.keep n with h | h
    · exact h
    · exact absurd h.2.2.1 (lt_irrefl n)
  have hweak : (s.all_to_use.getD n 0 = 0 → 0 < labels.getD n 0 → False) →
      ScoreInv compute_norm times labels templates opts s (n + 1) tr := fun hskip =>
    { len := inv.len, times_eq := inv.times_eq, labels_eq := inv.labels_eq,
      scores_eq := inv.scores_eq,
      keep := fun i => (inv.keep i).imp id
        (fun h => ⟨h.1, h.2.1, Nat.lt_succ_of_lt h.2.2.1, h.2.2.2⟩),
      tryp := fun e he => ⟨Nat.lt_succ_of_lt (inv.tryp e he).1, (inv.tryp e he).2⟩,
      incr := inv.incr,
      scoredp := fun e sc h =>
        ⟨Nat.lt_succ_of_lt (inv.scoredp e sc h).1, (inv.scoredp e sc h).2⟩,
      cover := fun i hi h0 hl => by
        rcases Nat.lt_succ_iff_lt_or_eq.mp hi with h | h
        · exact inv.cover i h h0 hl
        · subst h
          exact absurd (hskip h0 hl) id }
  unfold score_body
  by_cases h0 : tr.all_to_use.getD n 0 = 0
  swap
  · rw [if_neg h0]
    exact hweak (fun h _ => h0 (hcur.trans h))
  rw [if_pos h0]
  by_cases hl : labels.getD n 0 > 0
  swap
  · simp only [hl, if_false]
    exact hweak (fun _ h => hl h)
  simp only [hl, if_true]
  have hs0 : s.all_to_use.getD n 0 = 0 := hcur.symm.trans h0
  have hsc : compute_score0 compute_norm (win_len s.X opts)
      (ptr s.X.data (win_off s.X opts (times.getD n 0)))
      (template_ptr templates (labels.getD n 0)) =
      score_at compute_norm s.X times labels templates opts n := rfl
  rw [hsc]
  by_cases hp : score_at compute_norm s.X times labels templates opts n > 0
  · simp only [hp, if_true]
    refine
      { len := inv.len,
        times_eq := by simp only [List.map_append, List.map_singleton, inv.times_eq],
        labels_eq := by simp only [List.map_append, List.map_singleton, inv.labels_eq],
        scores_eq := by simp only [List.map_append, List.map_singleton, inv.scores_eq],
        keep := fun i => (inv.keep i).imp id
          (fun h => ⟨h.1, h.2.1, Nat.lt_succ_of_lt h.2.2.1, h.2.2.2⟩),
        tryp := ?_, incr := ?_, scoredp := ?_, cover := ?_ }
    · intro e he
      rcases List.mem_append.mp he with h | h
      · exact ⟨Nat.lt_succ_of_lt (inv.tryp e h).1, (inv.tryp e h).2⟩
      · have : e = n := List.mem_singleton.mp h
        subst this
        exact ⟨Nat.lt_succ_self e, hs0, h0, hl, hp⟩
    · rw [List.pairwise_append]
      refine ⟨inv.incr, List.pairwise_singleton _ _, ?_⟩
      intro a ha b hb
      have : b = n := List.mem_singleton.mp hb
      rw [this]
      exact (inv.tryp a ha).1
    · intro e sc h
      rcases List.mem_append.mp h with h | h
      · obtain ⟨h1, h2, h3, h4, h5, h6⟩ := inv.scoredp e sc h
        exact ⟨Nat.lt_succ_of_lt h1, h2, h3, h4, h5,
          fun hpos => List.mem_append.mpr (Or.inl (h6 hpos))⟩
      · have hh := List.mem_singleton.mp h
        have he : e = n := congrArg Prod.fst hh
        have hsc2 : sc = score_at compute_norm s.X times labels templates opts n :=
          congrArg Prod.snd hh
        subst he
        refine ⟨Nat.lt_succ_self e, hs0, hl, hsc2, ?_, ?_⟩
        · intro hle
          rw [hsc2] at hle
          exact absurd hp (not_lt.mpr hle)
        · intro _
          exact List.mem_append.mpr (Or.inr (List.mem_singleton.mpr rfl))
    · intro i hi hi0 hil
      rcases Nat.lt_succ_iff_lt_or_eq.mp hi with h | h
      · rcases inv.cover i h hi0 hil with h2 | h2
        · exact Or.inl (List.mem_append.mpr (Or.inl h2))
        · exact Or.inr h2
      · left
        rw [h]
        exact List.mem_append.mpr (Or.inr (List.mem_singleton.mpr rfl))
  · simp only [hp, if_false]
    have hnt : n < tr.all_to_use.length := by rw [inv.len]; exact hn
    have hset : ∀ i, (tr.all_to_use.set n (-1)).getD i 0 =
        if i = n then -1 else tr.all_to_use.getD i 0 := by
      intro i
      rw [getD_set_int]
      by_cases h : n = i
      · subst h
        simp [hnt]
      · have h2 : ¬ i = n := fun e => h e.symm
        simp [h, h2]
    refine
      { len := by simp only [List.length_set, inv.len],
        times_eq := inv.times_eq, labels_eq := inv.labels_eq, scores_eq := inv.scores_eq,
        keep := ?_, tryp := ?_, incr := inv.incr, scoredp := ?_, cover := ?_ }
    · intro i
      simp only [hset]
      by_cases h : i = n
      · subst h
        simp only [if_true]
        exact Or.inr ⟨hs0, trivial, Nat.lt_succ_self i, hl⟩
      · simp only [h, if_false]
        exact (inv.keep i).imp id
          (fun h => ⟨h.1, h.2.1, Nat.lt_succ_of_lt h.2.2.1, h.2.2.2⟩)
    · intro e he
      obtain ⟨h1, h2, h3, h4, h5⟩ := inv.tryp e he
      have hne : ¬ e = n := Nat.ne_of_lt h1
      simp only [hset, hne, if_false]
      exact ⟨Nat.lt_succ_of_lt h1, h2, h3, h4, h5⟩
    · intro e sc h
      simp only [hset]
      rcases List.mem_append.mp h with h | h
      · obtain ⟨h1, h2, h3, h4, h5, h6⟩ := inv.scoredp e sc h
        have hne : ¬ e = n := Nat.ne_of_lt h1
        simp only [hne, if_false]
        exact ⟨Nat.lt_succ_of_lt h1, h2, h3, h4, h5, h6⟩
      · have hh := List.mem_singleton.mp h
        have he : e = n := congrArg Prod.fst hh
        have hsc2 : sc = score_at compute_norm s.X times labels templates opts n :=
          congrArg Prod.snd hh
        subst he
        simp only [if_true]
        refine ⟨Nat.lt_succ_self e, hs0, hl, hsc2, fun _ => trivial, ?_⟩
        intro hpos
        rw [hsc2] at hpos
        exact absurd hpos hp
    · intro i hi hi0 hil
      simp only [hset]
      rcases Nat.lt_succ_iff_lt_or_eq.mp hi with h | h
      · have hne : ¬ i = n := Nat.ne_of_lt h
        simp only [hne, if_false]
        exact inv.cover i h hi0 hil
      · right
        simp only [h, if_true]

theorem score_loop_inv (compute_norm : Nat → (Nat → α) → α) (times : List Int)
    (labels : List Int) (templates : Mda α) (opts : fit_stage_opts) (s : KState α)
    (n : Nat) (hn : n ≤ s.all_to_use.length) :
    ScoreInv compute_norm times labels templates opts s n
      (score_loop compute_norm times labels templates opts s n) := by
  induction n with
  | zero =>
    exact
      { len := rfl, times_eq := rfl, labels_eq := rfl, scores_eq := rfl,
        keep := fun i => Or.inl rfl,
        tryp := fun e he => absurd he (List.not_mem_nil e),
        incr := List.Pairwise.nil,
        scoredp := fun e sc h => absurd h (List.not_mem_nil _),
        cover := fun i hi => absurd hi (Nat.not_lt_zero i) }
  | succ n ih =>
    exact score_body_inv compute_norm times labels templates opts s n hn _
      (ih (Nat.le_of_succ_le hn))

theorem rescan_body_length (times : List Int) (scores : List α) (opts : fit_stage_opts)
    (i ii : Nat) (s : SelState α) :
    (rescan_body times scores opts i ii s).to_use.length = s.to_use.length := by
  unfold rescan_body
  by_cases h1 : times.getD ii 0 ≥ times.getD i 0 - opts.clip_size
  · simp only [h1, if_true]
    by_cases h2 : scores.getD ii 0 < scores.getD i 0
    · simp only [h2, if_true]
      by_cases h3 : scores.getD ii 0 > s.last_best_score
      · simp only [h3, if_true, List.length_set]
      · simp only [h3, if_false, List.length_set]
    · simp only [h2, if_false]
      by_cases h3 : scores.getD ii 0 > s.last_best_score
      · simp only [h3, if_true]
      · simp only [h3, if_false]
  · simp only [h1, if_false]

theorem rescan_loop_length (times : List Int) (scores : List α) (opts : fit_stage_opts)
    (i a k : Nat) (s : SelState α) :
    (forLoop k (fun j => rescan_body times scores opts i (a + j)) s).to_use.length
      = s.to_use.length := by
  induction k with
  | zero => rfl
  | succ k ih => rw [forLoop_succ, rescan_body_length, ih]

theorem select_body_length (times : List Int) (scores : List α) (opts : fit_stage_opts)
    (i : Nat) (s : SelState α) :
    (select_body times scores opts i s).to_use.length = s.to_use.length := by
  unfold select_body
  by_cases hsc : scores.getD i 0 > 0
  swap
  · simp only [hsc, if_false]
  simp only [hsc, if_true]
  have hlen : (if times.getD s.last_best_ind 0 < times.getD i 0 - opts.clip_size then
        forLoop (i - (s.last_best_ind + 1))
          (fun j => rescan_body times scores opts i (s.last_best_ind + 1 + j))
          { s with last_best_score := 0 }
      else s).to_use.length = s.to_use.length := by
    by_cases hr : times.getD s.last_best_ind 0 < times.getD i 0 - opts.clip_size
    · simp only [hr, if_true]
      exact rescan_loop_length times scores opts i _ _ _
    · simp only [hr, if_false]
  generalize (if times.getD s.last_best_ind 0 < times.getD i 0 - opts.clip_size then
        forLoop (i - (s.last_best_ind + 1))
          (fun j => rescan_body times scores opts i (s.last_best_ind + 1 + j))
          { s with last_best_score := 0 }
      else s) = s1 at hlen ⊢
  by_cases hgt : scores.getD i 0 > s1.last_best_score
  · simp only [hgt, if_true]
    by_cases hp : s1.last_best_score > 0
    · simp only [hp, if_true, List.length_set, hlen]
    · simp only [hp, if_false, List.length_set, hlen]
  · simp only [hgt, if_false, hlen]

theorem find_events_to_use0_length (times : List Int) (scores : List α)
    (opts : fit_stage_opts) : (find_events_to_use0 times scores opts).length = times.length := by
  have h : ∀ n, (select_loop times scores opts n).to_use.length = times.length := by
    intro n
    induction n with
    | zero => simp [select_loop, forLoop]
    | succ n ih =>
      have e : select_loop times scores opts (n + 1) =
        select_body times scores opts n (select_loop times scores opts n) := rfl
      rw [e, select_body_length, ih]
  exact h times.length

theorem sub_events_append (X : Mda α) (times : List Int) (labels : List Int)
    (templates : Mda α) (opts : fit_stage_opts) (es : List Nat) (e : Nat) (data : List α) :
    sub_events X times labels templates opts (es ++ [e]) data =
      subtract_template0 (win_len X opts) (sub_events X times labels templates opts es data)
        (win_off X opts (times.getD e 0)) (template_ptr templates (labels.getD e 0)) := by
  induction es generalizing data with
  | nil => rfl
  | cons x xs ih =>
    show sub_events X times labels templates opts (xs ++ [e]) _ = _
    rw [ih]
    rfl

theorem winners_succ (tr : TryState α) (to_use : List Int) (m : Nat) :
    winners tr to_use (m + 1) =
      if to_use.getD m 0 = 1 then winners tr to_use m ++ [tr.inds_to_try.getD m 0]
      else winners tr to_use m := by
  unfold winners
  rw [List.range_succ, List.filter_append, List.map_append]
  by_cases h : to_use.getD m 0 = 1
  · rw [if_pos h]
    simp only [List.filter_cons, h, decide_True, if_true, List.filter_nil, List.map_cons,
      List.map_nil]
  · rw [if_neg h]
    simp only [List.filter_cons, h, decide_False, List.filter_nil, List.map_nil,
      List.append_nil, Bool.false_eq_true, if_false]

theorem winners_mem (tr : TryState α) (to_use : List Int) (m e : Nat)
    (h : e ∈ winners tr to_use m) :
    ∃ p, p < m ∧ to_use.getD p 0 = 1 ∧ e = tr.inds_to_try.getD p 0 := by
  unfold winners at h
  obtain ⟨p, hp, he⟩ := List.mem_map.mp h
  have hp2 := List.mem_filter.mp hp
  exact ⟨p, List.mem_range.mp hp2.1, by simpa using hp2.2, he.symm⟩

theorem winners_pairwise (tr : TryState α) (to_use : List Int)
    (hincr : tr.inds_to_try.Pairwise (· < ·)) (m : Nat) (hm : m ≤ tr.inds_to_try.length) :
    (winners tr to_use m).Pairwise (· < ·) := by
  induction m with
  | zero => simp [winners]
  | succ m ih =>
    rw [winners_succ]
    by_cases h : to_use.getD m 0 = 1
    · rw [if_pos h, List.pairwise_append]
      refine ⟨ih (Nat.le_of_succ_le hm), List.pairwise_singleton _ _, ?_⟩
      intro a ha b hb
      rw [List.mem_singleton.mp hb]
      obtain ⟨p, hp, _, he⟩ := winners_mem tr to_use m a ha
      have hml : m < tr.inds_to_try.length := hm
      have hpl : p < tr.inds_to_try.length := lt_trans hp hml
      rw [he, List.getD_eq_getElem _ _ hpl, List.getD_eq_getElem _ _ hml]
      exact List.pairwise_iff_getElem.mp hincr p m hpl hml hp
    · rw [if_neg h]
      exact ih (Nat.le_of_succ_le hm)

theorem winners_mem_inds (tr : TryState α) (to_use : List Int) (m : Nat)
    (hm : m ≤ tr.inds_to_try.length) (e : Nat) (h : e ∈ winners tr to_use m) :
    e ∈ tr.inds_to_try := by
  obtain ⟨p, hp, _, he⟩ := winners_mem tr to_use m e h
  have hpl : p < tr.inds_to_try.length := lt_of_lt_of_le hp hm
  rw [he, List.getD_eq_getElem _ _ hpl]
  exact List.getElem_mem _

theorem win_len_congr (X Y : Mda α) (opts : fit_stage_opts) (h : X.N1 = Y.N1) :
    win_len X opts = win_len Y opts := by
  unfold win_len
  rw [h]

theorem win_off_congr (X Y : Mda α) (opts : fit_stage_opts) (t : Int) (h : X.N1 = Y.N1) :
    win_off X opts t = win_off Y opts t := by
  unfold win_off Mda.dataPtr
  rw [h, mul_zero, mul_zero]

theorem apply_loop_inv (compute_norm : Nat → (Nat → α) → α) (times : List Int)
    (labels : List Int) (templates : Mda α) (opts : fit_stage_opts) (s : KState α)
    (n : Nat) (tr : TryState α)
    (sinv : ScoreInv compute_norm times labels templates opts s n tr)
    (hn : n ≤ s.all_to_use.length) (to_use : List Int) (m : Nat)
    (hm : m ≤ tr.inds_to_try.length) :
    ApplyInv times labels templates opts s tr (winners tr to_use m)
      (forLoop m (apply_body templates opts tr to_use)
        { X := s.X, all_to_use := tr.all_to_use, something_changed := false,
          num_passes := s.num_passes + 1,
          score_log := s.score_log ++ tr.scored.map (fun p => (s.num_passes + 1, p.1, p.2)),
          sub_log := s.sub_log }) := by
  induction m with
  | zero =>
    exact
      { n1 := rfl, n2 := rfl, n3 := rfl, data := rfl, len := sinv.len,
        marks := fun i => by simp [winners, forLoop],
        changed := by simp [winners, forLoop],
        sub := by simp [winners, forLoop],
        passes := rfl, log := rfl }
  | succ m ih =>
    have ih := ih (Nat.le_of_succ_le hm)
    rw [forLoop_succ, winners_succ]
    generalize (forLoop m (apply_body templates opts tr to_use)
        { X := s.X, all_to_use := tr.all_to_use, something_changed := false,
          num_passes := s.num_passes + 1,
          score_log := s.score_log ++ tr.scored.map (fun p => (s.num_passes + 1, p.1, p.2)),
          sub_log := s.sub_log }) = A at ih ⊢
    unfold apply_body
    by_cases h : to_use.getD m 0 = 1
    swap
    · rw [if_neg h, if_neg h]
      exact ih
    rw [if_pos h, if_pos h]
    have hml : m < tr.inds_to_try.length := hm
    have hmem : tr.inds_to_try.getD m 0 ∈ tr.inds_to_try := by
      rw [List.getD_eq_getElem _ _ hml]
      exact List.getElem_mem _
    have hlt : tr.inds_to_try.getD m 0 < A.all_to_use.length := by
      rw [ih.len]
      exact lt_of_lt_of_le (sinv.tryp _ hmem).1 hn
    have htime : tr.times_to_try.getD m 0 = times.getD (tr.inds_to_try.getD m 0) 0 := by
      have hl2 : m < tr.times_to_try.length := by
        rw [sinv.times_eq, List.length_map]; exact hml
      rw [List.getD_eq_getElem _ _ hl2, List.getD_eq_getElem _ _ hml]
      simp only [sinv.times_eq, List.getElem_map]
    have hlab : tr.labels_to_try.getD m 0 = labels.getD (tr.inds_to_try.getD m 0) 0 := by
      have hl2 : m < tr.labels_to_try.length := by
        rw [sinv.labels_eq, List.length_map]; exact hml
      rw [List.getD_eq_getElem _ _ hl2, List.getD_eq_getElem _ _ hml]
      simp only [sinv.labels_eq, List.getElem_map]
    refine
      { n1 := ih.n1, n2 := ih.n2, n3 := ih.n3, data := ?_,
        len := by simp only [List.length_set, ih.len],
        marks := ?_, changed := ?_,
        sub := by simp only [ih.sub, List.append_assoc],
        passes := ih.passes, log := ih.log }
    · simp only
      rw [sub_events_append, ← ih.data, htime, hlab, win_len_congr A.X s.X opts ih.n1,
        win_off_congr A.X s.X opts _ ih.n1]
    · intro i
      simp only
      rw [getD_set_int, ih.marks i]
      by_cases hi : tr.inds_to_try.getD m 0 = i
      · have h1 : tr.inds_to_try.getD m 0 = i ∧ tr.inds_to_try.getD m 0 < A.all_to_use.length :=
          ⟨hi, hlt⟩
        have h2 : i ∈ winners tr to_use m ++ [tr.inds_to_try.getD m 0] :=
          List.mem_append.mpr (Or.inr (List.mem_singleton.mpr hi.symm))
        rw [if_pos h1, if_pos h2]
      · have h1 : ¬ (tr.inds_to_try.getD m 0 = i ∧
            tr.inds_to_try.getD m 0 < A.all_to_use.length) := fun e => hi e.1
        rw [if_neg h1]
        by_cases hw : i ∈ winners tr to_use m
        · rw [if_pos hw, if_pos (List.mem_append.mpr (Or.inl hw))]
        · have h2 : ¬ i ∈ winners tr to_use m ++ [tr.inds_to_try.getD m 0] := by
            intro hin
            rcases List.mem_append.mp hin with h3 | h3
            · exact hw h3
            · exact hi (List.mem_singleton.mp h3).symm
          rw [if_neg hw, if_neg h2]
    · simp

end Pass
/-! ## The pass loop of the kernel -/

section Loop
variable {α : Type} [LinearOrderedField α]

/-- What one pass does to a kernel state whose decision list has one entry per event. -/
theorem kernel_pass_spec (compute_norm : Nat → (Nat → α) → α) (times : List Int)
    (labels : List Int) (templates : Mda α) (opts : fit_stage_opts) (s : KState α)
    (hlen : s.all_to_use.length = times.length) :
    ∃ (tr : TryState α) (w : List Nat),
      ScoreInv compute_norm times labels templates opts s times.length tr ∧
      ApplyInv times labels templates opts s tr w
        (kernel_pass compute_norm times labels templates opts s) ∧
      w.Pairwise (· < ·) ∧ (∀ e, e ∈ w → e ∈ tr.inds_to_try) := by
  have sinv := score_loop_inv compute_norm times labels templates opts s times.length
    (le_of_eq hlen.symm)
  generalize htr : score_loop compute_norm times labels templates opts s times.length = tr
    at sinv
  have hm : (find_events_to_use0 tr.times_to_try tr.scores_to_try opts).length
      ≤ tr.inds_to_try.length := by
    rw [find_events_to_use0_length, sinv.times_eq, List.length_map]
  refine ⟨tr, winners tr (find_events_to_use0 tr.times_to_try tr.scores_to_try opts)
    (find_events_to_use0 tr.times_to_try tr.scores_to_try opts).length, sinv, ?_, ?_, ?_⟩
  · have h := apply_loop_inv compute_norm times labels templates opts s times.length tr sinv
      (le_of_eq hlen.symm) (find_events_to_use0 tr.times_to_try tr.scores_to_try opts) _ hm
    unfold kernel_pass
    simp only [htr]
    exact h
  · exact winners_pairwise tr _ sinv.incr _ hm
  · exact fun e he => winners_mem_inds tr _ _ hm e he

theorem sub_events_concat (X : Mda α) (times : List Int) (labels : List Int)
    (templates : Mda α) (opts : fit_stage_opts) (es fs : List Nat) (data : List α) :
    sub_events X times labels templates opts (es ++ fs) data =
      sub_events X times labels templates opts fs
        (sub_events X times labels templates opts es data) := by
  induction es generalizing data with
  | nil => rfl
  | cons x xs ih =>
    show sub_events X times labels templates opts (xs ++ fs) _ = _
    rw [ih]
    rfl

theorem sub_events_congr (X Y : Mda α) (times : List Int) (labels : List Int)
    (templates : Mda α) (opts : fit_stage_opts) (h : X.N1 = Y.N1) (es : List Nat)
    (data : List α) :
    sub_events X times labels templates opts es data =
      sub_events Y times labels templates opts es data := by
  induction es generalizing data with
  | nil => rfl
  | cons x xs ih =>
    show sub_events X times labels templates opts xs _ = sub_events Y times labels templates opts xs _
    rw [ih, win_len_congr X Y opts h, win_off_congr X Y opts _ h]

/-- One pass keeps the invariant of the kernel. -/
theorem kernel_pass_inv (compute_norm : Nat → (Nat → α) → α) (X0 : Mda α) (times : List Int)
    (labels : List Int) (templates : Mda α) (opts : fit_stage_opts) (s : KState α)
    (inv : KInv X0 times labels templates opts s) :
    KInv X0 times labels templates opts
      (kernel_pass compute_norm times labels templates opts s) := by
  obtain ⟨tr, w, sinv, ainv, _, hwm⟩ :=
    kernel_pass_spec compute_norm times labels templates opts s inv.len
  have hw0 : ∀ e, e ∈ w → s.all_to_use.getD e 0 = 0 ∧ tr.all_to_use.getD e 0 = 0 ∧
      e < times.length ∧ 0 < labels.getD e 0 := fun e he =>
    ⟨(sinv.tryp e (hwm e he)).2.1, (sinv.tryp e (hwm e he)).2.2.1, (sinv.tryp e (hwm e he)).1,
      (sinv.tryp e (hwm e he)).2.2.2.1⟩
  refine
    { len := ainv.len.trans inv.len, n1 := ainv.n1.trans inv.n1, n2 := ainv.n2.trans inv.n2,
      n3 := ainv.n3.trans inv.n3, data := ?_, vals := ?_, elig := ?_, acc := ?_,
      nodup := ?_, logp := ?_ }
  · rw [ainv.data, ainv.sub, sub_events_concat, ← inv.data,
      sub_events_congr s.X X0 times labels templates opts inv.n1]
  · intro i
    rw [ainv.marks i]
    by_cases hi : i ∈ w
    · rw [if_pos hi]; exact Or.inr (Or.inl rfl)
    · rw [if_neg hi]
      rcases sinv.keep i with h | h
      · rw [h]; exact inv.vals i
      · exact Or.inr (Or.inr h.2.1)
  · intro i hne
    rw [ainv.marks i] at hne
    by_cases hi : i ∈ w
    · exact ⟨(hw0 i hi).2.2.1, (hw0 i hi).2.2.2⟩
    · rw [if_neg hi] at hne
      rcases sinv.keep i with h | h
      · rw [h] at hne; exact inv.elig i hne
      · exact ⟨h.2.2.1, h.2.2.2⟩
  · intro i
    rw [ainv.marks i, ainv.sub, List.mem_append]
    by_cases hi : i ∈ w
    · rw [if_pos hi]
      exact ⟨fun _ => Or.inr hi, fun _ => rfl⟩
    · rw [if_neg hi]
      constructor
      · intro h1
        rcases sinv.keep i with h | h
        · rw [h] at h1; exact Or.inl ((inv.acc i).mp h1)
        · rw [h.2.1] at h1; exact absurd h1 (by decide)
      · intro h1
        rcases h1 with h1 | h1
        · have hs1 := (inv.acc i).mpr h1
          rcases sinv.keep i with h | h
          · rw [h]; exact hs1
          · rw [h.1] at hs1; exact absurd hs1 (by decide)
        · exact absurd h1 hi
  · rw [ainv.sub]
    refine List.Nodup.append inv.nodup ?_ ?_
    · exact (List.Pairwise.imp (fun h => Nat.ne_of_lt h) (by assumption) : w.Pairwise (· ≠ ·))
    · intro e he1 he2
      have h1 := (inv.acc e).mpr he1
      rw [(hw0 e he2).1] at h1
      exact absurd h1 (by decide)
  · intro p e sc hmem
    rw [ainv.log, List.mem_append] at hmem
    rw [ainv.passes, ainv.marks e]
    rcases hmem with h | h
    · obtain ⟨h1, h2, h3, h4, h5⟩ := inv.logp p e sc h
      refine ⟨h1, Nat.le_succ_of_le h2, h3, h4, fun hsc => ?_⟩
      have hs := h5 hsc
      have hnw : ¬ e ∈ w := fun he => by
        rw [(hw0 e he).1] at hs; exact absurd hs (by decide)
      rw [if_neg hnw]
      rcases sinv.keep e with h | h
      · rw [h]; exact hs
      · exact h.2.1
    · obtain ⟨q, hq, hqe⟩ := List.mem_map.mp h
      have hp : p = s.num_passes + 1 := (congrArg Prod.fst hqe).symm
      have he : e = q.1 := (congrArg (fun x => x.2.1) hqe).symm
      have hsc : sc = q.2 := (congrArg (fun x => x.2.2) hqe).symm
      obtain ⟨h1, _, h3, _, h5, _⟩ := sinv.scoredp q.1 q.2 hq
      rw [hp, he, hsc]
      refine ⟨Nat.succ_le_succ (Nat.zero_le _), le_refl _, h1, h3, fun hle => ?_⟩
      have hs := h5 hle
      have hnw : ¬ q.1 ∈ w := fun hin => by
        rw [(hw0 q.1 hin).2.1] at hs; exact absurd hs (by decide)
      rw [if_neg hnw]
      exact hs

/-- A pass never adds undecided events, and a pass that accepts something removes one. -/
theorem kernel_pass_undecided (compute_norm : Nat → (Nat → α) → α) (times : List Int)
    (labels : List Int) (templates : Mda α) (opts : fit_stage_opts) (s : KState α)
    (hlen : s.all_to_use.length = times.length) :
    (kernel_pass compute_norm times labels templates opts s).something_changed = true →
      num_undecided times labels (kernel_pass compute_norm times labels templates opts s)
        < num_undecided times labels s := by
  obtain ⟨tr, w, sinv, ainv, _, hwm⟩ :=
    kernel_pass_spec compute_norm times labels templates opts s hlen
  intro hch
  have hne : w ≠ [] := ainv.changed.mp hch
  obtain ⟨e, he⟩ := List.exists_mem_of_ne_nil w hne
  obtain ⟨h1, h2, _, h4, _⟩ := sinv.tryp e (hwm e he)
  unfold num_undecided
  apply Finset.card_lt_card
  rw [Finset.ssubset_iff_of_subset]
  · refine ⟨e, ?_, ?_⟩
    · exact Finset.mem_filter.mpr ⟨Finset.mem_range.mpr h1, h2, h4⟩
    · intro hmem
      have h0 := (Finset.mem_filter.mp hmem).2.1
      rw [ainv.marks e, if_pos he] at h0
      exact absurd h0 (by decide)
  · intro i hi
    obtain ⟨hr, h0, hl⟩ := Finset.mem_filter.mp hi
    refine Finset.mem_filter.mpr ⟨hr, ?_, hl⟩
    rw [ainv.marks i] at h0
    by_cases hw : i ∈ w
    · rw [if_pos hw] at h0; exact absurd h0 (by decide)
    · rw [if_neg hw] at h0
      rcases sinv.keep i with h | h
      · rw [← h]; exact h0
      · exact h.1

theorem kernel_pass_num_passes (compute_norm : Nat → (Nat → α) → α) (times : List Int)
    (labels : List Int) (templates : Mda α) (opts : fit_stage_opts) (s : KState α)
    (hlen : s.all_to_use.length = times.length) :
    (kernel_pass compute_norm times labels templates opts s).num_passes = s.num_passes + 1 := by
  obtain ⟨tr, w, _, ainv, _, _⟩ :=
    kernel_pass_spec compute_norm times labels templates opts s hlen
  exact ainv.passes

theorem kernel_loop_done (pass : KState α → KState α) (fuel : Nat) (s : KState α)
    (h : s.something_changed = false) : kernel_loop pass fuel s = some s := by
  cases fuel with
  | zero => simp [kernel_loop, h]
  | succ f => simp [kernel_loop, h]

/-- Total correctness of the bounded pass loop: if every pass keeps an invariant, counts
one pass and, when it accepts something, lowers a measure, then from a state of measure at
most `k` the loop exits in the same state for every bound above `k`, after at least one
and at most `k + 1` passes. -/
theorem kernel_loop_total (pass : KState α → KState α) (Inv : KState α → Prop)
    (mu : KState α → Nat)
    (hstep : ∀ s, Inv s → Inv (pass s) ∧ (pass s).num_passes = s.num_passes + 1 ∧
      ((pass s).something_changed = true → mu (pass s) < mu s)) :
    ∀ (k : Nat) (s : KState α), mu s ≤ k → Inv s → s.something_changed = true →
      ∃ r, (∀ fuel, k < fuel → kernel_loop pass fuel s = some r) ∧ Inv r ∧
        r.something_changed = false ∧ s.num_passes < r.num_passes ∧
        r.num_passes ≤ s.num_passes + mu s + 1 := by
  intro k
  induction k with
  | zero =>
    intro s hmu hinv hch
    obtain ⟨h1, h2, h3⟩ := hstep s hinv
    have hdone : (pass s).something_changed = false := by
      by_contra hc
      have := h3 (by simpa using hc)
      omega
    refine ⟨pass s, ?_, h1, hdone, by omega, by omega⟩
    intro fuel hf
    obtain ⟨f, rfl⟩ : ∃ f, fuel = f + 1 := ⟨fuel - 1, by omega⟩
    simp only [kernel_loop, hch, if_true]
    exact kernel_loop_done pass f _ hdone
  | succ k ih =>
    intro s hmu hinv hch
    obtain ⟨h1, h2, h3⟩ := hstep s hinv
    by_cases hc : (pass s).something_changed = true
    · have hlt := h3 hc
      obtain ⟨r, hr1, hr2, hr3, hr4, hr5⟩ := ih (pass s) (by omega) h1 hc
      refine ⟨r, ?_, hr2, hr3, by omega, by omega⟩
      intro fuel hf
      obtain ⟨f, rfl⟩ : ∃ f, fuel = f + 1 := ⟨fuel - 1, by omega⟩
      simp only [kernel_loop, hch, if_true]
      exact hr1 f (by omega)
    · have hdone : (pass s).something_changed = false := by simpa using hc
      refine ⟨pass s, ?_, h1, hdone, by omega, by omega⟩
      intro fuel hf
      obtain ⟨f, rfl⟩ : ∃ f, fuel = f + 1 := ⟨fuel - 1, by omega⟩
      simp only [kernel_loop, hch, if_true]
      exact kernel_loop_done pass f _ hdone

theorem init_all_to_use (n : Nat) :
    forLoop n (fun _ (l : List Int) => l ++ [0]) [] = List.replicate n 0 := by
  induction n with
  | zero => rfl
  | succ n ih => rw [forLoop_succ, ih, List.replicate_succ']

theorem kernel_init_getD (X : Mda α) (times : List Int) (i : Nat) :
    (kernel_init X times).all_to_use.getD i 0 = 0 := by
  unfold kernel_init
  simp only [init_all_to_use, List.getD_eq_getElem?_getD, List.getElem?_replicate]
  split_ifs <;> rfl

theorem kernel_init_inv (X : Mda α) (times : List Int) (labels : List Int)
    (templates : Mda α) (opts : fit_stage_opts) :
    KInv X times labels templates opts (kernel_init X times) :=
  { len := by simp [kernel_init, init_all_to_use],
    n1 := rfl, n2 := rfl, n3 := rfl, data := rfl,
    vals := fun i => Or.inl (kernel_init_getD X times i),
    elig := fun i h => absurd (kernel_init_getD X times i) h,
    acc := fun i => by
      rw [kernel_init_getD]
      simp [kernel_init],
    nodup := List.nodup_nil,
    logp := fun p e sc h => absurd h (List.not_mem_nil _) }

theorem num_undecided_init (X : Mda α) (times : List Int) (labels : List Int) :
    num_undecided times labels (kernel_init X times) = num_eligible times labels := by
  unfold num_undecided num_eligible
  congr 1
  apply Finset.filter_congr
  intro i _
  rw [kernel_init_getD]
  simp

theorem num_eligible_le (times : List Int) (labels : List Int) :
    num_eligible times labels ≤ times.length := by
  unfold num_eligible
  calc _ ≤ (Finset.range times.length).card := Finset.card_filter_le _ _
    _ = times.length := Finset.card_range _

/-- The kernel always leaves its while loop: for every pass bound above the number of
eligible events the bounded loop returns the same exit state, which satisfies the kernel
invariant and is reached after at least one and at most `num_eligible + 1` passes. -/
theorem kernel_run_total (compute_norm : Nat → (Nat → α) → α) (X : Mda α) (times : List Int)
    (labels : List Int) (templates : Mda α) (opts : fit_stage_opts) :
    ∃ r, (∀ fuel, num_eligible times labels < fuel →
        kernel_run compute_norm fuel X times labels templates opts = some r) ∧
      KInv X times labels templates opts r ∧ r.something_changed = false ∧
      1 ≤ r.num_passes ∧ r.num_passes ≤ num_eligible times labels + 1 := by
  have hstep : ∀ s, KInv X times labels templates opts s →
      KInv X times labels templates opts (kernel_pass compute_norm times labels templates opts s) ∧
      (kernel_pass compute_norm times labels templates opts s).num_passes = s.num_passes + 1 ∧
      ((kernel_pass compute_norm times labels templates opts s).something_changed = true →
        num_undecided times labels (kernel_pass compute_norm times labels templates opts s)
          < num_undecided times labels s) := fun s inv =>
    ⟨kernel_pass_inv compute_norm X times labels templates opts s inv,
      kernel_pass_num_passes compute_norm times labels templates opts s inv.len,
      kernel_pass_undecided compute_norm times labels templates opts s inv.len⟩
  obtain ⟨r, h1, h2, h3, h4, h5⟩ := kernel_loop_total
    (kernel_pass compute_norm times labels templates opts)
    (KInv X times labels templates opts) (num_undecided times labels) hstep
    (num_eligible times labels) (kernel_init X times)
    (le_of_eq (num_undecided_init X times labels))
    (kernel_init_inv X times labels templates opts) rfl
  rw [num_undecided_init] at h5
  have h0 : (kernel_init X times).num_passes = 0 := rfl
  exact ⟨r, h1, h2, h3, by omega, by omega⟩

/-- The kernel returns: its answer is the exit state of the loop and the positions that
this state marks 1. -/
theorem fit_stage_kernel_total (compute_norm : Nat → (Nat → α) → α) (X : Mda α)
    (times : List Int) (labels : List Int) (templates : Mda α) (opts : fit_stage_opts) :
    ∃ r, fit_stage_kernel compute_norm X times labels templates opts
        = some (r, collect_inds times.length r.all_to_use) ∧
      KInv X times labels templates opts r ∧ r.something_changed = false ∧
      1 ≤ r.num_passes ∧ r.num_passes ≤ num_eligible times labels + 1 := by
  obtain ⟨r, h1, h2, h3, h4, h5⟩ :=
    kernel_run_total compute_norm X times labels templates opts
  refine ⟨r, ?_, h2, h3, h4, h5⟩
  unfold fit_stage_kernel
  rw [h1 (times.length + 1) (Nat.lt_succ_of_le (num_eligible_le times labels))]
  rfl

end Loop
/-! ## Properties of the kernel -/

section KernelClaims
variable {α : Type} [LinearOrderedField α]

theorem collect_inds_spec (L : Nat) (a : List Int) :
    (∀ i, i ∈ collect_inds L a ↔ i < L ∧ a.getD i 0 = 1) ∧
    (collect_inds L a).Pairwise (· < ·) := by
  induction L with
  | zero =>
    refine ⟨fun i => ?_, List.Pairwise.nil⟩
    simp [collect_inds, forLoop]
  | succ n ih =>
    obtain ⟨ihm, ihp⟩ := ih
    have e : collect_inds (n + 1) a =
        if a.getD n 0 = 1 then collect_inds n a ++ [n] else collect_inds n a := rfl
    rw [e]
    by_cases h : a.getD n 0 = 1
    · rw [if_pos h]
      constructor
      · intro i
        rw [List.mem_append, ihm, List.mem_singleton]
        constructor
        · rintro (h1 | h1)
          · exact ⟨Nat.lt_succ_of_lt h1.1, h1.2⟩
          · rw [h1]; exact ⟨Nat.lt_succ_self n, h⟩
        · rintro ⟨h1, h2⟩
          rcases Nat.lt_succ_iff_lt_or_eq.mp h1 with h3 | h3
          · exact Or.inl ⟨h3, h2⟩
          · exact Or.inr h3
      · rw [List.pairwise_append]
        refine ⟨ihp, List.pairwise_singleton _ _, ?_⟩
        intro x hx y hy
        rw [List.mem_singleton.mp hy]
        exact ((ihm x).mp hx).1
    · rw [if_neg h]
      refine ⟨fun i => ?_, ihp⟩
      rw [ihm]
      constructor
      · rintro ⟨h1, h2⟩
        exact ⟨Nat.lt_succ_of_lt h1, h2⟩
      · rintro ⟨h1, h2⟩
        rcases Nat.lt_succ_iff_lt_or_eq.mp h1 with h3 | h3
        · exact ⟨h3, h2⟩
        · rw [h3] at h2; exact absurd h2 h

/-- Buffer after a list of subtractions, position by position. -/
theorem sub_events_getD (X : Mda α) (times : List Int) (labels : List Int)
    (templates : Mda α) (opts : fit_stage_opts) (es : List Nat) (data : List α) :
    (sub_events X times labels templates opts es data).length = data.length ∧
    ∀ a, a < data.length →
      (sub_events X times labels templates opts es data).getD a 0 =
        data.getD a 0 - (es.map (fun e => placed X times labels templates opts e a)).sum := by
  induction es generalizing data with
  | nil =>
    refine ⟨rfl, fun a _ => ?_⟩
    simp [sub_events]
  | cons e es ih =>
    obtain ⟨hl, hv⟩ := subtract_template0_spec (win_len X opts) data
      (win_off X opts (times.getD e 0)) (template_ptr templates (labels.getD e 0))
    obtain ⟨ihl, ihv⟩ := ih (subtract_template0 (win_len X opts) data
      (win_off X opts (times.getD e 0)) (template_ptr templates (labels.getD e 0)))
    have e1 : sub_events X times labels templates opts (e :: es) data =
        sub_events X times labels templates opts es (subtract_template0 (win_len X opts) data
          (win_off X opts (times.getD e 0)) (template_ptr templates (labels.getD e 0))) := rfl
    rw [e1]
    refine ⟨ihl.trans hl, fun a ha => ?_⟩
    rw [ihv a (by rw [hl]; exact ha), hv a ha, List.map_cons, List.sum_cons]
    unfold placed
    by_cases hw : win_off X opts (times.getD e 0) ≤ (a : Int) ∧
        (a : Int) < win_off X opts (times.getD e 0) + (win_len X opts : Int)
    · rw [if_pos hw, if_pos hw]; ring
    · rw [if_neg hw, if_neg hw]; ring

/-- The accepted events of an exit state are, up to order, the returned index list. -/
theorem sub_log_perm (X : Mda α) (times : List Int) (labels : List Int) (templates : Mda α)
    (opts : fit_stage_opts) (r : KState α) (inv : KInv X times labels templates opts r) :
    r.sub_log.Perm (collect_inds times.length r.all_to_use) := by
  obtain ⟨hm, hp⟩ := collect_inds_spec times.length r.all_to_use
  have hnd : (collect_inds times.length r.all_to_use).Nodup :=
    List.Pairwise.imp (fun h => Nat.ne_of_lt h) hp
  rw [List.perm_ext_iff_of_nodup inv.nodup hnd]
  intro i
  rw [hm, ← inv.acc i]
  constructor
  · intro h
    exact ⟨(inv.elig i (by rw [h]; decide)).1, h⟩
  · exact fun h => h.2

/-- C5 (no double subtraction): when the window of every label>0 event lies inside the
buffer, the kernel returns, the list of subtraction calls it made is a duplicate-free
rearrangement of the returned index list (every returned event exactly once, nothing
else), the final buffer is the initial buffer after exactly these calls, and at every
buffer position it equals the initial value minus the sum over the returned indices of
the template of that event placed at its window. -/
theorem no_double_subtraction (compute_norm : Nat → (Nat → α) → α) (X : Mda α)
    (times : List Int) (labels : List Int) (templates : Mda α) (opts : fit_stage_opts)
    (_hin : ∀ i, i < times.length → 0 < labels.getD i 0 →
      window_inside X opts (times.getD i 0)) :
    ∃ r inds, fit_stage_kernel compute_norm X times labels templates opts = some (r, inds) ∧
      r.sub_log.Perm inds ∧ r.sub_log.Nodup ∧
      r.X.data = sub_events X times labels templates opts r.sub_log X.data ∧
      r.X.data.length = X.data.length ∧
      ∀ a, a < X.data.length →
        r.X.data.getD a 0 = X.data.getD a 0
          - (inds.map (fun e => placed X times labels templates opts e a)).sum := by
  obtain ⟨r, hr, inv, _, _, _⟩ :=
    fit_stage_kernel_total compute_norm X times labels templates opts
  have hperm := sub_log_perm X times labels templates opts r inv
  obtain ⟨hl, hv⟩ := sub_events_getD X times labels templates opts r.sub_log X.data
  refine ⟨r, _, hr, hperm, inv.nodup, inv.data, by rw [inv.data]; exact hl, fun a ha => ?_⟩
  rw [inv.data, hv a ha]
  congr 1
  exact (hperm.map _).sum_eq

/-- Witness for C5: the one-event series of length 3 with the unit template, over the
reals; the window of the event is column 1. -/
theorem no_double_subtraction_witness :
    ∃ r inds, fit_stage_kernel (fun N v => Real.sqrt (∑ i in Finset.range N, v i ^ 2))
        (short_series ℝ) [1] [1] (unit_template ℝ) ⟨1⟩ = some (r, inds) ∧
      r.sub_log.Perm inds ∧ r.sub_log.Nodup ∧
      r.X.data = sub_events (short_series ℝ) [1] [1] (unit_template ℝ) ⟨1⟩ r.sub_log
        (short_series ℝ).data ∧
      r.X.data.length = (short_series ℝ).data.length ∧
      ∀ a, a < (short_series ℝ).data.length →
        r.X.data.getD a 0 = (short_series ℝ).data.getD a 0
          - (inds.map (fun e => placed (short_series ℝ) [1] [1] (unit_template ℝ) ⟨1⟩ e a)).sum :=
  no_double_subtraction _ (short_series ℝ) [1] [1] (unit_template ℝ) ⟨1⟩
    (by
      intro i hi _
      have hi1 : i < 1 := hi
      interval_cases i
      exact ⟨by decide, by decide, by decide⟩)

/-- C6 as amended (termination bound): the kernel returns and its while loop has run at
most `L + 1` passes, `L` being the number of events with label > 0. -/
theorem kernel_passes_le_succ (compute_norm : Nat → (Nat → α) → α) (X : Mda α)
    (times : List Int) (labels : List Int) (templates : Mda α) (opts : fit_stage_opts) :
    ∃ r inds, fit_stage_kernel compute_norm X times labels templates opts = some (r, inds) ∧
      r.num_passes ≤ num_eligible times labels + 1 := by
  obtain ⟨r, hr, _, _, _, h5⟩ :=
    fit_stage_kernel_total compute_norm X times labels templates opts
  exact ⟨r, _, hr, h5⟩

/-- C7 (label-0 exclusion): the kernel returns, every returned index is a position of the
event list with label > 0, and every event that was scored in some pass or whose template
was subtracted has label > 0. -/
theorem label_zero_excluded (compute_norm : Nat → (Nat → α) → α) (X : Mda α)
    (times : List Int) (labels : List Int) (templates : Mda α) (opts : fit_stage_opts) :
    ∃ r inds, fit_stage_kernel compute_norm X times labels templates opts = some (r, inds) ∧
      (∀ i, i ∈ inds → i < times.length ∧ 0 < labels.getD i 0) ∧
      (∀ p e sc, (p, e, sc) ∈ r.score_log → e < times.length ∧ 0 < labels.getD e 0) ∧
      (∀ e, e ∈ r.sub_log → e < times.length ∧ 0 < labels.getD e 0) := by
  obtain ⟨r, hr, inv, _, _, _⟩ :=
    fit_stage_kernel_total compute_norm X times labels templates opts
  refine ⟨r, _, hr, ?_, ?_, ?_⟩
  · intro i hi
    have h1 := ((collect_inds_spec times.length r.all_to_use).1 i).mp hi
    exact inv.elig i (by rw [h1.2]; decide)
  · intro p e sc h
    exact ⟨(inv.logp p e sc h).2.2.1, (inv.logp p e sc h).2.2.2.1⟩
  · intro e he
    have h1 := (inv.acc e).mpr he
    exact inv.elig e (by rw [h1]; decide)

/-- C8 (terminal decisions): in a pass from any state with one decision per event, a
decision that is not 0 is kept, a decision that changes was 0 and becomes 1 or -1, and
only events whose decision is 0 at the start of the pass are scored in it; and the kernel
returns a list that contains no event that had a score ≤ 0 in some pass. -/
theorem decisions_terminal (compute_norm : Nat → (Nat → α) → α) (X : Mda α)
    (times : List Int) (labels : List Int) (templates : Mda α) (opts : fit_stage_opts) :
    (∀ s : KState α, s.all_to_use.length = times.length →
      (∀ i, s.all_to_use.getD i 0 ≠ 0 →
        (kernel_pass compute_norm times labels templates opts s).all_to_use.getD i 0
          = s.all_to_use.getD i 0) ∧
      (∀ i, (kernel_pass compute_norm times labels templates opts s).all_to_use.getD i 0
          ≠ s.all_to_use.getD i 0 →
        s.all_to_use.getD i 0 = 0 ∧
          ((kernel_pass compute_norm times labels templates opts s).all_to_use.getD i 0 = 1 ∨
           (kernel_pass compute_norm times labels templates opts s).all_to_use.getD i 0 = -1)) ∧
      ∃ scored : List (Nat × Nat × α),
        (kernel_pass compute_norm times labels templates opts s).score_log
          = s.score_log ++ scored ∧
        ∀ p e sc, (p, e, sc) ∈ scored → p = s.num_passes + 1 ∧ s.all_to_use.getD e 0 = 0) ∧
    ∃ r inds, fit_stage_kernel compute_norm X times labels templates opts = some (r, inds) ∧
      ∀ p e sc, (p, e, sc) ∈ r.score_log → sc ≤ 0 → e ∉ inds := by
  constructor
  · intro s hlen
    obtain ⟨tr, w, sinv, ainv, _, hwm⟩ :=
      kernel_pass_spec compute_norm times labels templates opts s hlen
    have hw0 : ∀ e, e ∈ w → s.all_to_use.getD e 0 = 0 :=
      fun e he => (sinv.tryp e (hwm e he)).2.1
    have hkeep : ∀ i, s.all_to_use.getD i 0 ≠ 0 →
        (kernel_pass compute_norm times labels templates opts s).all_to_use.getD i 0
          = s.all_to_use.getD i 0 := by
      intro i hne
      rw [ainv.marks i]
      have hnw : ¬ i ∈ w := fun h => hne (hw0 i h)
      rw [if_neg hnw]
      rcases sinv.keep i with h | h
      · exact h
      · exact absurd h.1 hne
    refine ⟨hkeep, ?_, ?_⟩
    · intro i hne
      have h0 : s.all_to_use.getD i 0 = 0 := by
        by_contra hc
        exact hne (hkeep i hc)
      refine ⟨h0, ?_⟩
      rw [ainv.marks i] at hne ⊢
      by_cases hw : i ∈ w
      · rw [if_pos hw]; exact Or.inl rfl
      · rw [if_neg hw] at hne ⊢
        rcases sinv.keep i with h | h
        · exact absurd h hne
        · exact Or.inr h.2.1
    · refine ⟨_, ainv.log, ?_⟩
      intro p e sc h
      obtain ⟨q, hq, hqe⟩ := List.mem_map.mp h
      have hp : p = s.num_passes + 1 := (congrArg Prod.fst hqe).symm
      have he : e = q.1 := (congrArg (fun x => x.2.1) hqe).symm
      rw [he]
      exact ⟨hp, (sinv.scoredp q.1 q.2 hq).2.1⟩
  · obtain ⟨r, hr, inv, _, _, _⟩ :=
      fit_stage_kernel_total compute_norm X times labels templates opts
    refine ⟨r, _, hr, ?_⟩
    intro p e sc h hle hmem
    have h1 := (inv.logp p e sc h).2.2.2.2 hle
    have h2 := (((collect_inds_spec times.length r.all_to_use).1 e).mp hmem).2
    rw [h1] at h2
    exact absurd h2 (by decide)

/-- Witness for C8: the pass from the state of the one-event example in which the event
is already accepted (decision 1). -/
theorem decisions_terminal_witness :
    (∀ i, (accepted_state ℝ).all_to_use.getD i 0 ≠ 0 →
      (kernel_pass (fun N v => Real.sqrt (∑ i in Finset.range N, v i ^ 2)) [1] [1]
        (unit_template ℝ) ⟨1⟩ (accepted_state ℝ)).all_to_use.getD i 0
        = (accepted_state ℝ).all_to_use.getD i 0) ∧
    (∀ i, (kernel_pass (fun N v => Real.sqrt (∑ i in Finset.range N, v i ^ 2)) [1] [1]
        (unit_template ℝ) ⟨1⟩ (accepted_state ℝ)).all_to_use.getD i 0
        ≠ (accepted_state ℝ).all_to_use.getD i 0 →
      (accepted_state ℝ).all_to_use.getD i 0 = 0 ∧
        ((kernel_pass (fun N v => Real.sqrt (∑ i in Finset.range N, v i ^ 2)) [1] [1]
          (unit_template ℝ) ⟨1⟩ (accepted_state ℝ)).all_to_use.getD i 0 = 1 ∨
         (kernel_pass (fun N v => Real.sqrt (∑ i in Finset.range N, v i ^ 2)) [1] [1]
          (unit_template ℝ) ⟨1⟩ (accepted_state ℝ)).all_to_use.getD i 0 = -1)) ∧
    ∃ scored : List (Nat × Nat × ℝ),
      (kernel_pass (fun N v => Real.sqrt (∑ i in Finset.range N, v i ^ 2)) [1] [1]
        (unit_template ℝ) ⟨1⟩ (accepted_state ℝ)).score_log
        = (accepted_state ℝ).score_log ++ scored ∧
      ∀ p e sc, (p, e, sc) ∈ scored →
        p = (accepted_state ℝ).num_passes + 1 ∧
          (accepted_state ℝ).all_to_use.getD e 0 = 0 :=
  (decisions_terminal (fun N v => Real.sqrt (∑ i in Finset.range N, v i ^ 2))
    (short_series ℝ) [1] [1] (unit_template ℝ) ⟨1⟩).1 (accepted_state ℝ) rfl

end KernelClaims
/-! ## The kernel on a single event -/

section Single
variable {α : Type} [LinearOrderedField α]

theorem find_events_single (t : Int) (sc : α) (opts : fit_stage_opts) (h : 0 < sc) :
    find_events_to_use0 [t] [sc] opts = [1] := by
  show (select_body [t] [sc] opts 0 ⟨[0], 0, 0⟩).to_use = [1]
  unfold select_body
  have h1 : ([sc] : List α).getD 0 0 = sc := rfl
  have h2 : ([t] : List Int).getD 0 0 = t := rfl
  simp only [h1, h2, gt_iff_lt, h, if_true]
  by_cases hr : t < t - opts.clip_size
  · simp only [hr, if_true, Nat.zero_sub, forLoop, h, lt_irrefl, if_false, List.set_cons_zero]
  · simp only [hr, if_false, h, if_true, lt_irrefl, List.set_cons_zero]

theorem find_events_nil (opts : fit_stage_opts) :
    find_events_to_use0 ([] : List Int) ([] : List α) opts = [] := rfl

/-- First pass on a single eligible event with a positive score: the event is accepted. -/
theorem kernel_pass_single_accept (compute_norm : Nat → (Nat → α) → α) (X templates : Mda α)
    (opts : fit_stage_opts) (t k : Int) (hk : 0 < k)
    (hsc : 0 < score_at compute_norm X [t] [k] templates opts 0) :
    kernel_pass compute_norm [t] [k] templates opts (kernel_init X [t]) =
      { X := { N1 := X.N1, N2 := X.N2, N3 := X.N3,
               data := subtract_template0 (win_len X opts) X.data (win_off X opts t)
                 (template_ptr templates k) },
        all_to_use := [1], something_changed := true, num_passes := 1,
        score_log := [(1, 0, score_at compute_norm X [t] [k] templates opts 0)],
        sub_log := [0] } := by
  have hs : score_loop compute_norm [t] [k] templates opts (kernel_init X [t]) 1 =
      { all_to_use := [0],
        scores_to_try := [score_at compute_norm X [t] [k] templates opts 0],
        times_to_try := [t], labels_to_try := [k], inds_to_try := [0],
        scored := [(0, score_at compute_norm X [t] [k] templates opts 0)] } := by
    show score_body compute_norm X [t] [k] templates opts 0 ⟨[0], [], [], [], [], []⟩ = _
    unfold score_body
    have h1 : ([k] : List Int).getD 0 0 = k := rfl
    have h2 : ([t] : List Int).getD 0 0 = t := rfl
    have h3 : ([0] : List Int).getD 0 0 = 0 := rfl
    have h4 : compute_score0 compute_norm (win_len X opts) (ptr X.data (win_off X opts t))
        (template_ptr templates k) = score_at compute_norm X [t] [k] templates opts 0 := rfl
    simp only [h1, h2, h3, if_true, gt_iff_lt, hk, h4, hsc, List.nil_append]
  unfold kernel_pass
  have hL : ([t] : List Int).length = 1 := rfl
  simp only [hL, hs, find_events_single t _ opts hsc]
  show apply_body templates opts _ [1] 0 _ = _
  unfold apply_body
  have h5 : ([1] : List Int).getD 0 0 = 1 := rfl
  simp only [h5, if_true]
  rfl

/-- First pass on a single eligible event with a score that is not positive: the event is
rejected and nothing is subtracted. -/
theorem kernel_pass_single_reject (compute_norm : Nat → (Nat → α) → α) (X templates : Mda α)
    (opts : fit_stage_opts) (t k : Int) (hk : 0 < k)
    (hsc : score_at compute_norm X [t] [k] templates opts 0 ≤ 0) :
    kernel_pass compute_norm [t] [k] templates opts (kernel_init X [t]) =
      { X := X, all_to_use := [-1], something_changed := false, num_passes := 1,
        score_log := [(1, 0, score_at compute_norm X [t] [k] templates opts 0)],
        sub_log := [] } := by
  have hs : score_loop compute_norm [t] [k] templates opts (kernel_init X [t]) 1 =
      { all_to_use := [-1], scores_to_try := [], times_to_try := [], labels_to_try := [],
        inds_to_try := [],
        scored := [(0, score_at compute_norm X [t] [k] templates opts 0)] } := by
    show score_body compute_norm X [t] [k] templates opts 0 ⟨[0], [], [], [], [], []⟩ = _
    unfold score_body
    have h1 : ([k] : List Int).getD 0 0 = k := rfl
    have h2 : ([t] : List Int).getD 0 0 = t := rfl
    have h3 : ([0] : List Int).getD 0 0 = 0 := rfl
    have h4 : compute_score0 compute_norm (win_len X opts) (ptr X.data (win_off X opts t))
        (template_ptr templates k) = score_at compute_norm X [t] [k] templates opts 0 := rfl
    have h6 : ¬ (0 < score_at compute_norm X [t] [k] templates opts 0) := not_lt.mpr hsc
    simp only [h1, h2, h3, if_true, gt_iff_lt, hk, h4, h6, if_false, List.nil_append,
      List.set_cons_zero]
  unfold kernel_pass
  have hL : ([t] : List Int).length = 1 := rfl
  simp only [hL, hs, find_events_nil]
  rfl

/-- A pass on a single event that is already decided scores nothing and changes nothing
but the pass counter. -/
theorem kernel_pass_single_decided (compute_norm : Nat → (Nat → α) → α) (templates : Mda α)
    (opts : fit_stage_opts) (t k : Int) (s : KState α) (d : Int) (hd : d ≠ 0)
    (hs : s.all_to_use = [d]) :
    score_loop compute_norm [t] [k] templates opts s 1 =
      { all_to_use := [d], scores_to_try := [], times_to_try := [], labels_to_try := [],
        inds_to_try := [], scored := [] } ∧
    kernel_pass compute_norm [t] [k] templates opts s =
      { X := s.X, all_to_use := [d], something_changed := false,
        num_passes := s.num_passes + 1, score_log := s.score_log, sub_log := s.sub_log } := by
  have hsl : score_loop compute_norm [t] [k] templates opts s 1 =
      { all_to_use := [d], scores_to_try := [], times_to_try := [], labels_to_try := [],
        inds_to_try := [], scored := [] } := by
    show score_body compute_norm s.X [t] [k] templates opts 0 ⟨s.all_to_use, [], [], [], [], []⟩
      = _
    unfold score_body
    have h3 : ([d] : List Int).getD 0 0 = d := rfl
    simp only [hs, h3, hd, if_false]
  refine ⟨hsl, ?_⟩
  unfold kernel_pass
  have hL : ([t] : List Int).length = 1 := rfl
  simp only [hL, hsl, find_events_nil]
  simp [forLoop]

/-- The kernel on a single eligible event whose first score is positive: two passes, the
event is accepted in the first one and returned. -/
theorem kernel_single_accept (compute_norm : Nat → (Nat → α) → α) (X templates : Mda α)
    (opts : fit_stage_opts) (t k : Int) (hk : 0 < k)
    (hsc : 0 < score_at compute_norm X [t] [k] templates opts 0) :
    fit_stage_kernel compute_norm X [t] [k] templates opts =
      some ({ X := { N1 := X.N1, N2 := X.N2, N3 := X.N3,
                     data := subtract_template0 (win_len X opts) X.data (win_off X opts t)
                       (template_ptr templates k) },
              all_to_use := [1], something_changed := false, num_passes := 2,
              score_log := [(1, 0, score_at compute_norm X [t] [k] templates opts 0)],
              sub_log := [0] }, [0]) := by
  have h1 := kernel_pass_single_accept compute_norm X templates opts t k hk hsc
  unfold fit_stage_kernel kernel_run
  have hL : ([t] : List Int).length + 1 = 2 := rfl
  have hi : (kernel_init X [t]).something_changed = true := rfl
  rw [hL]
  simp only [kernel_loop, hi, if_true, h1]
  rw [(kernel_pass_single_decided compute_norm templates opts t k _ 1 (by decide) rfl).2]
  rfl

/-- The kernel on a single eligible event whose first score is not positive: one pass,
the event is rejected and nothing is returned or subtracted. -/
theorem kernel_single_reject (compute_norm : Nat → (Nat → α) → α) (X templates : Mda α)
    (opts : fit_stage_opts) (t k : Int) (hk : 0 < k)
    (hsc : score_at compute_norm X [t] [k] templates opts 0 ≤ 0) :
    fit_stage_kernel compute_norm X [t] [k] templates opts =
      some ({ X := X, all_to_use := [-1], something_changed := false, num_passes := 1,
              score_log := [(1, 0, score_at compute_norm X [t] [k] templates opts 0)],
              sub_log := [] }, []) := by
  have h1 := kernel_pass_single_reject compute_norm X templates opts t k hk hsc
  unfold fit_stage_kernel kernel_run
  have hL : ([t] : List Int).length + 1 = 2 := rfl
  have hi : (kernel_init X [t]).something_changed = true := rfl
  rw [hL]
  simp only [kernel_loop, hi, if_true, h1]
  rfl

/-- Score of a window that equals the template: the squared norm of the template. -/
theorem score_exact (compute_norm : Nat → (Nat → α) → α) (hnorm : IsEuclideanNorm compute_norm)
    (N : Nat) (X t : Nat → α) (hmatch : ∀ j, j < N → X j = t j) :
    compute_score0 compute_norm N X t = ∑ j in Finset.range N, t j ^ 2 := by
  rw [compute_score0_eq compute_norm hnorm]
  have h1 : ∑ i in Finset.range N, X i ^ 2 = ∑ j in Finset.range N, t j ^ 2 :=
    Finset.sum_congr rfl (fun i hi => by rw [hmatch i (Finset.mem_range.mp hi)])
  have h2 : ∑ i in Finset.range N, (X i - t i) ^ 2 = 0 :=
    Finset.sum_eq_zero (fun i hi => by rw [hmatch i (Finset.mem_range.mp hi)]; ring)
  rw [h1, h2, sub_zero]

theorem sum_sq_pos (N : Nat) (t : Nat → α) (hnz : ∃ j, j < N ∧ t j ≠ 0) :
    0 < ∑ j in Finset.range N, t j ^ 2 := by
  obtain ⟨j, hj, hne⟩ := hnz
  have hpos : 0 < t j ^ 2 := by positivity
  exact lt_of_lt_of_le hpos
    (Finset.single_le_sum (fun i _ => sq_nonneg (t i)) (Finset.mem_range.mpr hj))

/-- Positions of a window that lies inside the buffer are positions of the data. -/
theorem window_positions (X : Mda α) (opts : fit_stage_opts) (t : Int)
    (hin : window_inside X opts t) (j : Nat) (hj : j < win_len X opts) :
    0 ≤ win_off X opts t + (j : Int) ∧ win_off X opts t + (j : Int) < (X.data.length : Int) ∧
      win_off X opts t + (j : Int) < win_off X opts t + (win_len X opts : Int) := by
  obtain ⟨h1, h2, h3⟩ := hin
  unfold win_len at hj ⊢
  unfold win_off Mda.dataPtr
  have hN : (0 : Int) ≤ (X.N1 : Int) := Int.natCast_nonneg _
  have hT : (0 : Int) < (X.N1 : Int) * opts.clip_size := by omega
  have hto : ((((X.N1 : Int) * opts.clip_size).toNat : Nat) : Int) = (X.N1 : Int) * opts.clip_size :=
    Int.toNat_of_nonneg (le_of_lt hT)
  have hoff : (0 : Int) ≤ (X.N1 : Int) * (t - Tmid opts) := mul_nonneg hN h1
  have hlen : (X.N1 : Int) * (t - Tmid opts) + (X.N1 : Int) * opts.clip_size
      ≤ (X.N1 : Int) * (X.N2 : Int) := by
    rw [← mul_add]
    exact mul_le_mul_of_nonneg_left h2 hN
  have hj2 : (j : Int) < (X.N1 : Int) * opts.clip_size := by
    rw [← hto]; exact_mod_cast hj
  rw [h3]
  push_cast
  refine ⟨by omega, by omega, by omega⟩

end Single
/-! ## Scenarios -/

section Scenarios
variable {α : Type} [LinearOrderedField α]

/-- C10 (exact-match scenario): for a Euclidean `compute_norm` and a single event of label
`k > 0` whose window lies inside the buffer and equals template `k`, which is not all
zero, the kernel returns `[0]`; the only score evaluation is the one of pass 1 and gives
the squared norm of the template; the event is accepted in pass 1 and its template is the
only one subtracted; the window is zero afterwards; pass 2 finds no candidate, and the
loop halts after it. -/
theorem exact_match_scenario (compute_norm : Nat → (Nat → α) → α)
    (hnorm : IsEuclideanNorm compute_norm) (X templates : Mda α) (opts : fit_stage_opts)
    (t k : Int) (hin : window_inside X opts t) (htm : template_inside templates X opts k)
    (hmatch : ∀ j, j < win_len X opts →
      ptr X.data (win_off X opts t) j = template_ptr templates k j)
    (hnz : ∃ j, j < win_len X opts ∧ template_ptr templates k j ≠ 0) :
    ∃ r, fit_stage_kernel compute_norm X [t] [k] templates opts = some (r, [0]) ∧
      r.score_log =
        [(1, 0, ∑ j in Finset.range (win_len X opts), template_ptr templates k j ^ 2)] ∧
      (kernel_pass compute_norm [t] [k] templates opts (kernel_init X [t])).all_to_use = [1] ∧
      r.sub_log = [0] ∧
      (∀ j, j < win_len X opts → ptr r.X.data (win_off X opts t) j = 0) ∧
      (score_loop compute_norm [t] [k] templates opts
        (kernel_pass compute_norm [t] [k] templates opts (kernel_init X [t])) 1).inds_to_try
          = [] ∧
      r.num_passes = 2 ∧ r.something_changed = false := by
  have hk : 0 < k := htm.2.2.1
  have hscore : score_at compute_norm X [t] [k] templates opts 0 =
      ∑ j in Finset.range (win_len X opts), template_ptr templates k j ^ 2 :=
    score_exact compute_norm hnorm _ _ _ hmatch
  have hpos : 0 < score_at compute_norm X [t] [k] templates opts 0 := by
    rw [hscore]; exact sum_sq_pos _ _ hnz
  have hrun := kernel_single_accept compute_norm X templates opts t k hk hpos
  have hp1 := kernel_pass_single_accept compute_norm X templates opts t k hk hpos
  refine ⟨_, hrun, ?_, ?_, rfl, ?_, ?_, rfl, rfl⟩
  · simp only [hscore]
  · rw [hp1]
  · intro j hj
    obtain ⟨h1, h2, h3⟩ := window_positions X opts t hin j hj
    have ha : (win_off X opts t + (j : Int)).toNat < X.data.length := by omega
    have hcast : ((win_off X opts t + (j : Int)).toNat : Int) = win_off X opts t + (j : Int) :=
      Int.toNat_of_nonneg h1
    have hw : win_off X opts t ≤ ((win_off X opts t + (j : Int)).toNat : Int) ∧
        ((win_off X opts t + (j : Int)).toNat : Int)
          < win_off X opts t + (win_len X opts : Int) := by
      rw [hcast]; omega
    have hidx : (((win_off X opts t + (j : Int)).toNat : Int) - win_off X opts t).toNat = j := by
      rw [hcast]; omega
    have hm := hmatch j hj
    unfold ptr at hm ⊢
    rw [← hcast, rd_natCast] at hm ⊢
    simp only
    rw [(subtract_template0_spec _ X.data _ _).2 _ ha, if_pos hw, hidx, hm, sub_self]
  · rw [hp1]
    exact congrArg TryState.inds_to_try
      (kernel_pass_single_decided compute_norm templates opts t k _ 1 (by decide) rfl).1

/-- Witness for C10: two channels, clip size 4, a series of length 20 with a unit pulse at
time 10 that equals template 1, one event at time 10 with label 1, over the reals. -/
theorem exact_match_scenario_witness :
    ∃ r, fit_stage_kernel (fun N v => Real.sqrt (∑ i in Finset.range N, v i ^ 2))
        (pulse_series ℝ) [10] [1] (pulse_template ℝ) ⟨4⟩ = some (r, [0]) ∧
      r.score_log = [(1, 0, ∑ j in Finset.range (win_len (pulse_series ℝ) ⟨4⟩),
        template_ptr (pulse_template ℝ) 1 j ^ 2)] ∧
      (kernel_pass (fun N v => Real.sqrt (∑ i in Finset.range N, v i ^ 2)) [10] [1]
        (pulse_template ℝ) ⟨4⟩ (kernel_init (pulse_series ℝ) [10])).all_to_use = [1] ∧
      r.sub_log = [0] ∧
      (∀ j, j < win_len (pulse_series ℝ) ⟨4⟩ →
        ptr r.X.data (win_off (pulse_series ℝ) ⟨4⟩ 10) j = 0) ∧
      (score_loop (fun N v => Real.sqrt (∑ i in Finset.range N, v i ^ 2)) [10] [1]
        (pulse_template ℝ) ⟨4⟩
        (kernel_pass (fun N v => Real.sqrt (∑ i in Finset.range N, v i ^ 2)) [10] [1]
          (pulse_template ℝ) ⟨4⟩ (kernel_init (pulse_series ℝ) [10])) 1).inds_to_try = [] ∧
      r.num_passes = 2 ∧ r.something_changed = false :=
  exact_match_scenario _ real_sqrt_norm (pulse_series ℝ) (pulse_template ℝ) ⟨4⟩ 10 1
    ⟨by decide, by decide, by decide⟩
    ⟨rfl, by decide, by decide, by decide, by decide⟩
    (by
      intro j hj
      have hj8 : j < 8 := hj
      interval_cases j <;> rfl)
    ⟨2, by decide, by
      have h : template_ptr (pulse_template ℝ) 1 2 = 1 := rfl
      rw [h]
      exact one_ne_zero⟩

/-- Counterexample to C6 as stated: one event at time 1 with label 1 on a series that
holds the template at that time.  There is one eligible candidate, and the loop runs two
passes (the event is accepted in the first, the second adds nothing). -/
theorem kernel_passes_exceed_eligible :
    ∃ r inds, fit_stage_kernel (fun N v => Real.sqrt (∑ i in Finset.range N, v i ^ 2))
        (short_series ℝ) [1] [1] (unit_template ℝ) ⟨1⟩ = some (r, inds) ∧
      ¬ (r.num_passes ≤ num_eligible [1] [1]) := by
  have hscore : score_at (fun N v => Real.sqrt (∑ i in Finset.range N, v i ^ 2))
      (short_series ℝ) [1] [1] (unit_template ℝ) ⟨1⟩ 0 =
      ∑ j in Finset.range (win_len (short_series ℝ) ⟨1⟩), template_ptr (unit_template ℝ) 1 j ^ 2 :=
    score_exact _ real_sqrt_norm _ _ _ (by
      intro j hj
      have hj1 : j < 1 := hj
      interval_cases j
      rfl)
  have hpos : 0 < score_at (fun N v => Real.sqrt (∑ i in Finset.range N, v i ^ 2))
      (short_series ℝ) [1] [1] (unit_template ℝ) ⟨1⟩ 0 := by
    rw [hscore]
    refine sum_sq_pos _ _ ⟨0, by decide, ?_⟩
    have h : template_ptr (unit_template ℝ) 1 0 = 1 := rfl
    rw [h]
    exact one_ne_zero
  refine ⟨_, _, kernel_single_accept _ (short_series ℝ) (unit_template ℝ) ⟨1⟩ 1 1
    (by decide) hpos, ?_⟩
  show ¬ (2 ≤ num_eligible [1] [1])
  decide

/-- Score of a one-sample window: `x^2 - (x - t)^2`. -/
theorem score_one_sample (compute_norm : Nat → (Nat → α) → α)
    (hnorm : IsEuclideanNorm compute_norm) (X t : Nat → α) :
    compute_score0 compute_norm 1 X t = X 0 ^ 2 - (X 0 - t 0) ^ 2 := by
  rw [compute_score0_eq compute_norm hnorm, Finset.sum_range_one, Finset.sum_range_one]

/-- The chunk of the seam example that starts at 0 (overlap 2): the kernel reads the
sample of series position 8 at chunk column 10, accepts the event, and the merge loop
appends it. -/
theorem seam_chunk_zero :
    chunk_contribution (fun N v => Real.sqrt (∑ i in Finset.range N, v i ^ 2))
        (seam_series ℝ) [10] [1] (unit_template ℝ) ⟨1⟩ 10 2 0 = some [0] := by
  have hpos : 0 < score_at (fun N v => Real.sqrt (∑ i in Finset.range N, v i ^ 2))
      (readChunk (seam_series ℝ) (-2) 1 14) [10] [1] (unit_template ℝ) ⟨1⟩ 0 := by
    show 0 < compute_score0 _ 1 _ _
    rw [score_one_sample _ real_sqrt_norm]
    have h1 : ptr (readChunk (seam_series ℝ) (-2) 1 14).data
        (win_off (readChunk (seam_series ℝ) (-2) 1 14) ⟨1⟩ (([10] : List Int).getD 0 0)) 0
        = 1 := rfl
    have h2 : template_ptr (unit_template ℝ) (([1] : List Int).getD 0 0) 0 = 1 := rfl
    rw [h1, h2]
    norm_num
  show (fit_stage_kernel (fun N v => Real.sqrt (∑ i in Finset.range N, v i ^ 2))
      (readChunk (seam_series ℝ) (-2) 1 14) [10] [1] (unit_template ℝ) ⟨1⟩).map
      (fun r => forLoop r.2.length (merge_body ⟨[0], [10], [1]⟩ r.2 10 2) []) = some [0]
  rw [kernel_single_accept _ _ _ _ 10 1 (by decide) hpos]
  rfl

/-- The chunk of the seam example that starts at 10: the kernel reads series position 18
at chunk column 10, rejects the event, and nothing is appended. -/
theorem seam_chunk_ten :
    chunk_contribution (fun N v => Real.sqrt (∑ i in Finset.range N, v i ^ 2))
        (seam_series ℝ) [10] [1] (unit_template ℝ) ⟨1⟩ 10 2 10 = some [] := by
  have hneg : score_at (fun N v => Real.sqrt (∑ i in Finset.range N, v i ^ 2))
      (readChunk (seam_series ℝ) 8 1 14) [10] [1] (unit_template ℝ) ⟨1⟩ 0 ≤ 0 := by
    show compute_score0 _ 1 _ _ ≤ 0
    rw [score_one_sample _ real_sqrt_norm]
    have h1 : ptr (readChunk (seam_series ℝ) 8 1 14).data
        (win_off (readChunk (seam_series ℝ) 8 1 14) ⟨1⟩ (([10] : List Int).getD 0 0)) 0
        = 0 := rfl
    have h2 : template_ptr (unit_template ℝ) (([1] : List Int).getD 0 0) 0 = 1 := rfl
    rw [h1, h2]
    norm_num
  show (fit_stage_kernel (fun N v => Real.sqrt (∑ i in Finset.range N, v i ^ 2))
      (readChunk (seam_series ℝ) 8 1 14) [10] [1] (unit_template ℝ) ⟨1⟩).map
      (fun r => forLoop r.2.length (merge_body ⟨[0], [10], [1]⟩ r.2 10 2) []) = some []
  rw [kernel_single_reject _ _ _ _ 10 1 (by decide) hneg]
  rfl

/-- The kernel on the whole seam series: position 10 holds 0, the event is rejected. -/
theorem seam_whole_run :
    (fit_stage_kernel (fun N v => Real.sqrt (∑ i in Finset.range N, v i ^ 2))
        (seam_series ℝ) [10] [1] (unit_template ℝ) ⟨1⟩).map Prod.snd = some [] := by
  have hneg : score_at (fun N v => Real.sqrt (∑ i in Finset.range N, v i ^ 2))
      (seam_series ℝ) [10] [1] (unit_template ℝ) ⟨1⟩ 0 ≤ 0 := by
    show compute_score0 _ 1 _ _ ≤ 0
    rw [score_one_sample _ real_sqrt_norm]
    have h1 : ptr (seam_series ℝ).data
        (win_off (seam_series ℝ) ⟨1⟩ (([10] : List Int).getD 0 0)) 0 = 0 := rfl
    have h2 : template_ptr (unit_template ℝ) (([1] : List Int).getD 0 0) 0 = 1 := rfl
    rw [h1, h2]
    norm_num
  rw [kernel_single_reject _ _ _ _ 10 1 (by decide) hneg]
  rfl

/-- C3, the code at a failing input (chunk size 10, overlap 2, series of length 20 with a
unit sample at time 8, clip size 1, template `[1]`, one event at time 10 with label 1):
the chunked driver collects the event, the kernel run on the whole series rejects it. -/
theorem merge_differs_from_whole_run :
    fit_stage_new_inds (fun N v => Real.sqrt (∑ i in Finset.range N, v i ^ 2)) 10 2
        (seam_series ℝ) [10] [1] (unit_template ℝ) ⟨1⟩ = some [0] ∧
    (fit_stage_kernel (fun N v => Real.sqrt (∑ i in Finset.range N, v i ^ 2))
        (seam_series ℝ) [10] [1] (unit_template ℝ) ⟨1⟩).map Prod.snd = some [] := by
  refine ⟨?_, seam_whole_run⟩
  show ((some [] : Option (List Nat)).bind (fun inds =>
      (chunk_contribution (fun N v => Real.sqrt (∑ i in Finset.range N, v i ^ 2))
        (seam_series ℝ) [10] [1] (unit_template ℝ) ⟨1⟩ 10 2 0).map
        (fun more => inds ++ more))).bind (fun inds =>
      (chunk_contribution (fun N v => Real.sqrt (∑ i in Finset.range N, v i ^ 2))
        (seam_series ℝ) [10] [1] (unit_template ℝ) ⟨1⟩ 10 2 10).map
        (fun more => inds ++ more)) = some [0]
  rw [seam_chunk_zero, seam_chunk_ten]
  rfl

/-- C4, the code at a failing input (chunk size 10, overlap 2, the seam series, clip size
1, template `[1]`, one event at time 10 with label 1): the loop iteration for the chunk
that starts at 0 appends event 0, whose time 10 is not in `[0, 0 + 10)`. -/
theorem chunk_zero_takes_foreign_event :
    chunk_contribution (fun N v => Real.sqrt (∑ i in Finset.range N, v i ^ 2))
        (seam_series ℝ) [10] [1] (unit_template ℝ) ⟨1⟩ 10 2 0 = some [0] ∧
    ¬ ((0 : Int) ≤ ([10] : List Int).getD 0 0 ∧ ([10] : List Int).getD 0 0 < 0 + 10) :=
  ⟨seam_chunk_zero, by decide⟩

end Scenarios
/-! ## The clearing statement of the rescan -/

section NoClear
variable {α : Type} [LinearOrderedField α]

theorem set_zero_of_getD_zero (l : List Int) (j : Nat) (h : l.getD j 0 = 0) : l.set j 0 = l := by
  apply List.ext_getElem
  · simp
  · intro n h1 h2
    rw [List.getElem_set]
    by_cases hj : j = n
    · subst hj
      rw [if_pos rfl]
      have h3 : j < l.length := by simpa using h1
      rw [List.getD_eq_getElem _ _ h3] at h
      exact h.symm
    · rw [if_neg hj]

/-- On a state in which the positions from `a` on are unmarked, the rescan loop with and
without the clearing statement compute the same state; the marks are untouched and the
best pointer stays or moves into the scanned range. -/
theorem rescan_loop_noclear (times : List Int) (scores : List α) (opts : fit_stage_opts)
    (i a k : Nat) (s : SelState α) (hz : ∀ m, a ≤ m → s.to_use.getD m 0 = 0) :
    forLoop k (fun j => rescan_body times scores opts i (a + j)) s =
      forLoop k (fun j => rescan_body_noclear times scores opts i (a + j)) s ∧
    (forLoop k (fun j => rescan_body_noclear times scores opts i (a + j)) s).to_use
      = s.to_use ∧
    ((forLoop k (fun j => rescan_body_noclear times scores opts i (a + j)) s).last_best_ind
        = s.last_best_ind ∨
      (a ≤ (forLoop k (fun j => rescan_body_noclear times scores opts i (a + j)) s).last_best_ind
        ∧ (forLoop k (fun j => rescan_body_noclear times scores opts i (a + j)) s).last_best_ind
          < a + k)) := by
  induction k with
  | zero => exact ⟨rfl, rfl, Or.inl rfl⟩
  | succ k ih =>
    obtain ⟨ih1, ih2, ih3⟩ := ih
    rw [forLoop_succ, forLoop_succ, ih1]
    generalize forLoop k (fun j => rescan_body_noclear times scores opts i (a + j)) s = r
      at ih2 ih3 ⊢
    have hclear : r.to_use.set (a + k) 0 = r.to_use :=
      set_zero_of_getD_zero _ _ (by rw [ih2]; exact hz (a + k) (Nat.le_add_right a k))
    have hmono : r.last_best_ind = s.last_best_ind ∨
        (a ≤ r.last_best_ind ∧ r.last_best_ind < a + (k + 1)) :=
      ih3.imp id (fun h => ⟨h.1, by omega⟩)
    unfold rescan_body rescan_body_noclear
    by_cases h1 : times.getD (a + k) 0 ≥ times.getD i 0 - opts.clip_size
    · simp only [h1, if_true]
      by_cases h2 : scores.getD (a + k) 0 < scores.getD i 0
      · simp only [h2, if_true, hclear]
        by_cases h3 : scores.getD (a + k) 0 > r.last_best_score
        · simp only [h3, if_true]
          exact ⟨trivial, ih2, Or.inr ⟨Nat.le_add_right a k, by omega⟩⟩
        · simp only [h3, if_false]
          exact ⟨trivial, ih2, hmono⟩
      · simp only [h2, if_false]
        by_cases h3 : scores.getD (a + k) 0 > r.last_best_score
        · simp only [h3, if_true]
          exact ⟨trivial, ih2, Or.inr ⟨Nat.le_add_right a k, by omega⟩⟩
        · simp only [h3, if_false]
          exact ⟨trivial, ih2, hmono⟩
    · simp only [h1, if_false]
      exact ⟨trivial, ih2, hmono⟩

/-- One step of the outer loop from a state whose marks all sit at or below the best
pointer, the pointer being at most `i`: both variants agree, the property is kept, and the
best pointer does not decrease. -/
theorem select_body_noclear_eq (times : List Int) (scores : List α) (opts : fit_stage_opts)
    (i : Nat) (s : SelState α) (hz : ∀ m, s.last_best_ind < m → s.to_use.getD m 0 = 0)
    (hle : s.last_best_ind ≤ i) :
    select_body times scores opts i s = select_body_noclear times scores opts i s ∧
    (∀ m, (select_body_noclear times scores opts i s).last_best_ind < m →
      (select_body_noclear times scores opts i s).to_use.getD m 0 = 0) ∧
    (select_body_noclear times scores opts i s).last_best_ind ≤ i + 1 ∧
    s.last_best_ind ≤ (select_body_noclear times scores opts i s).last_best_ind := by
  unfold select_body select_body_noclear
  by_cases hsc : scores.getD i 0 > 0
  swap
  · simp only [hsc, if_false]
    exact ⟨trivial, hz, Nat.le_succ_of_le hle, le_refl _⟩
  simp only [hsc, if_true]
  obtain ⟨hr1, hr2, hr3⟩ := rescan_loop_noclear times scores opts i (s.last_best_ind + 1)
    (i - (s.last_best_ind + 1)) { s with last_best_score := 0 } (fun m hm => hz m hm)
  have hs1 : (if times.getD s.last_best_ind 0 < times.getD i 0 - opts.clip_size then
        forLoop (i - (s.last_best_ind + 1))
          (fun j => rescan_body times scores opts i (s.last_best_ind + 1 + j))
          { s with last_best_score := 0 }
      else s) =
      (if times.getD s.last_best_ind 0 < times.getD i 0 - opts.clip_size then
        forLoop (i - (s.last_best_ind + 1))
          (fun j => rescan_body_noclear times scores opts i (s.last_best_ind + 1 + j))
          { s with last_best_score := 0 }
      else s) := by
    by_cases hr : times.getD s.last_best_ind 0 < times.getD i 0 - opts.clip_size
    · simp only [hr, if_true, hr1]
    · simp only [hr, if_false]
  rw [hs1]
  have hprop : (if times.getD s.last_best_ind 0 < times.getD i 0 - opts.clip_size then
        forLoop (i - (s.last_best_ind + 1))
          (fun j => rescan_body_noclear times scores opts i (s.last_best_ind + 1 + j))
          { s with last_best_score := 0 }
      else s).to_use = s.to_use ∧
      s.last_best_ind ≤ (if times.getD s.last_best_ind 0 < times.getD i 0 - opts.clip_size then
        forLoop (i - (s.last_best_ind + 1))
          (fun j => rescan_body_noclear times scores opts i (s.last_best_ind + 1 + j))
          { s with last_best_score := 0 }
      else s).last_best_ind ∧
      (if times.getD s.last_best_ind 0 < times.getD i 0 - opts.clip_size then
        forLoop (i - (s.last_best_ind + 1))
          (fun j => rescan_body_noclear times scores opts i (s.last_best_ind + 1 + j))
          { s with last_best_score := 0 }
      else s).last_best_ind ≤ i := by
    by_cases hr : times.getD s.last_best_ind 0 < times.getD i 0 - opts.clip_size
    · simp only [hr, if_true]
      refine ⟨hr2, ?_, ?_⟩
      · rcases hr3 with h | h
        · rw [h]
        · exact Nat.le_of_succ_le h.1
      · rcases hr3 with h | h
        · rw [h]; exact hle
        · have := h.2
          omega
    · simp only [hr, if_false]
      exact ⟨trivial, le_refl _, hle⟩
  generalize (if times.getD s.last_best_ind 0 < times.getD i 0 - opts.clip_size then
        forLoop (i - (s.last_best_ind + 1))
          (fun j => rescan_body_noclear times scores opts i (s.last_best_ind + 1 + j))
          { s with last_best_score := 0 }
      else s) = s1 at hprop ⊢
  obtain ⟨htu, hmono, hle1⟩ := hprop
  have hz1 : ∀ m, s1.last_best_ind < m → s1.to_use.getD m 0 = 0 := by
    intro m hm
    rw [htu]
    exact hz m (lt_of_le_of_lt hmono hm)
  by_cases hgt : scores.getD i 0 > s1.last_best_score
  · simp only [hgt, if_true]
    refine ⟨trivial, ?_, Nat.le_succ i, le_trans hmono hle1⟩
    intro m hm
    have hmi : ¬ (i = m ∧ i < (if s1.last_best_score > 0 then
        ({ s1 with to_use := s1.to_use.set s1.last_best_ind 0 } : SelState α)
        else s1).to_use.length) := fun h => by omega
    rw [getD_set_int, if_neg hmi]
    by_cases hp : s1.last_best_score > 0
    · simp only [hp, if_true]
      have hne : ¬ (s1.last_best_ind = m ∧ s1.last_best_ind < s1.to_use.length) :=
        fun h => by omega
      rw [getD_set_int, if_neg hne]
      exact hz1 m (lt_of_le_of_lt hle1 hm)
    · simp only [hp, if_false]
      exact hz1 m (lt_of_le_of_lt hle1 hm)
  · simp only [hgt, if_false]
    exact ⟨trivial, hz1, Nat.le_succ_of_le hle1, hmono⟩

/-- The two selector loops agree after every number of positions; in the common state
every mark sits at or below the best pointer, which is at most the number of positions
handled. -/
theorem select_loop_noclear_eq (times : List Int) (scores : List α) (opts : fit_stage_opts)
    (n : Nat) :
    select_loop times scores opts n = select_loop_noclear times scores opts n ∧
    (∀ m, (select_loop_noclear times scores opts n).last_best_ind < m →
      (select_loop_noclear times scores opts n).to_use.getD m 0 = 0) ∧
    (select_loop_noclear times scores opts n).last_best_ind ≤ n := by
  induction n with
  | zero =>
    refine ⟨rfl, fun m _ => ?_, le_refl _⟩
    show (List.replicate times.length (0 : Int)).getD m 0 = 0
    simp only [List.getD_eq_getElem?_getD, List.getElem?_replicate]
    split_ifs <;> rfl
  | succ n ih =>
    obtain ⟨ih1, ih2, ih3⟩ := ih
    have e1 : select_loop times scores opts (n + 1) =
        select_body times scores opts n (select_loop times scores opts n) := rfl
    have e2 : select_loop_noclear times scores opts (n + 1) =
        select_body_noclear times scores opts n (select_loop_noclear times scores opts n) := rfl
    obtain ⟨h1, h2, h3, _⟩ := select_body_noclear_eq times scores opts n
      (select_loop_noclear times scores opts n) ih2 ih3
    rw [e1, e2, ih1]
    exact ⟨h1, h2, h3⟩

/-- C19 (the clearing step of the rescan is a no-op): for all times, scores and clip
size, sorted or not, `find_events_to_use0` returns the list of the variant without the
statement `if (scores[ii] < scores[i]) to_use[ii] = 0;`; after any number of outer
iterations every marked position is at or below `last_best_ind`, and `last_best_ind`
never decreases from one iteration to the next. -/
theorem rescan_clear_is_noop (times : List Int) (scores : List α) (opts : fit_stage_opts) :
    find_events_to_use0 times scores opts = find_events_to_use0_noclear times scores opts ∧
    (∀ n m, (select_loop times scores opts n).to_use.getD m 0 = 1 →
      m ≤ (select_loop times scores opts n).last_best_ind) ∧
    (∀ n, (select_loop times scores opts n).last_best_ind
      ≤ (select_loop times scores opts (n + 1)).last_best_ind) := by
  refine ⟨?_, ?_, ?_⟩
  · unfold find_events_to_use0 find_events_to_use0_noclear
    rw [(select_loop_noclear_eq times scores opts times.length).1]
  · intro n m hm
    obtain ⟨h1, h2, _⟩ := select_loop_noclear_eq times scores opts n
    rw [h1] at hm ⊢
    by_contra hlt
    rw [h2 m (not_le.mp hlt)] at hm
    exact absurd hm (by decide)
  · intro n
    obtain ⟨h1, h2, h3⟩ := select_loop_noclear_eq times scores opts n
    have e1 : select_loop times scores opts (n + 1) =
        select_body times scores opts n (select_loop times scores opts n) := rfl
    obtain ⟨g1, _, _, g4⟩ := select_body_noclear_eq times scores opts n
      (select_loop_noclear times scores opts n) h2 h3
    rw [e1, h1, g1]
    exact g4

end NoClear
/-! ## Exit of the pass loop -/

section KernelExit
variable {α : Type} [LinearOrderedField α]

theorem select_loop_length (times : List Int) (scores : List α) (opts : fit_stage_opts)
    (n : Nat) : (select_loop times scores opts n).to_use.length = times.length := by
  induction n with
  | zero => simp [select_loop, forLoop]
  | succ n ih =>
    have e : select_loop times scores opts (n + 1) =
      select_body times scores opts n (select_loop times scores opts n) := rfl
    rw [e, select_body_length, ih]

/-- A step of the selector loop at a position inside the mark list keeps at least one
mark once there is one. -/
theorem select_body_noclear_marks (times : List Int) (scores : List α)
    (opts : fit_stage_opts) (i : Nat) (s : SelState α) (hi : i < s.to_use.length)
    (hz : ∀ m, s.last_best_ind < m → s.to_use.getD m 0 = 0)
    (h : ∃ m, s.to_use.getD m 0 = 1) :
    ∃ m, (select_body_noclear times scores opts i s).to_use.getD m 0 = 1 := by
  unfold select_body_noclear
  by_cases hsc : scores.getD i 0 > 0
  swap
  · simp only [hsc, if_false]
    exact h
  simp only [hsc, if_true]
  have htu : (if times.getD s.last_best_ind 0 < times.getD i 0 - opts.clip_size then
        forLoop (i - (s.last_best_ind + 1))
          (fun j => rescan_body_noclear times scores opts i (s.last_best_ind + 1 + j))
          { s with last_best_score := 0 }
      else s).to_use = s.to_use := by
    by_cases hr : times.getD s.last_best_ind 0 < times.getD i 0 - opts.clip_size
    · simp only [hr, if_true]
      exact (rescan_loop_noclear times scores opts i (s.last_best_ind + 1)
        (i - (s.last_best_ind + 1)) { s with last_best_score := 0 } (fun m hm => hz m hm)).2.1
    · simp only [hr, if_false]
  generalize (if times.getD s.last_best_ind 0 < times.getD i 0 - opts.clip_size then
        forLoop (i - (s.last_best_ind + 1))
          (fun j => rescan_body_noclear times scores opts i (s.last_best_ind + 1 + j))
          { s with last_best_score := 0 }
      else s) = s1 at htu ⊢
  by_cases hgt : scores.getD i 0 > s1.last_best_score
  · simp only [hgt, if_true]
    refine ⟨i, ?_⟩
    rw [getD_set_int]
    have hlen : i < (if s1.last_best_score > 0 then
        ({ s1 with to_use := s1.to_use.set s1.last_best_ind 0 } : SelState α)
        else s1).to_use.length := by
      by_cases hp : s1.last_best_score > 0
      · simp only [hp, if_true, List.length_set, htu]; exact hi
      · simp only [hp, if_false, htu]; exact hi
    rw [if_pos ⟨rfl, hlen⟩]
  · simp only [hgt, if_false, htu]
    exact h

/-- The selector marks at least one position of a non-empty candidate list whose first
score is positive (whatever the order of the times). -/
theorem selector_marks_one (times : List Int) (scores : List α) (opts : fit_stage_opts)
    (hne : times ≠ []) (hpos : 0 < scores.getD 0 0) :
    ∃ m, m < times.length ∧ (find_events_to_use0 times scores opts).getD m 0 = 1 := by
  have hL : 0 < times.length := List.length_pos.mpr hne
  have key : ∀ n, n < times.length →
      ∃ m, (select_loop_noclear times scores opts (n + 1)).to_use.getD m 0 = 1 := by
    intro n
    induction n with
    | zero =>
      intro _
      refine ⟨0, ?_⟩
      show (select_body_noclear times scores opts 0
        ⟨List.replicate times.length 0, 0, 0⟩).to_use.getD 0 0 = 1
      unfold select_body_noclear
      simp only [gt_iff_lt, hpos, if_true]
      have hlen : 0 < (List.replicate times.length (0 : Int)).length := by simpa using hL
      by_cases hr : times.getD 0 0 < times.getD 0 0 - opts.clip_size
      · simp only [hr, if_true, Nat.zero_sub, forLoop, hpos, lt_irrefl, if_false]
        rw [getD_set_int, if_pos ⟨rfl, hlen⟩]
      · simp only [hr, if_false, hpos, if_true, lt_irrefl]
        rw [getD_set_int, if_pos ⟨rfl, hlen⟩]
    | succ n ih =>
      intro hn
      obtain ⟨h1, h2, _⟩ := select_loop_noclear_eq times scores opts (n + 1)
      have e2 : select_loop_noclear times scores opts (n + 1 + 1) =
          select_body_noclear times scores opts (n + 1)
            (select_loop_noclear times scores opts (n + 1)) := rfl
      rw [e2]
      refine select_body_noclear_marks times scores opts (n + 1) _ ?_ h2
        (ih (Nat.lt_of_succ_lt hn))
      rw [← h1, select_loop_length]
      exact hn
  obtain ⟨m, hm⟩ := key (times.length - 1) (by omega)
  have e : times.length - 1 + 1 = times.length := by omega
  rw [e] at hm
  have hfe : find_events_to_use0 times scores opts =
      (select_loop_noclear times scores opts times.length).to_use := by
    unfold find_events_to_use0
    rw [(select_loop_noclear_eq times scores opts times.length).1]
  refine ⟨m, ?_, by rw [hfe]; exact hm⟩
  by_contra hge
  have hlen : (select_loop_noclear times scores opts times.length).to_use.length
      = times.length := by
    rw [← (select_loop_noclear_eq times scores opts times.length).1, select_loop_length]
  rw [List.getD_eq_default _ _ (by rw [hlen]; exact not_lt.mp hge)] at hm
  exact absurd hm (by decide)

/-- One pass with the scoring result and the accepted events made explicit. -/
theorem kernel_pass_explicit (compute_norm : Nat → (Nat → α) → α) (times : List Int)
    (labels : List Int) (templates : Mda α) (opts : fit_stage_opts) (s : KState α)
    (hlen : s.all_to_use.length = times.length) :
    ScoreInv compute_norm times labels templates opts s times.length
      (score_loop compute_norm times labels templates opts s times.length) ∧
    ApplyInv times labels templates opts s
      (score_loop compute_norm times labels templates opts s times.length)
      (winners (score_loop compute_norm times labels templates opts s times.length)
        (find_events_to_use0
          (score_loop compute_norm times labels templates opts s times.length).times_to_try
          (score_loop compute_norm times labels templates opts s times.length).scores_to_try
          opts)
        (find_events_to_use0
          (score_loop compute_norm times labels templates opts s times.length).times_to_try
          (score_loop compute_norm times labels templates opts s times.length).scores_to_try
          opts).length)
      (kernel_pass compute_norm times labels templates opts s) := by
  have sinv := score_loop_inv compute_norm times labels templates opts s times.length
    (le_of_eq hlen.symm)
  refine ⟨sinv, ?_⟩
  have hm : (find_events_to_use0
      (score_loop compute_norm times labels templates opts s times.length).times_to_try
      (score_loop compute_norm times labels templates opts s times.length).scores_to_try
      opts).length
      ≤ (score_loop compute_norm times labels templates opts s times.length).inds_to_try.length := by
    rw [find_events_to_use0_length, sinv.times_eq, List.length_map]
  exact apply_loop_inv compute_norm times labels templates opts s times.length _ sinv
    (le_of_eq hlen.symm) _ _ hm

/-- A pass that accepts nothing had no candidate: no undecided eligible event had a
positive score, and after the pass every eligible event is decided. -/
theorem kernel_pass_quiet (compute_norm : Nat → (Nat → α) → α) (times : List Int)
    (labels : List Int) (templates : Mda α) (opts : fit_stage_opts) (s : KState α)
    (hlen : s.all_to_use.length = times.length)
    (hq : (kernel_pass compute_norm times labels templates opts s).something_changed = false) :
    (score_loop compute_norm times labels templates opts s times.length).inds_to_try = [] ∧
    ∀ i, i < times.length → 0 < labels.getD i 0 →
      (kernel_pass compute_norm times labels templates opts s).all_to_use.getD i 0 ≠ 0 := by
  obtain ⟨sinv, ainv⟩ := kernel_pass_explicit compute_norm times labels templates opts s hlen
  generalize score_loop compute_norm times labels templates opts s times.length = tr
    at sinv ainv ⊢
  have hw : winners tr (find_events_to_use0 tr.times_to_try tr.scores_to_try opts)
      (find_events_to_use0 tr.times_to_try tr.scores_to_try opts).length = [] := by
    by_contra hne
    have := ainv.changed.mpr hne
    rw [hq] at this
    exact absurd this (by decide)
  have hnil : tr.inds_to_try = [] := by
    by_contra hne
    have hpos0 : 0 < tr.inds_to_try.length := List.length_pos.mpr hne
    have htne : tr.times_to_try ≠ [] := by
      rw [sinv.times_eq]
      intro h
      exact hne (List.map_eq_nil_iff.mp h)
    have hsc : 0 < tr.scores_to_try.getD 0 0 := by
      have hl : 0 < tr.scores_to_try.length := by
        rw [sinv.scores_eq, List.length_map]; exact hpos0
      rw [List.getD_eq_getElem _ _ hl]
      simp only [sinv.scores_eq, List.getElem_map]
      exact (sinv.tryp _ (List.getElem_mem _)).2.2.2.2
    obtain ⟨m, hm, hmark⟩ := selector_marks_one tr.times_to_try tr.scores_to_try opts htne hsc
    have hmem : tr.inds_to_try.getD m 0 ∈
        winners tr (find_events_to_use0 tr.times_to_try tr.scores_to_try opts)
          (find_events_to_use0 tr.times_to_try tr.scores_to_try opts).length := by
      unfold winners
      refine List.mem_map.mpr ⟨m, List.mem_filter.mpr ⟨List.mem_range.mpr ?_, ?_⟩, rfl⟩
      · rw [find_events_to_use0_length]; exact hm
      · exact decide_eq_true hmark
    rw [hw] at hmem
    exact absurd hmem (List.not_mem_nil _)
  refine ⟨hnil, ?_⟩
  intro i hi hl
  rw [ainv.marks i, hw, if_neg (List.not_mem_nil i)]
  by_cases h0 : s.all_to_use.getD i 0 = 0
  · rcases sinv.cover i hi h0 hl with h | h
    · rw [hnil] at h
      exact absurd h (List.not_mem_nil i)
    · rw [h]; decide
  · rcases sinv.keep i with h | h
    · rw [h]; exact h0
    · rw [h.2.1]; decide

/-- The exit state of the kernel: it is reached for every pass bound above the number of
eligible events, satisfies the kernel invariant, and leaves no eligible event undecided. -/
theorem fit_stage_kernel_exit (compute_norm : Nat → (Nat → α) → α) (X : Mda α)
    (times : List Int) (labels : List Int) (templates : Mda α) (opts : fit_stage_opts) :
    ∃ r, fit_stage_kernel compute_norm X times labels templates opts
        = some (r, collect_inds times.length r.all_to_use) ∧
      (∀ fuel, num_eligible times labels < fuel →
        kernel_run compute_norm fuel X times labels templates opts = some r) ∧
      KInv X times labels templates opts r ∧ r.something_changed = false ∧
      1 ≤ r.num_passes ∧ r.num_passes ≤ num_eligible times labels + 1 ∧
      ∀ i, i < times.length → 0 < labels.getD i 0 → r.all_to_use.getD i 0 ≠ 0 := by
  have hstep : ∀ s, (KInv X times labels templates opts s ∧
        (s.something_changed = false →
          ∀ i, i < times.length → 0 < labels.getD i 0 → s.all_to_use.getD i 0 ≠ 0)) →
      (KInv X times labels templates opts (kernel_pass compute_norm times labels templates opts s) ∧
        ((kernel_pass compute_norm times labels templates opts s).something_changed = false →
          ∀ i, i < times.length → 0 < labels.getD i 0 →
            (kernel_pass compute_norm times labels templates opts s).all_to_use.getD i 0 ≠ 0)) ∧
      (kernel_pass compute_norm times labels templates opts s).num_passes = s.num_passes + 1 ∧
      ((kernel_pass compute_norm times labels templates opts s).something_changed = true →
        num_undecided times labels (kernel_pass compute_norm times labels templates opts s)
          < num_undecided times labels s) := fun s inv =>
    ⟨⟨kernel_pass_inv compute_norm X times labels templates opts s inv.1,
        fun hq => (kernel_pass_quiet compute_norm times labels templates opts s inv.1.len hq).2⟩,
      kernel_pass_num_passes compute_norm times labels templates opts s inv.1.len,
      kernel_pass_undecided compute_norm times labels templates opts s inv.1.len⟩
  obtain ⟨r, h1, h2, h3, h4, h5⟩ := kernel_loop_total
    (kernel_pass compute_norm times labels templates opts)
    (fun s => KInv X times labels templates opts s ∧
        (s.something_changed = false →
          ∀ i, i < times.length → 0 < labels.getD i 0 → s.all_to_use.getD i 0 ≠ 0))
    (num_undecided times labels) hstep
    (num_eligible times labels) (kernel_init X times)
    (le_of_eq (num_undecided_init X times labels))
    ⟨kernel_init_inv X times labels templates opts,
      fun h => Bool.noConfusion h⟩ rfl
  rw [num_undecided_init] at h5
  have h0 : (kernel_init X times).num_passes = 0 := rfl
  refine ⟨r, ?_, h1, h2.1, h3, by omega, by omega, h2.2 h3⟩
  unfold fit_stage_kernel
  have hrun : kernel_run compute_norm (times.length + 1) X times labels templates opts
      = some r := h1 (times.length + 1) (Nat.lt_succ_of_le (num_eligible_le times labels))
  rw [hrun]
  rfl

theorem num_eligible_zero (times : List Int) (labels : List Int)
    (h : ∀ i, i < times.length → labels.getD i 0 ≤ 0) : num_eligible times labels = 0 := by
  unfold num_eligible
  rw [Finset.card_eq_zero, Finset.filter_eq_empty_iff]
  intro i hi
  exact not_lt.mpr (h i (Finset.mem_range.mp hi))

/-- C14 (zero-candidate chunk): when no event has label > 0 (in particular for the empty
event list) the kernel returns the empty list after exactly one pass, without any
evaluation of `compute_score0`, without any subtraction and with the buffer unchanged. -/
theorem zero_candidate_chunk (compute_norm : Nat → (Nat → α) → α) (X : Mda α)
    (times : List Int) (labels : List Int) (templates : Mda α) (opts : fit_stage_opts)
    (h : ∀ i, i < times.length → labels.getD i 0 ≤ 0) :
    ∃ r, fit_stage_kernel compute_norm X times labels templates opts = some (r, []) ∧
      r.num_passes = 1 ∧ r.score_log = [] ∧ r.sub_log = [] ∧ r.X = X := by
  obtain ⟨r, hr, _, inv, _, hp1, hp2, _⟩ :=
    fit_stage_kernel_exit compute_norm X times labels templates opts
  rw [num_eligible_zero times labels h] at hp2
  have hlog : r.score_log = [] := by
    apply List.eq_nil_iff_forall_not_mem.mpr
    rintro ⟨p, e, sc⟩ hmem
    obtain ⟨_, _, h3, h4, _⟩ := inv.logp p e sc hmem
    exact absurd h4 (not_lt.mpr (h e h3))
  have hsub : r.sub_log = [] := by
    apply List.eq_nil_iff_forall_not_mem.mpr
    intro e hmem
    have h1 := (inv.acc e).mpr hmem
    obtain ⟨h3, h4⟩ := inv.elig e (by rw [h1]; decide)
    exact absurd h4 (not_lt.mpr (h e h3))
  have hinds : collect_inds times.length r.all_to_use = [] := by
    apply List.eq_nil_iff_forall_not_mem.mpr
    intro e hmem
    have h1 := ((collect_inds_spec times.length r.all_to_use).1 e).mp hmem
    obtain ⟨h3, h4⟩ := inv.elig e (by rw [h1.2]; decide)
    exact absurd h4 (not_lt.mpr (h e h3))
  have hX : r.X = X := by
    have hd := inv.data
    rw [hsub] at hd
    have hd2 : r.X.data = X.data := hd
    cases hrx : r.X with
    | mk a b c d =>
      cases hx : X with
      | mk a2 b2 c2 d2 =>
        have e1 := inv.n1
        have e2 := inv.n2
        have e3 := inv.n3
        rw [hrx, hx] at e1 e2 e3 hd2
        simp only at e1 e2 e3 hd2
        rw [e1, e2, e3, hd2]
  rw [hinds] at hr
  exact ⟨r, hr, by omega, hlog, hsub, hX⟩

/-- Witness for C14: two events with label 0 on the short series, over the reals. -/
theorem zero_candidate_chunk_witness :
    ∃ r, fit_stage_kernel (fun N v => Real.sqrt (∑ i in Finset.range N, v i ^ 2))
        (short_series ℝ) [0, 2] [0, 0] (unit_template ℝ) ⟨1⟩ = some (r, []) ∧
      r.num_passes = 1 ∧ r.score_log = [] ∧ r.sub_log = [] ∧ r.X = short_series ℝ :=
  zero_candidate_chunk _ (short_series ℝ) [0, 2] [0, 0] (unit_template ℝ) ⟨1⟩
    (by
      intro i hi
      have hi2 : i < 2 := hi
      interval_cases i <;> decide)

/-- The scoring loop evaluates the score of every undecided eligible event below `n`
against the buffer of the pass, logs it, and makes the event a candidate when the score is
positive and rejects it otherwise. -/
theorem score_loop_scores_all (compute_norm : Nat → (Nat → α) → α) (times : List Int)
    (labels : List Int) (templates : Mda α) (opts : fit_stage_opts) (s : KState α)
    (n : Nat) (hn : n ≤ s.all_to_use.length) (i : Nat) (hi : i < n)
    (h0 : s.all_to_use.getD i 0 = 0) (hl : 0 < labels.getD i 0) :
    (i, score_at compute_norm s.X times labels templates opts i) ∈
        (score_loop compute_norm times labels templates opts s n).scored ∧
    (0 < score_at compute_norm s.X times labels templates opts i →
      i ∈ (score_loop compute_norm times labels templates opts s n).inds_to_try) ∧
    (score_at compute_norm s.X times labels templates opts i ≤ 0 →
      (score_loop compute_norm times labels templates opts s n).all_to_use.getD i 0 = -1) := by
  induction n with
  | zero => exact absurd hi (Nat.not_lt_zero i)
  | succ n ih =>
    have sinv := score_loop_inv compute_norm times labels templates opts s n
      (Nat.le_of_succ_le hn)
    have e : score_loop compute_norm times labels templates opts s (n + 1) =
        score_body compute_norm s.X times labels templates opts n
          (score_loop compute_norm times labels templates opts s n) := rfl
    rw [e]
    generalize score_loop compute_norm times labels templates opts s n = tr at ih sinv ⊢
    have hnt : n < tr.all_to_use.length := by rw [sinv.len]; exact hn
    have hsc : ∀ e, compute_score0 compute_norm (win_len s.X opts)
        (ptr s.X.data (win_off s.X opts (times.getD e 0)))
        (template_ptr templates (labels.getD e 0)) =
        score_at compute_norm s.X times labels templates opts e := fun _ => rfl
    rcases Nat.lt_succ_iff_lt_or_eq.mp hi with hlt | heq
    · -- an earlier event: its entries survive the step at `n`
      obtain ⟨ih1, ih2, ih3⟩ := ih (Nat.le_of_succ_le hn) hlt
      have hne : ¬ (n = i ∧ n < tr.all_to_use.length) := fun h => by omega
      unfold score_body
      by_cases c0 : tr.all_to_use.getD n 0 = 0
      swap
      · rw [if_neg c0]; exact ⟨ih1, ih2, ih3⟩
      rw [if_pos c0]
      by_cases cl : labels.getD n 0 > 0
      swap
      · simp only [cl, if_false]; exact ⟨ih1, ih2, ih3⟩
      simp only [cl, if_true, hsc]
      by_cases cp : score_at compute_norm s.X times labels templates opts n > 0
      · simp only [cp, if_true]
        exact ⟨List.mem_append.mpr (Or.inl ih1),
          fun h => List.mem_append.mpr (Or.inl (ih2 h)), ih3⟩
      · simp only [cp, if_false]
        refine ⟨List.mem_append.mpr (Or.inl ih1), ih2, fun h => ?_⟩
        rw [getD_set_int, if_neg hne]
        exact ih3 h
    · -- the event handled by this step
      subst heq
      have hcur : tr.all_to_use.getD i 0 = 0 := by
        rcases sinv.keep i with h | h
        · rw [h]; exact h0
        · exact absurd h.2.2.1 (lt_irrefl i)
      unfold score_body
      rw [if_pos hcur]
      simp only [gt_iff_lt, hl, if_true, hsc]
      by_cases cp : 0 < score_at compute_norm s.X times labels templates opts i
      · simp only [cp, if_true]
        exact ⟨List.mem_append.mpr (Or.inr (List.mem_singleton.mpr rfl)),
          fun _ => List.mem_append.mpr (Or.inr (List.mem_singleton.mpr rfl)),
          fun h => absurd cp (not_lt.mpr h)⟩
      · simp only [cp, if_false]
        refine ⟨List.mem_append.mpr (Or.inr (List.mem_singleton.mpr rfl)),
          fun h => False.elim h, fun _ => ?_⟩
        rw [getD_set_int, if_pos ⟨rfl, hnt⟩]

/-- A pass reports no change exactly when no undecided eligible event has a positive
score against the buffer at the start of the pass; every such event is then scored and
rejected in this pass. -/
theorem kernel_pass_halts_iff (compute_norm : Nat → (Nat → α) → α) (times : List Int)
    (labels : List Int) (templates : Mda α) (opts : fit_stage_opts) (s : KState α)
    (hlen : s.all_to_use.length = times.length) :
    ((kernel_pass compute_norm times labels templates opts s).something_changed = false ↔
      ∀ i, i < times.length → s.all_to_use.getD i 0 = 0 → 0 < labels.getD i 0 →
        score_at compute_norm s.X times labels templates opts i ≤ 0) ∧
    ((kernel_pass compute_norm times labels templates opts s).something_changed = false →
      ∀ i, i < times.length → s.all_to_use.getD i 0 = 0 → 0 < labels.getD i 0 →
        (i, score_at compute_norm s.X times labels templates opts i) ∈
          (score_loop compute_norm times labels templates opts s times.length).scored ∧
        (kernel_pass compute_norm times labels templates opts s).all_to_use.getD i 0 = -1) := by
  have hall := fun i hi h0 hl => score_loop_scores_all compute_norm times labels templates
    opts s times.length (le_of_eq hlen.symm) i hi h0 hl
  have hfwd : (kernel_pass compute_norm times labels templates opts s).something_changed
      = false →
      ∀ i, i < times.length → s.all_to_use.getD i 0 = 0 → 0 < labels.getD i 0 →
        score_at compute_norm s.X times labels templates opts i ≤ 0 := by
    intro hq i hi h0 hl
    by_contra hc
    have hmem := (hall i hi h0 hl).2.1 (not_le.mp hc)
    rw [(kernel_pass_quiet compute_norm times labels templates opts s hlen hq).1] at hmem
    exact absurd hmem (List.not_mem_nil i)
  refine ⟨⟨hfwd, ?_⟩, ?_⟩
  · intro hno
    obtain ⟨tr, w, sinv, ainv, _, hwm⟩ :=
      kernel_pass_spec compute_norm times labels templates opts s hlen
    by_contra hc
    have hch : (kernel_pass compute_norm times labels templates opts s).something_changed
        = true := by simpa using hc
    obtain ⟨e, he⟩ := List.exists_mem_of_ne_nil w (ainv.changed.mp hch)
    obtain ⟨h1, h2, _, h4, h5⟩ := sinv.tryp e (hwm e he)
    exact absurd h5 (not_lt.mpr (hno e h1 h2 h4))
  · intro hq i hi h0 hl
    obtain ⟨sinv, ainv⟩ := kernel_pass_explicit compute_norm times labels templates opts s hlen
    have hle := hfwd hq i hi h0 hl
    refine ⟨(hall i hi h0 hl).1, ?_⟩
    have hnil := (kernel_pass_quiet compute_norm times labels templates opts s hlen hq).1
    rw [ainv.marks i]
    have hnw : ¬ i ∈ winners
        (score_loop compute_norm times labels templates opts s times.length)
        (find_events_to_use0
          (score_loop compute_norm times labels templates opts s times.length).times_to_try
          (score_loop compute_norm times labels templates opts s times.length).scores_to_try
          opts)
        (find_events_to_use0
          (score_loop compute_norm times labels templates opts s times.length).times_to_try
          (score_loop compute_norm times labels templates opts s times.length).scores_to_try
          opts).length := by
      intro hin
      obtain ⟨p, hp, _, _⟩ := winners_mem _ _ _ _ hin
      rw [find_events_to_use0_length, sinv.times_eq, List.length_map, hnil] at hp
      exact absurd hp (Nat.not_lt_zero p)
    rw [if_neg hnw]
    exact (hall i hi h0 hl).2.2 hle

/-- The exit state of the kernel is the result of a pass that reported no change, started
in a state with one decision per event that satisfies the kernel invariant. -/
theorem fit_stage_kernel_last_pass (compute_norm : Nat → (Nat → α) → α) (X : Mda α)
    (times : List Int) (labels : List Int) (templates : Mda α) (opts : fit_stage_opts) :
    ∃ r, fit_stage_kernel compute_norm X times labels templates opts
        = some (r, collect_inds times.length r.all_to_use) ∧
      KInv X times labels templates opts r ∧ r.something_changed = false ∧
      ∃ s, KInv X times labels templates opts s ∧
        r = kernel_pass compute_norm times labels templates opts s := by
  have hstep : ∀ s, (KInv X times labels templates opts s ∧
        (s.something_changed = false →
          ∃ s0, KInv X times labels templates opts s0 ∧
            s = kernel_pass compute_norm times labels templates opts s0)) →
      (KInv X times labels templates opts (kernel_pass compute_norm times labels templates opts s) ∧
        ((kernel_pass compute_norm times labels templates opts s).something_changed = false →
          ∃ s0, KInv X times labels templates opts s0 ∧
            kernel_pass compute_norm times labels templates opts s =
              kernel_pass compute_norm times labels templates opts s0)) ∧
      (kernel_pass compute_norm times labels templates opts s).num_passes = s.num_passes + 1 ∧
      ((kernel_pass compute_norm times labels templates opts s).something_changed = true →
        num_undecided times labels (kernel_pass compute_norm times labels templates opts s)
          < num_undecided times labels s) := fun s inv =>
    ⟨⟨kernel_pass_inv compute_norm X times labels templates opts s inv.1,
        fun _ => ⟨s, inv.1, rfl⟩⟩,
      kernel_pass_num_passes compute_norm times labels templates opts s inv.1.len,
      kernel_pass_undecided compute_norm times labels templates opts s inv.1.len⟩
  obtain ⟨r, h1, h2, h3, _, _⟩ := kernel_loop_total
    (kernel_pass compute_norm times labels templates opts)
    (fun s => KInv X times labels templates opts s ∧
        (s.something_changed = false →
          ∃ s0, KInv X times labels templates opts s0 ∧
            s = kernel_pass compute_norm times labels templates opts s0))
    (num_undecided times labels) hstep
    (num_eligible times labels) (kernel_init X times)
    (le_of_eq (num_undecided_init X times labels))
    ⟨kernel_init_inv X times labels templates opts, fun h => Bool.noConfusion h⟩ rfl
  refine ⟨r, ?_, h2.1, h3, h2.2 h3⟩
  unfold fit_stage_kernel
  have hrun : kernel_run compute_norm (times.length + 1) X times labels templates opts
      = some r := h1 (times.length + 1) (Nat.lt_succ_of_le (num_eligible_le times labels))
  rw [hrun]
  rfl

/-- C16 (the kernel leaves nothing undecided): the kernel returns from an exit state in
which every event with label > 0 has decision 1 or -1, and this exit state is the result
of a pass, from a state `s` with one decision per event, in which no undecided event with
label > 0 had a positive score; for every such state a pass reports no change (the loop
halts after it) exactly when no undecided event with label > 0 has a positive score
against the buffer of `s`, and in that case each of these events is scored in the pass
and rejected, and the candidate list of the pass is empty; and `find_events_to_use0` marks
at least one position of every non-empty list of candidates with positive scores. -/
theorem nothing_left_undecided (compute_norm : Nat → (Nat → α) → α) (X : Mda α)
    (times : List Int) (labels : List Int) (templates : Mda α) (opts : fit_stage_opts) :
    (∃ r inds, fit_stage_kernel compute_norm X times labels templates opts = some (r, inds) ∧
      r.something_changed = false ∧
      (∀ i, i < times.length → 0 < labels.getD i 0 →
        r.all_to_use.getD i 0 = 1 ∨ r.all_to_use.getD i 0 = -1) ∧
      ∃ s : KState α, s.all_to_use.length = times.length ∧
        r = kernel_pass compute_norm times labels templates opts s ∧
        ∀ i, i < times.length → s.all_to_use.getD i 0 = 0 → 0 < labels.getD i 0 →
          score_at compute_norm s.X times labels templates opts i ≤ 0) ∧
    (∀ s : KState α, s.all_to_use.length = times.length →
      ((kernel_pass compute_norm times labels templates opts s).something_changed = false ↔
        ∀ i, i < times.length → s.all_to_use.getD i 0 = 0 → 0 < labels.getD i 0 →
          score_at compute_norm s.X times labels templates opts i ≤ 0) ∧
      ((kernel_pass compute_norm times labels templates opts s).something_changed = false →
        (score_loop compute_norm times labels templates opts s times.length).inds_to_try = [] ∧
        ∀ i, i < times.length → s.all_to_use.getD i 0 = 0 → 0 < labels.getD i 0 →
          (i, score_at compute_norm s.X times labels templates opts i) ∈
            (score_loop compute_norm times labels templates opts s times.length).scored ∧
          (kernel_pass compute_norm times labels templates opts s).all_to_use.getD i 0 = -1)) ∧
    (∀ (ts : List Int) (sc : List α) (o : fit_stage_opts), ts ≠ [] → sc.length = ts.length →
      (∀ j, j < ts.length → 0 < sc.getD j 0) →
      ∃ m, m < ts.length ∧ (find_events_to_use0 ts sc o).getD m 0 = 1) := by
  refine ⟨?_, ?_, ?_⟩
  · obtain ⟨r, hr, inv, hq, s, sinv, hrs⟩ :=
      fit_stage_kernel_last_pass compute_norm X times labels templates opts
    have hq2 : (kernel_pass compute_norm times labels templates opts s).something_changed
        = false := by rw [← hrs]; exact hq
    have hdec := (kernel_pass_quiet compute_norm times labels templates opts s sinv.len hq2).2
    refine ⟨r, _, hr, hq, fun i hi hl => ?_, s, sinv.len, hrs,
      (kernel_pass_halts_iff compute_norm times labels templates opts s sinv.len).1.mp hq2⟩
    rcases inv.vals i with h | h
    · rw [hrs] at h
      exact absurd h (hdec i hi hl)
    · exact h
  · intro s hlen
    obtain ⟨h1, h2⟩ := kernel_pass_halts_iff compute_norm times labels templates opts s hlen
    exact ⟨h1, fun hq =>
      ⟨(kernel_pass_quiet compute_norm times labels templates opts s hlen hq).1, h2 hq⟩⟩
  · intro ts sc o hne _ hpos
    exact selector_marks_one ts sc o hne (hpos 0 (List.length_pos.mpr hne))

/-- Witness for C16: the first pass on the seam series with one undecided event at time
10 (series value 0, score -1): the pass reports no change exactly when no undecided event
with label > 0 has a positive score. -/
theorem nothing_left_undecided_witness :
    ((kernel_pass (fun N v => Real.sqrt (∑ i in Finset.range N, v i ^ 2)) [10] [1]
        (unit_template ℝ) ⟨1⟩ (kernel_init (seam_series ℝ) [10])).something_changed = false ↔
      ∀ i, i < ([10] : List Int).length →
        (kernel_init (seam_series ℝ) [10]).all_to_use.getD i 0 = 0 →
        0 < ([1] : List Int).getD i 0 →
        score_at (fun N v => Real.sqrt (∑ i in Finset.range N, v i ^ 2))
          (kernel_init (seam_series ℝ) [10]).X [10] [1] (unit_template ℝ) ⟨1⟩ i ≤ 0) :=
  ((nothing_left_undecided (fun N v => Real.sqrt (∑ i in Finset.range N, v i ^ 2))
    (seam_series ℝ) [10] [1] (unit_template ℝ) ⟨1⟩).2.1
    (kernel_init (seam_series ℝ) [10]) rfl).1

/-- C17 (kernel pass bound): the pass loop terminates, in the same exit state for every
pass bound above the number `E` of events with label > 0, after at least one and at most
`E + 1` passes; and every pass that is not the last one (it reports a change) turns the
decision of at least one event from undecided to accepted. -/
theorem kernel_pass_bound (compute_norm : Nat → (Nat → α) → α) (X : Mda α)
    (times : List Int) (labels : List Int) (templates : Mda α) (opts : fit_stage_opts) :
    (∃ r, (∀ fuel, num_eligible times labels < fuel →
        kernel_run compute_norm fuel X times labels templates opts = some r) ∧
      r.something_changed = false ∧ 1 ≤ r.num_passes ∧
      r.num_passes ≤ num_eligible times labels + 1) ∧
    (∀ s : KState α, s.all_to_use.length = times.length →
      (kernel_pass compute_norm times labels templates opts s).something_changed = true →
      ∃ e, e < times.length ∧ 0 < labels.getD e 0 ∧ s.all_to_use.getD e 0 = 0 ∧
        (kernel_pass compute_norm times labels templates opts s).all_to_use.getD e 0 = 1) := by
  constructor
  · obtain ⟨r, _, hrun, _, hq, hp1, hp2, _⟩ :=
      fit_stage_kernel_exit compute_norm X times labels templates opts
    exact ⟨r, hrun, hq, hp1, hp2⟩
  · intro s hlen hch
    obtain ⟨tr, w, sinv, ainv, _, hwm⟩ :=
      kernel_pass_spec compute_norm times labels templates opts s hlen
    obtain ⟨e, he⟩ := List.exists_mem_of_ne_nil w (ainv.changed.mp hch)
    obtain ⟨h1, h2, _, h4, _⟩ := sinv.tryp e (hwm e he)
    refine ⟨e, h1, h4, h2, ?_⟩
    rw [ainv.marks e, if_pos he]

end KernelExit
/-! ## The chunked driver -/

section Driver
variable {α : Type} [LinearOrderedField α]

theorem chunk_contribution_eq (compute_norm : Nat → (Nat → α) → α) (X : Mda α)
    (times : List Int) (labels : List Int) (templates : Mda α) (opts : fit_stage_opts)
    (chunk_size overlap_size timepoint : Nat) :
    chunk_contribution compute_norm X times labels templates opts chunk_size overlap_size
        timepoint =
      (fit_stage_kernel compute_norm (chunk_buffer X chunk_size overlap_size timepoint)
        (chunk_events times labels chunk_size overlap_size timepoint).local_times
        (chunk_events times labels chunk_size overlap_size timepoint).local_labels
        templates opts).map
        (fun r => forLoop r.2.length
          (merge_body (chunk_events times labels chunk_size overlap_size timepoint) r.2
            chunk_size overlap_size) []) := rfl

/-- Reading the whole two-dimensional series as one chunk returns the series. -/
theorem readChunk_whole (X : Mda α) (hN3 : X.N3 = 1) (hlen : X.data.length = X.N1 * X.N2) :
    readChunk X 0 X.N1 X.N2 = X := by
  have hdata : (List.range (X.N1 * X.N2)).map (fun p =>
      let c : Int := 0 + ((p / X.N1 : Nat) : Int)
      if 0 ≤ c ∧ c < X.N2 ∧ p % X.N1 < X.N1 then
        X.data.getD (p % X.N1 + X.N1 * c.toNat) 0
      else 0) = X.data := by
    apply List.ext_getElem
    · simp [hlen]
    · intro n h1 h2
      have hn : n < X.N1 * X.N2 := by simpa using h1
      have hpos : 0 < X.N1 := by
        rcases Nat.eq_zero_or_pos X.N1 with h | h
        · rw [h, Nat.zero_mul] at hn; exact absurd hn (Nat.not_lt_zero n)
        · exact h
      have hdiv : n / X.N1 < X.N2 := by
        rw [Nat.div_lt_iff_lt_mul hpos, Nat.mul_comm]; exact hn
      have hmod : n % X.N1 < X.N1 := Nat.mod_lt n hpos
      have hq0 : (0 : Int) ≤ ((n / X.N1 : Nat) : Int) := Int.natCast_nonneg _
      have hq1 : ((n / X.N1 : Nat) : Int) < (X.N2 : Int) := by exact_mod_cast hdiv
      have hc : (0 : Int) ≤ 0 + ((n / X.N1 : Nat) : Int) ∧
          0 + ((n / X.N1 : Nat) : Int) < (X.N2 : Int) ∧ n % X.N1 < X.N1 := by
        rw [zero_add]
        exact ⟨hq0, hq1, hmod⟩
      have hto : (0 + ((n / X.N1 : Nat) : Int)).toNat = n / X.N1 := by
        rw [zero_add]
        exact Int.toNat_natCast _
      rw [List.getElem_map, List.getElem_range]
      simp only
      rw [if_pos hc, hto, Nat.mod_add_div, List.getD_eq_getElem _ _ h2]
  unfold readChunk
  cases hx : X with
  | mk a b c d =>
    rw [hx] at hdata hN3
    simp only at hdata hN3 ⊢
    rw [hdata, hN3]

/-- When every event time lies in `[lo, hi)` the selection loop of a chunk with that
range hands over all events, with their own positions as indices. -/
theorem local_loop_all (times : List Int) (labels : List Int)
    (timepoint chunk_size overlap_size : Int) (hal : labels.length = times.length)
    (hin : ∀ i, i < times.length → timepoint - overlap_size ≤ times.getD i 0 ∧
      times.getD i 0 < timepoint - overlap_size + chunk_size + 2 * overlap_size)
    (n : Nat) (hn : n ≤ times.length) :
    forLoop n (local_body times labels timepoint chunk_size overlap_size)
        { local_indices := [], local_times := [], local_labels := [] } =
      { local_indices := List.range n, local_times := times.take n,
        local_labels := labels.take n } := by
  induction n with
  | zero => simp [forLoop]
  | succ n ih =>
    rw [forLoop_succ, ih (Nat.le_of_succ_le hn)]
    unfold local_body
    have hnl : n < times.length := hn
    have hnl2 : n < labels.length := by rw [hal]; exact hnl
    rw [if_pos (hin n hnl)]
    simp only [List.range_succ, List.take_succ, List.getD_eq_getElem _ _ hnl,
      List.getD_eq_getElem _ _ hnl2, List.getElem?_eq_getElem hnl,
      List.getElem?_eq_getElem hnl2, Option.toList]

/-- When every returned index is a position of the event list and every event time lies
in `[overlap, overlap + chunk_size)`, the merge loop copies the kernel answer. -/
theorem merge_loop_all (times : List Int) (labels : List Int) (inds : List Nat)
    (chunk_size overlap_size : Int)
    (hinds : ∀ e, e ∈ inds → e < times.length)
    (hin : ∀ i, i < times.length → overlap_size ≤ times.getD i 0 ∧
      times.getD i 0 < overlap_size + chunk_size)
    (n : Nat) (hn : n ≤ inds.length) :
    forLoop n (merge_body ⟨List.range times.length, times, labels⟩ inds chunk_size
      overlap_size) [] = inds.take n := by
  induction n with
  | zero => simp [forLoop]
  | succ n ih =>
    rw [forLoop_succ, ih (Nat.le_of_succ_le hn)]
    have hnl : n < inds.length := hn
    have he : inds.getD n 0 < times.length := by
      rw [List.getD_eq_getElem _ _ hnl]
      exact hinds _ (List.getElem_mem _)
    have hr : (List.range times.length).getD (inds.getD n 0) 0 = inds.getD n 0 := by
      rw [List.getD_eq_getElem _ _ (by simpa using he), List.getElem_range]
    unfold merge_body
    simp only [hr]
    have ht := hin _ he
    rw [if_pos ⟨ht.1, ht.2⟩, List.take_succ, List.getElem?_eq_getElem hnl,
      List.getD_eq_getElem _ _ hnl]
    rfl

/-- C13 (single-chunk degeneration): for a two-dimensional series with `0 < N` below the
processing chunk size, the driver uses chunk size `N` and overlap 0, its loop runs once,
for the chunk that starts at 0; and when every event time lies in `[0, N)` the list
`inds_to_use` is the list that one kernel run on the whole series with all events
returns. -/
theorem single_chunk_degeneration (compute_norm : Nat → (Nat → α) → α)
    (PROCESSING_CHUNK_SIZE PROCESSING_CHUNK_OVERLAP_SIZE : Nat) (X : Mda α)
    (times : List Int) (labels : List Int) (templates : Mda α) (opts : fit_stage_opts)
    (hN : 0 < X.N2) (hlt : X.N2 < PROCESSING_CHUNK_SIZE)
    (hN3 : X.N3 = 1) (hlen : X.data.length = X.N1 * X.N2)
    (hal : labels.length = times.length) :
    chunk_params PROCESSING_CHUNK_SIZE PROCESSING_CHUNK_OVERLAP_SIZE X.N2 = (X.N2, 0) ∧
    num_chunks X.N2 X.N2 = 1 ∧
    fit_stage_new_inds compute_norm PROCESSING_CHUNK_SIZE PROCESSING_CHUNK_OVERLAP_SIZE X
        times labels templates opts =
      chunk_contribution compute_norm X times labels templates opts X.N2 0 0 ∧
    ((∀ i, i < times.length → 0 ≤ times.getD i 0 ∧ times.getD i 0 < (X.N2 : Int)) →
      fit_stage_new_inds compute_norm PROCESSING_CHUNK_SIZE PROCESSING_CHUNK_OVERLAP_SIZE X
          times labels templates opts =
        (fit_stage_kernel compute_norm X times labels templates opts).map Prod.snd) := by
  have hp : chunk_params PROCESSING_CHUNK_SIZE PROCESSING_CHUNK_OVERLAP_SIZE X.N2
      = (X.N2, 0) := by
    unfold chunk_params
    rw [if_pos hlt]
  have hn : num_chunks X.N2 X.N2 = 1 := by
    unfold num_chunks
    exact Nat.div_eq_of_lt_le (by omega) (by omega)
  have hdrv : fit_stage_new_inds compute_norm PROCESSING_CHUNK_SIZE
      PROCESSING_CHUNK_OVERLAP_SIZE X times labels templates opts =
      chunk_contribution compute_norm X times labels templates opts X.N2 0 0 := by
    unfold fit_stage_new_inds
    simp only [hp, hn, forLoop, Nat.zero_mul, Option.bind, List.nil_append]
    cases chunk_contribution compute_norm X times labels templates opts X.N2 0 0 <;> rfl
  refine ⟨hp, hn, hdrv, fun hin => ?_⟩
  rw [hdrv, chunk_contribution_eq]
  have hbuf : chunk_buffer X X.N2 0 0 = X := by
    unfold chunk_buffer
    have e1 : ((0 : Nat) : Int) - ((0 : Nat) : Int) = 0 := by simp
    have e2 : X.N2 + 2 * 0 = X.N2 := by omega
    rw [e1, e2]
    exact readChunk_whole X hN3 hlen
  have hev : chunk_events times labels X.N2 0 0 =
      ⟨List.range times.length, times, labels⟩ := by
    unfold chunk_events
    rw [local_loop_all times labels _ _ _ hal (fun i hi => by
      have := hin i hi
      push_cast
      omega) times.length (le_refl _), List.take_length, ← hal, List.take_length]
  rw [hbuf, hev]
  obtain ⟨r, hr, inv, _, _, _⟩ :=
    fit_stage_kernel_total compute_norm X times labels templates opts
  rw [hr]
  simp only [Option.map]
  have hmerge := merge_loop_all times labels (collect_inds times.length r.all_to_use)
    (X.N2 : Int) ((0 : Nat) : Int)
    (fun e he => (((collect_inds_spec times.length r.all_to_use).1 e).mp he).1)
    (fun i hi => by
      have := hin i hi
      push_cast
      omega)
    (collect_inds times.length r.all_to_use).length (le_refl _)
  rw [List.take_length] at hmerge
  rw [hmerge]

/-- Witness for C13: the short series (N = 3) with chunk size constant 10 and overlap
constant 2, one event at time 1. -/
theorem single_chunk_degeneration_witness :
    chunk_params 10 2 (short_series ℝ).N2 = ((short_series ℝ).N2, 0) ∧
    num_chunks (short_series ℝ).N2 (short_series ℝ).N2 = 1 ∧
    fit_stage_new_inds (fun N v => Real.sqrt (∑ i in Finset.range N, v i ^ 2)) 10 2
        (short_series ℝ) [1] [1] (unit_template ℝ) ⟨1⟩ =
      chunk_contribution (fun N v => Real.sqrt (∑ i in Finset.range N, v i ^ 2))
        (short_series ℝ) [1] [1] (unit_template ℝ) ⟨1⟩ (short_series ℝ).N2 0 0 ∧
    fit_stage_new_inds (fun N v => Real.sqrt (∑ i in Finset.range N, v i ^ 2)) 10 2
        (short_series ℝ) [1] [1] (unit_template ℝ) ⟨1⟩ =
      (fit_stage_kernel (fun N v => Real.sqrt (∑ i in Finset.range N, v i ^ 2))
        (short_series ℝ) [1] [1] (unit_template ℝ) ⟨1⟩).map Prod.snd :=
  have h := single_chunk_degeneration (fun N v => Real.sqrt (∑ i in Finset.range N, v i ^ 2))
    10 2 (short_series ℝ) [1] [1] (unit_template ℝ) ⟨1⟩
    (by decide) (by decide) rfl (by decide) rfl
  ⟨h.1, h.2.1, h.2.2.1, h.2.2.2 (by
    intro i hi
    have hi1 : i < 1 := hi
    interval_cases i
    exact ⟨by decide, by decide⟩)⟩

/-- The chunk of the double seam example that starts at 0: chunk column 10 is series
position 8, the event is accepted and appended. -/
theorem double_seam_chunk_zero :
    chunk_contribution (fun N v => Real.sqrt (∑ i in Finset.range N, v i ^ 2))
        (double_seam_series ℝ) [10] [1] (unit_template ℝ) ⟨1⟩ 10 2 0 = some [0] := by
  have hpos : 0 < score_at (fun N v => Real.sqrt (∑ i in Finset.range N, v i ^ 2))
      (readChunk (double_seam_series ℝ) (-2) 1 14) [10] [1] (unit_template ℝ) ⟨1⟩ 0 := by
    show 0 < compute_score0 _ 1 _ _
    rw [score_one_sample _ real_sqrt_norm]
    have h1 : ptr (readChunk (double_seam_series ℝ) (-2) 1 14).data
        (win_off (readChunk (double_seam_series ℝ) (-2) 1 14) ⟨1⟩
          (([10] : List Int).getD 0 0)) 0 = 1 := rfl
    have h2 : template_ptr (unit_template ℝ) (([1] : List Int).getD 0 0) 0 = 1 := rfl
    rw [h1, h2]
    norm_num
  show (fit_stage_kernel (fun N v => Real.sqrt (∑ i in Finset.range N, v i ^ 2))
      (readChunk (double_seam_series ℝ) (-2) 1 14) [10] [1] (unit_template ℝ) ⟨1⟩).map
      (fun r => forLoop r.2.length (merge_body ⟨[0], [10], [1]⟩ r.2 10 2) []) = some [0]
  rw [kernel_single_accept _ _ _ _ 10 1 (by decide) hpos]
  rfl

/-- The chunk of the double seam example that starts at 10: chunk column 10 is series
position 18, the event is accepted and appended a second time. -/
theorem double_seam_chunk_ten :
    chunk_contribution (fun N v => Real.sqrt (∑ i in Finset.range N, v i ^ 2))
        (double_seam_series ℝ) [10] [1] (unit_template ℝ) ⟨1⟩ 10 2 10 = some [0] := by
  have hpos : 0 < score_at (fun N v => Real.sqrt (∑ i in Finset.range N, v i ^ 2))
      (readChunk (double_seam_series ℝ) 8 1 14) [10] [1] (unit_template ℝ) ⟨1⟩ 0 := by
    show 0 < compute_score0 _ 1 _ _
    rw [score_one_sample _ real_sqrt_norm]
    have h1 : ptr (readChunk (double_seam_series ℝ) 8 1 14).data
        (win_off (readChunk (double_seam_series ℝ) 8 1 14) ⟨1⟩
          (([10] : List Int).getD 0 0)) 0 = 1 := rfl
    have h2 : template_ptr (unit_template ℝ) (([1] : List Int).getD 0 0) 0 = 1 := rfl
    rw [h1, h2]
    norm_num
  show (fit_stage_kernel (fun N v => Real.sqrt (∑ i in Finset.range N, v i ^ 2))
      (readChunk (double_seam_series ℝ) 8 1 14) [10] [1] (unit_template ℝ) ⟨1⟩).map
      (fun r => forLoop r.2.length (merge_body ⟨[0], [10], [1]⟩ r.2 10 2) []) = some [0]
  rw [kernel_single_accept _ _ _ _ 10 1 (by decide) hpos]
  rfl

/-- C11, the code at a failing input (chunk size 10, overlap 2, series of length 20 with
unit samples at times 8 and 18, clip size 1, template `[1]`, one event at time 10 with
label 1): with the chunks in loop order the driver builds `inds_to_use = [0, 0]`, which
is not strictly ascending and lists event 0 twice. -/
theorem driver_lists_event_twice :
    fit_stage_new_inds (fun N v => Real.sqrt (∑ i in Finset.range N, v i ^ 2)) 10 2
        (double_seam_series ℝ) [10] [1] (unit_template ℝ) ⟨1⟩ = some [0, 0] ∧
    ¬ ([0, 0] : List Nat).Pairwise (· < ·) := by
  refine ⟨?_, by decide⟩
  show ((some [] : Option (List Nat)).bind (fun inds =>
      (chunk_contribution (fun N v => Real.sqrt (∑ i in Finset.range N, v i ^ 2))
        (double_seam_series ℝ) [10] [1] (unit_template ℝ) ⟨1⟩ 10 2 0).map
        (fun more => inds ++ more))).bind (fun inds =>
      (chunk_contribution (fun N v => Real.sqrt (∑ i in Finset.range N, v i ^ 2))
        (double_seam_series ℝ) [10] [1] (unit_template ℝ) ⟨1⟩ 10 2 10).map
        (fun more => inds ++ more)) = some [0, 0]
  rw [double_seam_chunk_zero, double_seam_chunk_ten]
  rfl

/-- C12, the code at a failing input (chunk size 10, overlap 2, the seam series of length
20, clip size 1, one event at time 19 with label 1): for the chunk that starts at 10 the
driver hands this event to the kernel with time value 19, the chunk buffer has 14
columns, and the column range `[19 - Tmid, 19 - Tmid + 1)` is not inside `[0, 14)`. -/
theorem chunk_window_outside_buffer :
    (chunk_events [19] [1] 10 2 10).local_times = [19] ∧
    (chunk_events [19] [1] 10 2 10).local_labels = [1] ∧
    (chunk_buffer (seam_series ℝ) 10 2 10).N2 = 14 ∧
    ¬ window_inside (chunk_buffer (seam_series ℝ) 10 2 10) ⟨1⟩ 19 := by
  refine ⟨rfl, rfl, rfl, ?_⟩
  intro h
  have h2 := h.2.1
  have e1 : ((chunk_buffer (seam_series ℝ) 10 2 10).N2 : Int) = 14 := rfl
  have e2 : Tmid ⟨1⟩ = 0 := rfl
  rw [e1, e2] at h2
  exact absurd h2 (by decide)

end Driver
/-! ## The selector as local-maximum suppression -/

section LocalMax
variable {α : Type} [LinearOrderedField α]

/-- Result of the rescan loop (without the clearing statement) started with best score 0
on positive scores: the best score bounds every scanned score inside the window, and
either nothing scanned lies in the window, or the best pointer is the first scanned
position of maximal score inside the window. -/
theorem rescan_noclear_max (times : List Int) (scores : List α) (opts : fit_stage_opts)
    (i a k : Nat) (s0 : SelState α) (hs0 : s0.last_best_score = 0)
    (hpos : ∀ j, j < a + k → 0 < scores.getD j 0) :
    (∀ ii, a ≤ ii → ii < a + k → times.getD i 0 - opts.clip_size ≤ times.getD ii 0 →
      scores.getD ii 0 ≤
        (forLoop k (fun j => rescan_body_noclear times scores opts i (a + j)) s0).last_best_score) ∧
    (((forLoop k (fun j => rescan_body_noclear times scores opts i (a + j)) s0).last_best_score
          = 0 ∧
        (forLoop k (fun j => rescan_body_noclear times scores opts i (a + j)) s0).last_best_ind
          = s0.last_best_ind ∧
        ∀ ii, a ≤ ii → ii < a + k →
          ¬ (times.getD i 0 - opts.clip_size ≤ times.getD ii 0)) ∨
      (a ≤ (forLoop k (fun j => rescan_body_noclear times scores opts i (a + j)) s0).last_best_ind ∧
        (forLoop k (fun j => rescan_body_noclear times scores opts i (a + j)) s0).last_best_ind
          < a + k ∧
        times.getD i 0 - opts.clip_size ≤ times.getD
          (forLoop k (fun j => rescan_body_noclear times scores opts i (a + j)) s0).last_best_ind 0 ∧
        (forLoop k (fun j => rescan_body_noclear times scores opts i (a + j)) s0).last_best_score
          = scores.getD
            (forLoop k (fun j => rescan_body_noclear times scores opts i (a + j)) s0).last_best_ind 0 ∧
        ∀ ii, a ≤ ii →
          ii < (forLoop k (fun j => rescan_body_noclear times scores opts i (a + j)) s0).last_best_ind →
          times.getD i 0 - opts.clip_size ≤ times.getD ii 0 →
          scores.getD ii 0 <
            (forLoop k (fun j => rescan_body_noclear times scores opts i (a + j)) s0).last_best_score)) := by
  induction k with
  | zero =>
    refine ⟨fun ii h1 h2 => by omega, Or.inl ⟨hs0, rfl, fun ii h1 h2 => by omega⟩⟩
  | succ k ih =>
    obtain ⟨ih1, ih2⟩ := ih (fun j hj => hpos j (by omega))
    rw [forLoop_succ]
    generalize forLoop k (fun j => rescan_body_noclear times scores opts i (a + j)) s0 = r
      at ih1 ih2 ⊢
    have hp : 0 < scores.getD (a + k) 0 := hpos (a + k) (by omega)
    unfold rescan_body_noclear
    by_cases hw : times.getD (a + k) 0 ≥ times.getD i 0 - opts.clip_size
    · simp only [hw, if_true]
      by_cases hg : scores.getD (a + k) 0 > r.last_best_score
      · simp only [hg, if_true]
        refine ⟨?_, Or.inr ⟨Nat.le_add_right a k, by omega, hw, trivial, ?_⟩⟩
        · intro ii h1 h2 h3
          rcases Nat.lt_or_ge ii (a + k) with h | h
          · exact le_trans (ih1 ii h1 h h3) (le_of_lt hg)
          · have : ii = a + k := by omega
            rw [this]
        · intro ii h1 h2 h3
          exact lt_of_le_of_lt (ih1 ii h1 h2 h3) hg
      · simp only [hg, if_false]
        have hle : scores.getD (a + k) 0 ≤ r.last_best_score := not_lt.mp hg
        refine ⟨?_, ?_⟩
        · intro ii h1 h2 h3
          rcases Nat.lt_or_ge ii (a + k) with h | h
          · exact ih1 ii h1 h h3
          · have : ii = a + k := by omega
            rw [this]; exact hle
        · rcases ih2 with h | h
          · rw [h.1] at hle
            exact absurd hp (not_lt.mpr hle)
          · exact Or.inr ⟨h.1, by omega, h.2.2.1, h.2.2.2.1, h.2.2.2.2⟩
    · simp only [hw, if_false]
      refine ⟨?_, ?_⟩
      · intro ii h1 h2 h3
        rcases Nat.lt_or_ge ii (a + k) with h | h
        · exact ih1 ii h1 h h3
        · have : ii = a + k := by omega
          rw [this] at h3
          exact absurd h3 hw
      · rcases ih2 with h | h
        · refine Or.inl ⟨h.1, h.2.1, ?_⟩
          intro ii h1 h2
          rcases Nat.lt_or_ge ii (a + k) with h3 | h3
          · exact h.2.2 ii h1 h3
          · have : ii = a + k := by omega
            rw [this]; exact hw
        · exact Or.inr ⟨h.1, by omega, h.2.2.1, h.2.2.2.1, h.2.2.2.2⟩

/-- Facts about the state `s1` that the outer loop holds at position `i` after the
optional rescan, from which both branches of the comparison are settled. -/
theorem after_rescan_facts (times : List Int) (scores : List α) (opts : fit_stage_opts)
    (hs : List.Sorted (· ≤ ·) times) (hpos : ∀ j, j < times.length → 0 < scores.getD j 0)
    (i : Nat) (hi : i < times.length) (s : SelState α)
    (inv : LocalMaxInv times scores opts.clip_size i s)
    (hz : ∀ m, s.last_best_ind < m → s.to_use.getD m 0 = 0)
    (hfar : ∀ m, s.to_use.getD m 0 = 1 → m ≠ s.last_best_ind →
      ∀ k, i ≤ k → k < times.length → times.getD m 0 + opts.clip_size < times.getD k 0)
    (s1 : SelState α)
    (hs1 : (if times.getD s.last_best_ind 0 < times.getD i 0 - opts.clip_size then
        forLoop (i - (s.last_best_ind + 1))
          (fun j => rescan_body_noclear times scores opts i (s.last_best_ind + 1 + j))
          { s with last_best_score := 0 }
      else s) = s1) :
    s1.to_use = s.to_use ∧
    (∀ j, j < i → times.getD i 0 - opts.clip_size ≤ times.getD j 0 →
      scores.getD j 0 ≤ s1.last_best_score) ∧
    (s1.last_best_score = 0 ∨
      (s1.last_best_ind < i ∧
        times.getD i 0 - opts.clip_size ≤ times.getD s1.last_best_ind 0 ∧
        s1.last_best_score = scores.getD s1.last_best_ind 0)) ∧
    (0 < s1.last_best_score →
      ∀ j, s1.last_best_ind ≤ j → j < i → scores.getD j 0 ≤ s1.last_best_score) ∧
    (0 < s1.last_best_score →
      ∀ j, j < s1.last_best_ind → scores.getD j 0 < s1.last_best_score ∨
        ∀ k, i + 1 ≤ k → k < times.length →
          times.getD j 0 + opts.clip_size < times.getD k 0) ∧
    (∀ m, s.to_use.getD m 0 = 1 →
      (m = s1.last_best_ind ∧ 0 < s1.last_best_score) ∨
        times.getD m 0 + opts.clip_size < times.getD i 0) := by
  have mono : ∀ a b, a ≤ b → b < times.length → times.getD a 0 ≤ times.getD b 0 :=
    fun a b hab hb => sorted_getD times hs a b hab hb
  have hbi : s.last_best_ind < i := inv.best.1
  by_cases hr : times.getD s.last_best_ind 0 < times.getD i 0 - opts.clip_size
  · rw [if_pos hr] at hs1
    have hk : s.last_best_ind + 1 + (i - (s.last_best_ind + 1)) = i := by omega
    obtain ⟨r1, r2⟩ := rescan_noclear_max times scores opts i (s.last_best_ind + 1)
      (i - (s.last_best_ind + 1)) { s with last_best_score := 0 } rfl
      (fun j hj => hpos j (by omega))
    have htu := (rescan_loop_noclear times scores opts i (s.last_best_ind + 1)
      (i - (s.last_best_ind + 1)) { s with last_best_score := 0 } (fun m hm => hz m hm)).2.1
    rw [hs1] at r1 r2 htu
    rw [hk] at r1 r2
    have hout : ∀ j, j ≤ s.last_best_ind →
        times.getD j 0 + opts.clip_size < times.getD i 0 := by
      intro j hj
      have := mono j s.last_best_ind hj (by omega)
      linarith
    refine ⟨htu, ?_, ?_, ?_, ?_, ?_⟩
    · intro j hj hw
      rcases Nat.lt_or_ge s.last_best_ind j with h | h
      · exact r1 j h hj hw
      · have := hout j h
        linarith
    · rcases r2 with h | h
      · exact Or.inl h.1
      · exact Or.inr ⟨h.2.1, h.2.2.1, h.2.2.2.1⟩
    · intro hp j hj1 hj2
      rcases r2 with h | h
      · rw [h.1] at hp; exact absurd hp (lt_irrefl _)
      · have hw : times.getD i 0 - opts.clip_size ≤ times.getD j 0 :=
          le_trans h.2.2.1 (mono _ j hj1 (by omega))
        exact r1 j (le_trans h.1 hj1) hj2 hw
    · intro hp j hj
      rcases r2 with h | h
      · rw [h.1] at hp; exact absurd hp (lt_irrefl _)
      · rcases Nat.lt_or_ge s.last_best_ind j with h1 | h1
        · by_cases hw : times.getD i 0 - opts.clip_size ≤ times.getD j 0
          · exact Or.inl (h.2.2.2.2 j h1 hj hw)
          · right
            intro k hk1 hk2
            have := mono i k (by omega) hk2
            linarith [not_le.mp hw]
        · right
          intro k hk1 hk2
          have := mono i k (by omega) hk2
          linarith [hout j h1]
    · intro m hm
      right
      have hml : m ≤ s.last_best_ind := by
        by_contra hc
        rw [hz m (not_le.mp hc)] at hm
        exact absurd hm (by decide)
      exact hout m hml
  · rw [if_neg hr] at hs1
    subst hs1
    have hlp : 0 < s.last_best_score := by
      rw [inv.best.2]; exact hpos _ (by omega)
    refine ⟨rfl, ?_, Or.inr ⟨hbi, not_lt.mp hr, inv.best.2⟩, fun _ => inv.upper, ?_, ?_⟩
    · intro j hj hw
      rcases Nat.lt_or_ge j s.last_best_ind with h | h
      · rcases inv.lower j h with h1 | h1
        · exact le_of_lt h1
        · have := h1 i (le_refl _) hi
          linarith
      · exact inv.upper j h hj
    · intro _ j hj
      exact (inv.lower j hj).imp id (fun h k hk1 hk2 => h k (by omega) hk2)
    · intro m hm
      by_cases hmb : m = s.last_best_ind
      · exact Or.inl ⟨hmb, hlp⟩
      · exact Or.inr (hfar m hm hmb i (le_refl _) hi)

/-- One step of the outer loop keeps the local-maximum invariant. -/
theorem select_body_localmax (times : List Int) (scores : List α) (opts : fit_stage_opts)
    (hs : List.Sorted (· ≤ ·) times) (hpos : ∀ j, j < times.length → 0 < scores.getD j 0)
    (i : Nat) (hi : i < times.length) (s : SelState α)
    (inv : LocalMaxInv times scores opts.clip_size i s)
    (hz : ∀ m, s.last_best_ind < m → s.to_use.getD m 0 = 0)
    (hfar : ∀ m, s.to_use.getD m 0 = 1 → m ≠ s.last_best_ind →
      ∀ k, i ≤ k → k < times.length → times.getD m 0 + opts.clip_size < times.getD k 0) :
    LocalMaxInv times scores opts.clip_size (i + 1) (select_body times scores opts i s) := by
  have mono : ∀ a b, a ≤ b → b < times.length → times.getD a 0 ≤ times.getD b 0 :=
    fun a b hab hb => sorted_getD times hs a b hab hb
  rw [(select_body_noclear_eq times scores opts i s hz (le_of_lt inv.best.1)).1]
  have hsc : scores.getD i 0 > 0 := hpos i hi
  unfold select_body_noclear
  simp only [hsc, if_true]
  generalize hs1 : (if times.getD s.last_best_ind 0 < times.getD i 0 - opts.clip_size then
        forLoop (i - (s.last_best_ind + 1))
          (fun j => rescan_body_noclear times scores opts i (s.last_best_ind + 1 + j))
          { s with last_best_score := 0 }
      else s) = s1
  obtain ⟨k1, k2, k3, k4, k5, k6⟩ :=
    after_rescan_facts times scores opts hs hpos i hi s inv hz hfar s1 hs1
  have hlen1 : s1.to_use.length = times.length := by rw [k1]; exact inv.len
  -- marks of the positions other than `i` that survive this step
  have hold : ∀ m, m ≠ i → s.to_use.getD m 0 = 1 →
      times.getD m 0 + opts.clip_size < times.getD i 0 ∨
        (m = s1.last_best_ind ∧ scores.getD i 0 ≤ scores.getD m 0) →
      (m < i + 1 ∧ prefix_max times scores opts.clip_size m ∧
        no_later_bigger times scores opts.clip_size m (i + 1)) := by
    intro m _ hm hcase
    obtain ⟨h1, h2, h3⟩ := (inv.marks m).mp hm
    refine ⟨Nat.lt_succ_of_lt h1, h2, ?_⟩
    intro j hj1 hj2 hj3
    rcases Nat.lt_or_ge j i with h | h
    · exact h3 j hj1 h hj3
    · have hji : j = i := by omega
      rw [hji] at hj3 ⊢
      rcases hcase with hc | hc
      · linarith
      · exact hc.2
  have hback : ∀ m, m ≠ i → (m < i + 1 ∧ prefix_max times scores opts.clip_size m ∧
        no_later_bigger times scores opts.clip_size m (i + 1)) → s.to_use.getD m 0 = 1 := by
    intro m hmi h
    have hlt : m < i := by omega
    exact (inv.marks m).mpr ⟨hlt, h.2.1, fun j hj1 hj2 hj3 => h.2.2 j hj1 (by omega) hj3⟩
  by_cases hgt : scores.getD i 0 > s1.last_best_score
  · simp only [hgt, if_true]
    have hpm : prefix_max times scores opts.clip_size i :=
      fun j hj hw => lt_of_le_of_lt (k2 j hj hw) hgt
    refine { len := ?_, marks := ?_, best := ⟨Nat.lt_succ_self i, rfl⟩, upper := ?_, lower := ?_ }
    · by_cases hp : s1.last_best_score > 0
      · simp only [hp, if_true, List.length_set, hlen1]
      · simp only [hp, if_false, List.length_set, hlen1]
    · intro m
      by_cases hmi : m = i
      · subst hmi
        have hl : m < (if s1.last_best_score > 0 then
            ({ s1 with to_use := s1.to_use.set s1.last_best_ind 0 } : SelState α)
            else s1).to_use.length := by
          by_cases hp : s1.last_best_score > 0
          · simp only [hp, if_true, List.length_set, hlen1]; exact hi
          · simp only [hp, if_false, hlen1]; exact hi
        rw [getD_set_int, if_pos ⟨rfl, hl⟩]
        refine ⟨fun _ => ⟨Nat.lt_succ_self m, hpm, fun j hj1 hj2 _ => by omega⟩, fun _ => rfl⟩
      · have hne : ¬ (i = m ∧ i < (if s1.last_best_score > 0 then
            ({ s1 with to_use := s1.to_use.set s1.last_best_ind 0 } : SelState α)
            else s1).to_use.length) := fun h => hmi h.1.symm
        rw [getD_set_int, if_neg hne]
        by_cases hp : s1.last_best_score > 0
        · simp only [hp, if_true]
          by_cases hmb : m = s1.last_best_ind
          · -- the previous best is demoted, and it is not a local maximum any more
            have hz0 : (s1.to_use.set s1.last_best_ind 0).getD m 0 = 0 := by
              rw [getD_set_int]
              by_cases hl : s1.last_best_ind < s1.to_use.length
              · rw [if_pos ⟨hmb.symm, hl⟩]
              · rw [if_neg (fun h => hl h.2)]
                exact List.getD_eq_default _ _ (by rw [hmb]; exact not_lt.mp hl)
            rw [hz0]
            constructor
            · intro h; exact absurd h (by decide)
            · intro h
              rcases k3 with h3 | h3
              · rw [h3] at hp; exact absurd hp (lt_irrefl _)
              · have hnl := h.2.2 i (by rw [hmb]; exact h3.1) (Nat.lt_succ_self i)
                  (by rw [hmb]; linarith [h3.2.1])
                rw [hmb, ← h3.2.2] at hnl
                exact absurd hgt (not_lt.mpr hnl)
          · have hne2 : ¬ (s1.last_best_ind = m ∧ s1.last_best_ind < s1.to_use.length) :=
              fun h => hmb h.1.symm
            rw [getD_set_int, if_neg hne2, k1]
            constructor
            · intro hm
              refine hold m hmi hm (Or.inl ?_)
              rcases k6 m hm with h6 | h6
              · exact absurd h6.1 hmb
              · exact h6
            · exact hback m hmi
        · simp only [hp, if_false]
          rw [k1]
          constructor
          · intro hm
            refine hold m hmi hm (Or.inl ?_)
            rcases k6 m hm with h6 | h6
            · exact absurd h6.2 hp
            · exact h6
          · exact hback m hmi
    · intro j hj1 hj2
      have hj1b : i ≤ j := hj1
      have hji : j = i := by omega
      rw [hji]
    · intro j hj
      have hjb : j < i := hj
      by_cases hw : times.getD i 0 - opts.clip_size ≤ times.getD j 0
      · exact Or.inl (hpm j hjb hw)
      · right
        intro k hk1 hk2
        have := mono i k (by omega) hk2
        linarith [not_le.mp hw]
  · simp only [hgt, if_false]
    have hle : scores.getD i 0 ≤ s1.last_best_score := not_lt.mp hgt
    have hp : 0 < s1.last_best_score := lt_of_lt_of_le hsc hle
    have hb : s1.last_best_ind < i ∧
        times.getD i 0 - opts.clip_size ≤ times.getD s1.last_best_ind 0 ∧
        s1.last_best_score = scores.getD s1.last_best_ind 0 := by
      rcases k3 with h3 | h3
      · rw [h3] at hp; exact absurd hp (lt_irrefl _)
      · exact h3
    refine { len := hlen1, marks := ?_, best := ⟨Nat.lt_succ_of_lt hb.1, hb.2.2⟩,
             upper := ?_, lower := k5 hp }
    · intro m
      rw [k1]
      by_cases hmi : m = i
      · constructor
        · intro hm
          have := ((inv.marks m).mp hm).1
          omega
        · intro h
          have hlt := h.2.1 s1.last_best_ind (by rw [hmi]; exact hb.1)
            (by rw [hmi]; exact hb.2.1)
          rw [hmi, ← hb.2.2] at hlt
          exact absurd hlt (not_lt.mpr hle)
      · constructor
        · intro hm
          refine hold m hmi hm ?_
          rcases k6 m hm with h6 | h6
          · right
            refine ⟨h6.1, ?_⟩
            rw [h6.1, ← hb.2.2]
            exact hle
          · exact Or.inl h6
        · exact hback m hmi
    · intro j hj1 hj2
      rcases Nat.lt_or_ge j i with h | h
      · exact k4 hp j hj1 h
      · have hji : j = i := by omega
        rw [hji]; exact hle

/-- The local-maximum invariant holds after every positive number of positions. -/
theorem select_loop_localmax (times : List Int) (scores : List α) (opts : fit_stage_opts)
    (hs : List.Sorted (· ≤ ·) times) (hpos : ∀ j, j < times.length → 0 < scores.getD j 0)
    (hW : 0 ≤ opts.clip_size) (n : Nat) (hn : n < times.length) :
    LocalMaxInv times scores opts.clip_size (n + 1) (select_loop times scores opts (n + 1)) := by
  induction n with
  | zero =>
    have h0 := hpos 0 hn
    have hno : ¬ (times.getD 0 0 < times.getD 0 0 - opts.clip_size) := by
      intro h; linarith
    have e : select_loop times scores opts (0 + 1) =
        { to_use := (List.replicate times.length 0).set 0 1,
          last_best_score := scores.getD 0 0, last_best_ind := 0 } := by
      show select_body times scores opts 0 ⟨List.replicate times.length 0, 0, 0⟩ = _
      rw [select_body_no_rescan times scores opts 0 _ h0 hno]
      simp only [gt_iff_lt, h0, if_true, lt_irrefl, if_false]
    rw [e]
    refine { len := by simp, marks := ?_, best := ⟨Nat.lt_succ_self 0, rfl⟩,
             upper := ?_, lower := ?_ }
    · intro m
      rw [getD_set_int]
      by_cases hm : 0 = m
      · subst hm
        rw [if_pos ⟨rfl, by simpa using hn⟩]
        exact ⟨fun _ => ⟨Nat.lt_succ_self 0, fun j hj _ => absurd hj (Nat.not_lt_zero j),
          fun j hj1 hj2 _ => by omega⟩, fun _ => rfl⟩
      · rw [if_neg (fun h => hm h.1)]
        have hrep : (List.replicate times.length (0 : Int)).getD m 0 = 0 := by
          simp only [List.getD_eq_getElem?_getD, List.getElem?_replicate]
          split_ifs <;> rfl
        rw [hrep]
        constructor
        · intro h; exact absurd h (by decide)
        · intro h; omega
    · intro j hj1 hj2
      have hj0 : j = 0 := by omega
      rw [hj0]
    · intro j hj
      exact absurd hj (Nat.not_lt_zero j)
  | succ n ih =>
    have ih := ih (Nat.lt_of_succ_lt hn)
    have e : select_loop times scores opts (n + 1 + 1) =
        select_body times scores opts (n + 1) (select_loop times scores opts (n + 1)) := rfl
    rw [e]
    obtain ⟨h1, h2, _⟩ := select_loop_noclear_eq times scores opts (n + 1)
    rw [← h1] at h2
    have sinv := select_loop_inv times scores opts hs (n + 1) (Nat.le_of_lt hn)
    exact select_body_localmax times scores opts hs hpos (n + 1) hn _ ih h2
      (fun m hm hne k hk hkl => sinv.far m hm hne k hk hkl)

/-- C15 (the selector is strict local-maximum suppression): on ascending times, with
aligned scores that are all positive and a clip size `W ≥ 0`, `find_events_to_use0` marks
position `i` with 1 exactly when every earlier position within `W` of `i` has a strictly
smaller score and every later position within `W` of `i` has a score that is not larger
(so among equal scores within `W` the earliest wins). -/
theorem selector_local_maximum (times : List Int) (scores : List α) (opts : fit_stage_opts)
    (hs : List.Sorted (· ≤ ·) times) (_hlen : scores.length = times.length)
    (hpos : ∀ j, j < times.length → 0 < scores.getD j 0) (hW : 0 ≤ opts.clip_size)
    (i : Nat) (hi : i < times.length) :
    (find_events_to_use0 times scores opts).getD i 0 = 1 ↔
      ((∀ j, j < i → times.getD j 0 ≥ times.getD i 0 - opts.clip_size →
          scores.getD j 0 < scores.getD i 0) ∧
       (∀ j, i < j → j < times.length → times.getD j 0 ≤ times.getD i 0 + opts.clip_size →
          scores.getD j 0 ≤ scores.getD i 0)) := by
  have inv := select_loop_localmax times scores opts hs hpos hW (times.length - 1) (by omega)
  have e : times.length - 1 + 1 = times.length := by omega
  rw [e] at inv
  unfold find_events_to_use0
  rw [inv.marks i]
  constructor
  · intro h
    exact ⟨h.2.1, h.2.2⟩
  · intro h
    exact ⟨hi, h.1, h.2⟩

/-- Witness for C15: three candidates with clip size 10; position 1 is marked, and it is a
strict local maximum. -/
theorem selector_local_maximum_witness :
    (find_events_to_use0 [0, 5, 20] ([5, 9, 4] : List ℚ) ⟨10⟩).getD 1 0 = 1 ↔
      ((∀ j, j < 1 → ([0, 5, 20] : List Int).getD j 0 ≥ ([0, 5, 20] : List Int).getD 1 0 - 10 →
          ([5, 9, 4] : List ℚ).getD j 0 < ([5, 9, 4] : List ℚ).getD 1 0) ∧
       (∀ j, 1 < j → j < ([0, 5, 20] : List Int).length →
          ([0, 5, 20] : List Int).getD j 0 ≤ ([0, 5, 20] : List Int).getD 1 0 + 10 →
          ([5, 9, 4] : List ℚ).getD j 0 ≤ ([5, 9, 4] : List ℚ).getD 1 0)) :=
  selector_local_maximum [0, 5, 20] ([5, 9, 4] : List ℚ) ⟨10⟩ (by decide) (by decide)
    (by
      intro j hj
      have hj3 : j < 3 := hj
      interval_cases j <;> decide)
    (by decide) 1 (by decide)

end LocalMax
/-! ## Shell splitting -/

/-- C18, the code at a failing input (three events with labels 1, 1, 2 and peaks 1, 10,
10; the shell definition splits the peak list `[1, 10]` into two shells and keeps every
other peak list as one shell, a partition of the positions in every case): events 1 and 2
have the different positive labels 1 and 2 on entry and both carry label 3 in the table
that `split_into_shells0` returns. -/
theorem shells_merge_two_clusters :
    (∀ peaks : List ℚ,
      (two_shell_split peaks).flatten.Perm (List.range peaks.length)) ∧
    mixed_firings.value 2 1 = 1 ∧ mixed_firings.value 2 2 = 2 ∧
    (split_into_shells0 two_shell_split mixed_firings).value 2 1 = 3 ∧
    (split_into_shells0 two_shell_split mixed_firings).value 2 2 = 3 := by
  refine ⟨?_, by decide, by decide, by decide, by decide⟩
  intro peaks
  unfold two_shell_split
  by_cases h : peaks = [1, 10]
  · rw [if_pos h, h]
    decide
  · rw [if_neg h]
    simp

end FitStage
